import Mathlib

/-!
Fork-Simulator: the virtual-memory core `vms.c`

A shallow embedding of `page_fault_handler`, `vms_fork_copy` and
`vms_fork_copy_on_write` together with the global `page_reference_count`
ledger, and theorems about them.

Physical memory is an arena of pages addressed by a dense page index; a page is
a sequence of 64-bit words and a `uint64_t*` into a page is the pair
(page index, slot).  The C code reads and writes through such pointers, so every
read in the embedding goes to the *current* memory: aliasing between tables is
modelled, not assumed away.
-/

namespace Vms

/-! ## Data model -/

/-- Modelled from the spec: the page-table entry of `mmu.h`, a fixed-width word
holding a physical frame number and the four independent flags `valid`, `read`,
`write` and `custom`.  The field `rest` stands for the bits of the word that no
accessor used by `vms.c` reads or writes.  The same word type is the content of
data pages, since one store backs both kinds of page. -/
@[ext]
structure PTE where
  ppn : Nat
  valid : Bool
  read : Bool
  write : Bool
  custom : Bool
  rest : Nat
deriving DecidableEq, Repr

/-- The all-zero word. -/
def PTE.zero : PTE := ⟨0, false, false, false, false, 0⟩

/-- A `uint64_t*` pointing into a page: (page index, slot). -/
abbrev Addr := Nat × Nat

/-- The machine state the three functions act on.
* `mem p t` is word `t` of the page with index `p`;
* `next` is the allocation pointer of the Physical Page Store;
* `ledger` is the global array `page_reference_count`, a C `int` per page, each
  count held as an integer (`LedgerInt` says that every count lies in the
  range of an `int`). -/
@[ext]
structure State where
  mem : Nat → Nat → PTE
  next : Nat
  ledger : Nat → Int

/-- Read the word a pointer designates. -/
def State.rd (s : State) (a : Addr) : PTE := s.mem a.1 a.2

/-- Store a word through a pointer. -/
def State.wr (s : State) (a : Addr) (e : PTE) : State :=
  { s with mem := fun p t => if p = a.1 ∧ t = a.2 then e else s.mem p t }

/-! ## The collaborators of `mmu.h` and `pages.h` -/

/-- Modelled from the spec: `vms_ppn_to_page` of `mmu.h`; a page is identified
with its frame number. -/
def vms_ppn_to_page (ppn : Nat) : Nat := ppn

/-- Modelled from the spec: `vms_page_to_ppn` of `mmu.h`. -/
def vms_page_to_ppn (page : Nat) : Nat := page

/-- Modelled from the spec: `vms_get_page_index` of `pages.h`, the dense index of
a page. -/
def vms_get_page_index (page : Nat) : Nat := page

/-- Modelled from the spec: `vms_page_table_pte_entry_from_index` of `mmu.h`, the
entry slot `index` of the table page `page_table`. -/
def vms_page_table_pte_entry_from_index (page_table index : Nat) : Addr :=
  (page_table, index)

/-- Modelled from the spec: `vms_pte_get_ppn` of `mmu.h`. -/
def vms_pte_get_ppn (s : State) (pte : Addr) : Nat := (s.rd pte).ppn

/-- Modelled from the spec: `vms_pte_set_ppn` of `mmu.h`. -/
def vms_pte_set_ppn (s : State) (pte : Addr) (ppn : Nat) : State :=
  s.wr pte { s.rd pte with ppn := ppn }

/-- Modelled from the spec: `vms_pte_valid` of `mmu.h`. -/
def vms_pte_valid (s : State) (pte : Addr) : Bool := (s.rd pte).valid

/-- Modelled from the spec: `vms_pte_valid_set` of `mmu.h`. -/
def vms_pte_valid_set (s : State) (pte : Addr) : State :=
  s.wr pte { s.rd pte with valid := true }

/-- Modelled from the spec: `vms_pte_read` of `mmu.h`. -/
def vms_pte_read (s : State) (pte : Addr) : Bool := (s.rd pte).read

/-- Modelled from the spec: `vms_pte_read_set` of `mmu.h`. -/
def vms_pte_read_set (s : State) (pte : Addr) : State :=
  s.wr pte { s.rd pte with read := true }

/-- Modelled from the spec: `vms_pte_write` of `mmu.h`. -/
def vms_pte_write (s : State) (pte : Addr) : Bool := (s.rd pte).write

/-- Modelled from the spec: `vms_pte_write_set` of `mmu.h`. -/
def vms_pte_write_set (s : State) (pte : Addr) : State :=
  s.wr pte { s.rd pte with write := true }

/-- Modelled from the spec: `vms_pte_write_clear` of `mmu.h`. -/
def vms_pte_write_clear (s : State) (pte : Addr) : State :=
  s.wr pte { s.rd pte with write := false }

/-- Modelled from the spec: `vms_pte_custom` of `mmu.h`. -/
def vms_pte_custom (s : State) (pte : Addr) : Bool := (s.rd pte).custom

/-- Modelled from the spec: `vms_pte_custom_set` of `mmu.h`. -/
def vms_pte_custom_set (s : State) (pte : Addr) : State :=
  s.wr pte { s.rd pte with custom := true }

/-- Modelled from the spec: `vms_pte_custom_clear` of `mmu.h`. -/
def vms_pte_custom_clear (s : State) (pte : Addr) : State :=
  s.wr pte { s.rd pte with custom := false }

/-- Modelled from the spec: `vms_new_page` of `pages.h`.  The Physical Page Store
hands out the page at the allocation pointer and advances the pointer; the
content of the page is whatever the store holds there (the spec leaves it
"zero-or-uninitialized").  Pages are never freed and exhaustion of the store is
outside the model. -/
def vms_new_page (s : State) : Nat × State := (s.next, { s with next := s.next + 1 })

/-- The libc call `memcpy(dst, src, PAGE_SIZE)` on two pages. -/
def memcpy (s : State) (dst src : Nat) : State :=
  { s with mem := fun p => if p = dst then s.mem src else s.mem p }

/-- The value of `EFAULT` in `errno.h`. -/
def EFAULT : Nat := 14

/-- Modelled from the spec: the index that a virtual address selects in the table
of a given level, with `n` entries per table (`mmu.h`). -/
def vms_get_pte_index (n va level : Nat) : Nat := (va / n ^ level) % n

/-- Modelled from the spec: `vms_page_table_pte_entry` of `mmu.h`, which walks
from the root table `page_table` to the entry for `va` at `level` (2 is the
root level, 0 the leaf level). -/
def vms_page_table_pte_entry (n : Nat) (mem : Nat → Nat → PTE)
    (page_table va level : Nat) : Addr :=
  let l2 : Addr := (page_table, vms_get_pte_index n va 2)
  if level ≥ 2 then l2
  else
    let l1 : Addr := ((mem l2.1 l2.2).ppn, vms_get_pte_index n va 1)
    if level = 1 then l1
    else ((mem l1.1 l1.2).ppn, vms_get_pte_index n va 0)

/-! ## `page_fault_handler` -/

/-- How a call of `page_fault_handler` ends: it returns, or it calls
`exit(code)`; in both cases `st` is the machine state at that moment. -/
inductive FaultResult where
  | resolved (st : State)
  | fatal (code : Nat) (st : State)

/-- The state a fault handler call ends in. -/
def FaultResult.state : FaultResult → State
  | .resolved st => st
  | .fatal _ st => st

/-- Whether the call ended in `exit`. -/
def FaultResult.isFatal : FaultResult → Bool
  | .resolved _ => false
  | .fatal _ _ => true

/-- The function `page_fault_handler` of `vms.c`.  The accessor
`vms_page_table_pte_entry` is not part of `vms.c` and is taken as the parameter
`pte_entry`; it is called once and the handler works through the pointer it
returned.  The diagnostic `print_pte_entry` has no effect on the state. -/
def page_fault_handler (pte_entry : (Nat → Nat → PTE) → Nat → Nat → Nat → Addr)
    (virtual_address level page_table : Nat) (s : State) : FaultResult :=
  let pte := pte_entry s.mem page_table virtual_address level
  if !vms_pte_valid s pte then .fatal EFAULT s
  else if !vms_pte_custom s pte then .fatal EFAULT s
  else if !vms_pte_read s pte then .fatal EFAULT s
  else if vms_pte_custom s pte then
    let ppn := vms_pte_get_ppn s pte
    let old_page := vms_ppn_to_page ppn
    let page_index := vms_get_page_index old_page
    if s.ledger page_index > 1 then
      let r := vms_new_page s
      let new_page := r.1
      let s := r.2
      let s := vms_pte_set_ppn s pte (vms_page_to_ppn new_page)
      let s := vms_pte_write_set s pte
      let s := memcpy s new_page old_page
      let s := { s with ledger := fun q =>
        if q = page_index then s.ledger page_index - 1 else s.ledger q }
      let s := { s with ledger := fun q =>
        if q = vms_get_page_index new_page then 1 else s.ledger q }
      if s.ledger page_index = 1 then .resolved (vms_pte_custom_clear s pte)
      else .resolved s
    else
      let s := vms_pte_write_set s pte
      let s := vms_pte_custom_clear s pte
      .resolved s
  else .resolved s

/-! ## The two tree duplicators -/

/-- The C loop `for (int i = 0; i < n; ++i) body`, threading the state. -/
def forLoop {σ : Type} : Nat → (Nat → σ → σ) → σ → σ
  | 0, _, s => s
  | n + 1, body, s => body n (forLoop n body s)

/-- The statement `++page_reference_count[idx]` for a count below `INT_MAX`: the
count, as an integer, raised by 1.  `ledger_incr_int` is the statement for every
count of a 32-bit `int`, where incrementing `INT_MAX` wraps around. -/
def ledger_incr (s : State) (idx : Nat) : State :=
  { s with ledger := fun q => if q = idx then s.ledger idx + 1 else s.ledger q }

/-- Body of the innermost loop of `vms_fork_copy` (lines 144-179), for leaf slot
`k`; `parent_l1_entry` and `child_l0` are the pointers held by the enclosing
iteration. -/
def copy_l0_body (parent_l1_entry : Addr) (child_l0 : Nat) (k : Nat) (s : State) : State :=
  let parent_l0_entry :=
    vms_page_table_pte_entry_from_index (vms_ppn_to_page (vms_pte_get_ppn s parent_l1_entry)) k
  if vms_pte_valid s parent_l0_entry then
    let r := vms_new_page s
    let child_page := r.1
    let s := r.2
    let child_l0_entry := vms_page_table_pte_entry_from_index child_l0 k
    let s := vms_pte_set_ppn s child_l0_entry (vms_page_to_ppn child_page)
    let s := memcpy s child_page (vms_ppn_to_page (vms_pte_get_ppn s parent_l0_entry))
    let s := vms_pte_valid_set s child_l0_entry
    let s := if vms_pte_read s parent_l0_entry then vms_pte_read_set s child_l0_entry else s
    let s := if vms_pte_write s parent_l0_entry then vms_pte_write_set s child_l0_entry else s
    let s := if vms_pte_custom s parent_l0_entry then vms_pte_custom_set s child_l0_entry else s
    s
  else s

/-- Body of the middle loop of `vms_fork_copy` (lines 120-181), for L1 slot `j`,
with `n` entries per table. -/
def copy_l1_body (n : Nat) (parent_l2_entry : Addr) (child_l1 : Nat) (j : Nat)
    (s : State) : State :=
  let parent_l1_entry :=
    vms_page_table_pte_entry_from_index (vms_ppn_to_page (vms_pte_get_ppn s parent_l2_entry)) j
  if vms_pte_valid s parent_l1_entry then
    let r := vms_new_page s
    let child_l0 := r.1
    let s := r.2
    let child_l1_entry := vms_page_table_pte_entry_from_index child_l1 j
    let s := vms_pte_set_ppn s child_l1_entry (vms_page_to_ppn child_l0)
    let s := memcpy s child_l0 (vms_ppn_to_page (vms_pte_get_ppn s parent_l1_entry))
    let s := vms_pte_valid_set s child_l1_entry
    forLoop n (copy_l0_body parent_l1_entry child_l0) s
  else s

/-- Body of the outer loop of `vms_fork_copy` (lines 96-184), for L2 slot `i`. -/
def copy_l2_body (n : Nat) (parent_l2 child_l2 : Nat) (i : Nat) (s : State) : State :=
  let parent_l2_entry := vms_page_table_pte_entry_from_index parent_l2 i
  if vms_pte_valid s parent_l2_entry then
    let r := vms_new_page s
    let child_l1 := r.1
    let s := r.2
    let child_l2_entry := vms_page_table_pte_entry_from_index child_l2 i
    let s := vms_pte_set_ppn s child_l2_entry (vms_page_to_ppn child_l1)
    let s := memcpy s child_l1 (vms_ppn_to_page (vms_pte_get_ppn s parent_l2_entry))
    let s := vms_pte_valid_set s child_l2_entry
    forLoop n (copy_l1_body n parent_l2_entry child_l1) s
  else s

/-- The function `vms_fork_copy` of `vms.c`.  `n` is `NUM_PTE_ENTRIES` and
`parent_l2` is what `vms_get_root_page_table()` returns; the result is the
child's root together with the final state. -/
def vms_fork_copy (n : Nat) (parent_l2 : Nat) (s : State) : Nat × State :=
  let r := vms_new_page s
  let child_l2 := r.1
  let s := r.2
  (child_l2, forLoop n (copy_l2_body n parent_l2 child_l2) s)

/-- Body of the innermost loop of `vms_fork_copy_on_write` (lines 238-295), for
leaf slot `k`. -/
def cow_l0_body (parent_l1_entry : Addr) (child_l0 : Nat) (k : Nat) (s : State) : State :=
  let parent_l0_entry :=
    vms_page_table_pte_entry_from_index (vms_ppn_to_page (vms_pte_get_ppn s parent_l1_entry)) k
  if vms_pte_valid s parent_l0_entry then
    let ppn := vms_pte_get_ppn s parent_l0_entry
    let child_l0_entry := vms_page_table_pte_entry_from_index child_l0 k
    let s := vms_pte_set_ppn s child_l0_entry ppn
    let s := vms_pte_valid_set s child_l0_entry
    let s :=
      if vms_pte_write s parent_l0_entry then
        let s := vms_pte_custom_set s parent_l0_entry
        let s := vms_pte_custom_set s child_l0_entry
        let s := vms_pte_write_clear s parent_l0_entry
        let s := vms_pte_write_clear s child_l0_entry
        if vms_pte_read s parent_l0_entry then vms_pte_read_set s child_l0_entry else s
      else
        let s := if vms_pte_read s parent_l0_entry then vms_pte_read_set s child_l0_entry else s
        let s := if vms_pte_write s parent_l0_entry then vms_pte_write_set s child_l0_entry else s
        if vms_pte_custom s parent_l0_entry then vms_pte_custom_set s child_l0_entry else s
    let s := ledger_incr s (vms_get_page_index (vms_ppn_to_page ppn))
    ledger_incr s (vms_get_page_index (vms_ppn_to_page (vms_pte_get_ppn s child_l0_entry)))
  else s

/-- Body of the middle loop of `vms_fork_copy_on_write` (lines 217-297), for L1
slot `j`. -/
def cow_l1_body (n : Nat) (parent_l2_entry : Addr) (child_l1 : Nat) (j : Nat)
    (s : State) : State :=
  let parent_l1_entry :=
    vms_page_table_pte_entry_from_index (vms_ppn_to_page (vms_pte_get_ppn s parent_l2_entry)) j
  if vms_pte_valid s parent_l1_entry then
    let r := vms_new_page s
    let child_l0 := r.1
    let s := r.2
    let child_l1_entry := vms_page_table_pte_entry_from_index child_l1 j
    let s := vms_pte_set_ppn s child_l1_entry (vms_page_to_ppn child_l0)
    let s := vms_pte_valid_set s child_l1_entry
    forLoop n (cow_l0_body parent_l1_entry child_l0) s
  else s

/-- Body of the outer loop of `vms_fork_copy_on_write` (lines 196-299), for L2
slot `i`. -/
def cow_l2_body (n : Nat) (parent_l2 child_l2 : Nat) (i : Nat) (s : State) : State :=
  let parent_l2_entry := vms_page_table_pte_entry_from_index parent_l2 i
  if vms_pte_valid s parent_l2_entry then
    let r := vms_new_page s
    let child_l1 := r.1
    let s := r.2
    let child_l2_entry := vms_page_table_pte_entry_from_index child_l2 i
    let s := vms_pte_set_ppn s child_l2_entry (vms_page_to_ppn child_l1)
    let s := vms_pte_valid_set s child_l2_entry
    forLoop n (cow_l1_body n parent_l2_entry child_l1) s
  else s

/-- The function `vms_fork_copy_on_write` of `vms.c`.  `n` is `NUM_PTE_ENTRIES`
and `parent_l2` is what `vms_get_root_page_table()` returns; the result is the
child's root together with the final state.  The counts are raised as integers
(`ledger_incr`); `vms_fork_copy_on_write_int` is the function with the counts in
the arithmetic of a 32-bit `int`, and the two agree when no count overflows
(`cow_fork_int_eq`). -/
def vms_fork_copy_on_write (n : Nat) (parent_l2 : Nat) (s : State) : Nat × State :=
  let r := vms_new_page s
  let child_l2 := r.1
  let s := r.2
  (child_l2, forLoop n (cow_l2_body n parent_l2 child_l2) s)

/-! ## Vocabulary of the statements -/

/-- What `vms_fork_copy_on_write` writes into the child's leaf entry, whose word
was `z`, when the parent's entry is `e` at that moment. -/
def cowChild (e z : PTE) : PTE :=
  { ppn := e.ppn, valid := true, read := z.read || e.read, write := z.write && !e.write,
    custom := z.custom || e.custom || e.write, rest := z.rest }

/-- What `vms_fork_copy_on_write` leaves in a valid parent leaf entry `e`. -/
def cowParent (e : PTE) : PTE :=
  { e with write := false, custom := e.custom || e.write }

/-- The number of indices below `n` that satisfy `f`. -/
def countBelow (n : Nat) (f : Nat → Bool) : Nat :=
  ∑ t ∈ Finset.range n, if f t then 1 else 0

/-- The number of valid entries of table page `l0`, among its `n` slots, whose
frame number is `q`. -/
def leafCountL0 (n : Nat) (mem : Nat → Nat → PTE) (l0 q : Nat) : Nat :=
  countBelow n (fun k => (mem l0 k).valid && decide ((mem l0 k).ppn = q))

/-- The number of valid leaf entries with frame number `q` below the L1 table `l1`. -/
def leafCountL1 (n : Nat) (mem : Nat → Nat → PTE) (l1 q : Nat) : Nat :=
  ∑ j ∈ Finset.range n, if (mem l1 j).valid then leafCountL0 n mem (mem l1 j).ppn q else 0

/-- The number of valid L0 entries of the tree rooted at `root`, reached through
valid L2 and L1 entries, whose frame number is `q`. -/
def leafCount (n : Nat) (mem : Nat → Nat → PTE) (root q : Nat) : Nat :=
  ∑ i ∈ Finset.range n, if (mem root i).valid then leafCountL1 n mem (mem root i).ppn q else 0

/-- Entry `b` is entry `a` itself, or `a` was writable and `b` is `a` downgraded to
a write-trapped shared mapping. -/
def Down (a b : PTE) : Prop :=
  b = a ∨ (a.write = true ∧ b = { a with write := false, custom := true })

/-- The effect a part of a duplicator may have had between states `s` and `s1`,
where the pages below `n0` are those in use when the duplicator was called, `c` is
the child table the part works on and `S` the slots of `c` it may write: pages
allocated before the part started are kept apart from those slots, pages not
yet allocated are untouched, and old entries are at most downgraded. -/
structure Frame (n0 c : Nat) (S : Nat → Prop) (s s1 : State) : Prop where
  next_le : s.next ≤ s1.next
  kept : ∀ p, n0 ≤ p → p < s.next → ∀ t, (p = c → ¬ S t) → s1.mem p t = s.mem p t
  fresh : ∀ p, s1.next ≤ p → ∀ t, s1.mem p t = s.mem p t
  old : ∀ p, p < n0 → ∀ t, Down (s.mem p t) (s1.mem p t)

/-- State `s` is reached from the state `s0` in which a duplicator was called:
the allocation pointer only grew, pages not yet allocated are untouched and
entries of the old pages are at most downgraded. -/
structure Evolves (s0 s : State) : Prop where
  next_le : s0.next ≤ s.next
  fresh : ∀ p, s.next ≤ p → ∀ t, s.mem p t = s0.mem p t
  old : ∀ p, p < s0.next → ∀ t, Down (s0.mem p t) (s.mem p t)

/-- Leaf slot `k` of the parent L0 table `l0` has been duplicated into the child
L0 table `c0`: a valid parent entry is no longer writable and the child's word
is what the duplicator derives from the parent's entry; for an invalid parent
entry the child's word is untouched. -/
def LeafOK (s0 s : State) (l0 c0 k : Nat) : Prop :=
  ((s0.mem l0 k).valid = true →
      (s.mem l0 k).write = false ∧
      ∃ e, Down (s0.mem l0 k) e ∧ s.mem c0 k = cowChild e (s0.mem c0 k)) ∧
  ((s0.mem l0 k).valid = false → s.mem c0 k = s0.mem c0 k)

/-- Slot `j` of the parent L1 table `l1` has been duplicated into the child L1
table `c1`: for a valid parent entry the child's entry is valid and names a page
`c0` allocated at or after `lo` into which the parent's L0 table has been
duplicated. -/
def L1EntryOK (n : Nat) (s0 s : State) (lo l1 c1 j : Nat) : Prop :=
  ((s0.mem l1 j).valid = true →
      ∃ c0, s.mem c1 j = { s0.mem c1 j with ppn := c0, valid := true } ∧
        lo ≤ c0 ∧ c0 < s.next ∧
        ∀ k, k < n → LeafOK s0 s (s0.mem l1 j).ppn c0 k) ∧
  ((s0.mem l1 j).valid = false → s.mem c1 j = s0.mem c1 j)

/-- Slot `i` of the parent root `l2` has been duplicated into the child root `c2`. -/
def L2EntryOK (n : Nat) (s0 s : State) (lo l2 c2 i : Nat) : Prop :=
  ((s0.mem l2 i).valid = true →
      ∃ c1, s.mem c2 i = { s0.mem c2 i with ppn := c1, valid := true } ∧
        lo ≤ c1 ∧ c1 < s.next ∧
        ∀ j, j < n → L1EntryOK n s0 s lo (s0.mem l2 i).ppn c1 j) ∧
  ((s0.mem l2 i).valid = false → s.mem c2 i = s0.mem c2 i)

/-- Every table page of the tree rooted at `root` is in use, that is, lies below
the allocation pointer: the root, the L1 tables named by valid root entries and
the L0 tables named by valid entries of those. -/
def TablesInUse (n : Nat) (root : Nat) (s : State) : Prop :=
  root < s.next ∧
  (∀ i, i < n → (s.mem root i).valid = true → (s.mem root i).ppn < s.next) ∧
  (∀ i, i < n → ∀ j, j < n → (s.mem root i).valid = true →
    (s.mem (s.mem root i).ppn j).valid = true → (s.mem (s.mem root i).ppn j).ppn < s.next)

instance (n root : Nat) (s : State) : Decidable (TablesInUse n root s) := by
  unfold TablesInUse; infer_instance

/-- Pages the allocator has not handed out yet are zero-filled. -/
def FreshZero (s : State) : Prop := ∀ p, s.next ≤ p → ∀ t, s.mem p t = PTE.zero

/-- Between `s` and `s1` the ledger and every page below `n0` are unchanged, and
the allocation pointer did not decrease. -/
structure SameBelow (n0 : Nat) (s s1 : State) : Prop where
  ledger_eq : s1.ledger = s.ledger
  next_le : s.next ≤ s1.next
  mem_eq : ∀ p, p < n0 → ∀ t, s1.mem p t = s.mem p t

/-- Pages allocated before a part of `vms_fork_copy` started are kept by it, apart
from the slots `S` of the child table `c` it works on. -/
structure Kept (n0 c : Nat) (S : Nat → Prop) (s s1 : State) : Prop where
  next_le : s.next ≤ s1.next
  kept : ∀ p, n0 ≤ p → p < s.next → ∀ t, (p = c → ¬ S t) → s1.mem p t = s.mem p t

/-- Leaf slot `k` of the parent L0 table `l0` has been copied into the child L0
table `c0`: for a valid parent entry the child's entry is the parent's with the
frame number of a page `d`, allocated at or after `lo`, that holds the contents
of the parent's data page; an invalid parent entry is copied as it is. -/
def CopyLeafOK (s0 s : State) (lo l0 c0 k : Nat) : Prop :=
  ((s0.mem l0 k).valid = true →
      ∃ d, s.mem c0 k = { s0.mem l0 k with ppn := d } ∧ lo ≤ d ∧ d < s.next ∧
        ∀ t, s.mem d t = s0.mem (s0.mem l0 k).ppn t) ∧
  ((s0.mem l0 k).valid = false → s.mem c0 k = s0.mem l0 k)

/-- Slot `j` of the parent L1 table `l1` has been copied into the child L1 table
`c1`. -/
def CopyL1EntryOK (n : Nat) (s0 s : State) (lo l1 c1 j : Nat) : Prop :=
  ((s0.mem l1 j).valid = true →
      ∃ c0, s.mem c1 j = { s0.mem l1 j with ppn := c0 } ∧ lo ≤ c0 ∧ c0 < s.next ∧
        ∀ k, k < n → CopyLeafOK s0 s lo (s0.mem l1 j).ppn c0 k) ∧
  ((s0.mem l1 j).valid = false → s.mem c1 j = s0.mem l1 j)

/-- Slot `i` of the parent root `l2` has been copied into the child root `c2`. -/
def CopyL2EntryOK (n : Nat) (s0 s : State) (lo l2 c2 i : Nat) : Prop :=
  ((s0.mem l2 i).valid = true →
      ∃ c1, s.mem c2 i = { s0.mem c2 i with ppn := c1, valid := true } ∧
        lo ≤ c1 ∧ c1 < s.next ∧
        ∀ j, j < n → CopyL1EntryOK n s0 s lo (s0.mem l2 i).ppn c1 j) ∧
  ((s0.mem l2 i).valid = false → s.mem c2 i = s0.mem c2 i)

/-- Every page of the tree rooted at `root` is in use: its table pages and the
data pages its valid leaf entries map. -/
def AllInUse (n : Nat) (root : Nat) (s : State) : Prop :=
  TablesInUse n root s ∧
  ∀ i, i < n → ∀ j, j < n → ∀ k, k < n → (s.mem root i).valid = true →
    (s.mem (s.mem root i).ppn j).valid = true →
    (s.mem (s.mem (s.mem root i).ppn j).ppn k).valid = true →
    (s.mem (s.mem (s.mem root i).ppn j).ppn k).ppn < s.next

set_option synthInstance.maxHeartbeats 200000 in
set_option synthInstance.maxSize 2048 in
instance (n root : Nat) (s : State) : Decidable (AllInUse n root s) := by
  unfold AllInUse; infer_instance

/-- The L1 table that slot `i` of the root names. -/
def l1Table (mem : Nat → Nat → PTE) (root i : Nat) : Nat := (mem root i).ppn

/-- The L0 table that position `(i, j)` of the tree names. -/
def l0Table (mem : Nat → Nat → PTE) (root i j : Nat) : Nat :=
  (mem (l1Table mem root i) j).ppn

/-- The leaf entry at position `(i, j, k)` of the tree rooted at `root`. -/
def leafEntry (mem : Nat → Nat → PTE) (root i j k : Nat) : PTE :=
  mem (l0Table mem root i j) k

/-- Position `(i, j)` is reached through a valid L2 and a valid L1 entry. -/
def Reached (mem : Nat → Nat → PTE) (root i j : Nat) : Prop :=
  (mem root i).valid = true ∧ (mem (l1Table mem root i) j).valid = true

/-- Page `q` is reachable through valid entries of the tree rooted at `root`, with
`n` slots per table: it is the root, a table named by a valid L2 or L1 entry, or
a data page named by a valid leaf entry. -/
def InTree (n : Nat) (mem : Nat → Nat → PTE) (root q : Nat) : Prop :=
  q = root ∨
  ∃ i, i < n ∧ (mem root i).valid = true ∧
    (q = (mem root i).ppn ∨
     ∃ j, j < n ∧ (mem (mem root i).ppn j).valid = true ∧
       (q = (mem (mem root i).ppn j).ppn ∨
        ∃ k, k < n ∧ (mem (mem (mem root i).ppn j).ppn k).valid = true ∧
          q = (mem (mem (mem root i).ppn j).ppn k).ppn))

/-- Page `q` is a data page of the tree rooted at `root`: a valid leaf entry,
reached through valid L2 and L1 entries, maps it. -/
def DataPage (n : Nat) (mem : Nat → Nat → PTE) (root q : Nat) : Prop :=
  ∃ i, i < n ∧ ∃ j, j < n ∧ ∃ k, k < n ∧ Reached mem root i j ∧
    (leafEntry mem root i j k).valid = true ∧ q = (leafEntry mem root i j k).ppn

/-- Overwrite the whole page `q` with `content`. -/
def page_write (s : State) (q : Nat) (content : Nat → PTE) : State :=
  { s with mem := fun p => if p = q then content else s.mem p }

instance (mem : Nat → Nat → PTE) (root i j : Nat) : Decidable (Reached mem root i j) := by
  unfold Reached; infer_instance

/-- Between `s` and `s1` the allocation pointer did not decrease and every page
that is still unallocated in `s1` is unchanged. -/
structure Confined (s s1 : State) : Prop where
  next_le : s.next ≤ s1.next
  above : ∀ p, s1.next ≤ p → ∀ t, s1.mem p t = s.mem p t

/-- Position `(i, j, k)` of the tree rooted at `root` holds a valid leaf entry,
reached through a valid L2 and a valid L1 entry. -/
def Mapped (mem : Nat → Nat → PTE) (root i j k : Nat) : Prop :=
  Reached mem root i j ∧ (leafEntry mem root i j k).valid = true

instance (mem : Nat → Nat → PTE) (root i j k : Nat) : Decidable (Mapped mem root i j k) := by
  unfold Mapped; infer_instance

/-- The number of valid entries of the L1 table `l1`, among its `n` slots. -/
def l1Size (n : Nat) (mem : Nat → Nat → PTE) (l1 : Nat) : Nat :=
  countBelow n (fun j => (mem l1 j).valid)

/-- The number of pages `vms_fork_copy_on_write` allocates for slot `i` of the
root: none for an invalid entry, and for a valid one the child's L1 table and one
L0 table per valid entry of the parent's L1 table. -/
def cowPages (n : Nat) (mem : Nat → Nat → PTE) (root i : Nat) : Nat :=
  if (mem root i).valid then 1 + l1Size n mem (mem root i).ppn else 0

/-- The page `vms_fork_copy_on_write` allocates for the child's L1 table of root
slot `i`, when the child's root is page `c2`: the pages are handed out in the
order of the loops. -/
def cowL1Page (n : Nat) (mem : Nat → Nat → PTE) (root c2 i : Nat) : Nat :=
  c2 + 1 + ∑ x ∈ Finset.range i, cowPages n mem root x

/-- The page `vms_fork_copy_on_write` allocates for the child's L0 table at
position `(i, j)`. -/
def cowL0Page (n : Nat) (mem : Nat → Nat → PTE) (root c2 i j : Nat) : Nat :=
  cowL1Page n mem root c2 i + 1 + countBelow j (fun y => (mem (mem root i).ppn y).valid)

/-- Page `q` is a table of the tree rooted at `root`, with `n` slots per table:
the root, an L1 table named by a valid root entry, or an L0 table named by a
valid entry of such an L1 table. -/
def TablePage (n : Nat) (mem : Nat → Nat → PTE) (root q : Nat) : Prop :=
  q = root ∨
  ∃ i, i < n ∧ (mem root i).valid = true ∧
    (q = l1Table mem root i ∨
     ∃ j, j < n ∧ (mem (l1Table mem root i) j).valid = true ∧ q = l0Table mem root i j)

/-- No entry of the root or of an L1 table of the tree rooted at `root` has
`custom` set (invariant I3 of the specification, for one tree). -/
def InteriorClean (n : Nat) (mem : Nat → Nat → PTE) (root : Nat) : Prop :=
  (∀ i, i < n → (mem root i).custom = false) ∧
  ∀ i, i < n → (mem root i).valid = true →
    ∀ j, j < n → (mem (l1Table mem root i) j).custom = false

instance (n : Nat) (mem : Nat → Nat → PTE) (root : Nat) : Decidable (InteriorClean n mem root) := by
  unfold InteriorClean; infer_instance

/-- No L0 table of the tree rooted at `root` is the root or one of the L1 tables
of the tree. -/
def LevelsApart (n : Nat) (mem : Nat → Nat → PTE) (root : Nat) : Prop :=
  ∀ i, i < n → ∀ j, j < n → Reached mem root i j →
    l0Table mem root i j ≠ root ∧
    ∀ x, x < n → (mem root x).valid = true → l0Table mem root i j ≠ l1Table mem root x

set_option synthInstance.maxHeartbeats 200000 in
set_option synthInstance.maxSize 2048 in
instance (n : Nat) (mem : Nat → Nat → PTE) (root : Nat) : Decidable (LevelsApart n mem root) := by
  unfold LevelsApart; infer_instance

/-- A fork followed by one fault of each side on the same virtual address: the
child faults first when `childFirst` is set, the parent otherwise.  The result
is the child's root and the outcomes of the first and of the second fault. -/
def cow_scenario (pe : (Nat → Nat → PTE) → Nat → Nat → Nat → Addr) (va level : Nat)
    (n root : Nat) (childFirst : Bool) (s : State) : Nat × FaultResult × FaultResult :=
  let f := vms_fork_copy_on_write n root s
  let r1 := page_fault_handler pe va level (if childFirst then f.1 else root) f.2
  let r2 := page_fault_handler pe va level (if childFirst then root else f.1) r1.state
  (f.1, r1, r2)

/-- The contribution of the leaf word `e` to the number of mappings of page `q`. -/
def mapsTo (e : PTE) (q : Nat) : Nat := if e.valid && decide (e.ppn = q) then 1 else 0

/-- The number of valid leaf entries, over the trees rooted at the pages in
`live`, whose frame number is `q`. -/
def mappings (n : Nat) (mem : Nat → Nat → PTE) (live : List Nat) (q : Nat) : Nat :=
  (live.map (fun r => leafCount n mem r q)).sum

/-- The trees rooted at the pages in `live` form a well-formed forest: the roots
are distinct, every page of every tree is in use, distinct reached positions
(of the same or of different trees) name distinct L0 tables, no L0 table is the
root or an L1 table of a live tree, and pages not yet allocated are
zero-filled. -/
structure Forest (N : Nat) (s : State) (live : List Nat) : Prop where
  nodup : live.Nodup
  inuse : ∀ r, r ∈ live → AllInUse N r s
  inj : ∀ r, r ∈ live → ∀ x, x ∈ live → ∀ i, i < N → ∀ j, j < N → ∀ u, u < N → ∀ v, v < N →
    Reached s.mem r i j → Reached s.mem x u v →
    l0Table s.mem r i j = l0Table s.mem x u v → r = x ∧ i = u ∧ j = v
  apart : ∀ r, r ∈ live → ∀ x, x ∈ live → ∀ i, i < N → ∀ j, j < N → Reached s.mem r i j →
    l0Table s.mem r i j ≠ x ∧
    ∀ u, u < N → (s.mem x u).valid = true → l0Table s.mem r i j ≠ l1Table s.mem x u
  zero : FreshZero s

/-- The root and the L1 tables of the tree rooted at `x` hold, in `m1`, entries
with the validity and frame numbers they have in `m`. -/
def InteriorSame (N : Nat) (m m1 : Nat → Nat → PTE) (x : Nat) : Prop :=
  (∀ i, i < N → (m1 x i).valid = (m x i).valid ∧ (m1 x i).ppn = (m x i).ppn) ∧
  ∀ i, i < N → (m x i).valid = true → ∀ j, j < N →
    (m1 (l1Table m x i) j).valid = (m (l1Table m x i) j).valid ∧
    (m1 (l1Table m x i) j).ppn = (m (l1Table m x i) j).ppn

/-- What a call of `page_fault_handler` on entry `a` does between `s` and `s1`:
either it is not the shared case, and then nothing but the flags of `a` can have
changed, `a` being made writable only for a page with count at most 1; or it is
the shared case, and then `a` names the page that was next to be allocated and
is writable, the counts are adjusted, and the other words of the pages in use
are as they were. -/
def FaultEffect (s s1 : State) (a : Addr) : Prop :=
  (s1.next = s.next ∧ s1.ledger = s.ledger ∧ (∀ b, b ≠ a → s1.rd b = s.rd b) ∧
    (s1.rd a).valid = (s.rd a).valid ∧ (s1.rd a).ppn = (s.rd a).ppn ∧
    (s1.rd a = s.rd a ∨ (s.ledger (s.rd a).ppn ≤ 1 ∧ (s1.rd a).write = true))) ∨
  ((s.rd a).valid = true ∧ 1 < s.ledger (s.rd a).ppn ∧ s1.next = s.next + 1 ∧
    (s1.ledger = fun q => if q = s.next then 1
      else if q = (s.rd a).ppn then s.ledger q - 1 else s.ledger q) ∧
    (∀ b, b ≠ a → b.1 ≠ s.next → s1.rd b = s.rd b) ∧
    (s1.rd a).valid = true ∧ (s1.rd a).ppn = s.next ∧ (s1.rd a).write = true)

/-- The ledger accounts for the mappings of the live trees: the count of a page is
at least the number of valid leaf entries that map it, a page mapped by a
writable valid leaf entry has count at most 1, and while there are exactly two
live trees the count of every page is exactly the number of its mappings. -/
structure Counted (N : Nat) (s : State) (live : List Nat) : Prop where
  enough : ∀ q, (mappings N s.mem live q : Int) ≤ s.ledger q
  excl : ∀ r, r ∈ live → ∀ i, i < N → ∀ j, j < N → ∀ k, k < N → Mapped s.mem r i j k →
    (leafEntry s.mem r i j k).write = true → s.ledger (leafEntry s.mem r i j k).ppn ≤ 1
  exact : live.length = 2 → ∀ q, s.ledger q = (mappings N s.mem live q : Int)

/-- Every valid leaf entry of the live trees is writable or custom: no mapping is
read-only without being write-trapped. -/
def NoPlainReadOnly (N : Nat) (s : State) (live : List Nat) : Prop :=
  ∀ r, r ∈ live → ∀ i, i < N → ∀ j, j < N → ∀ k, k < N → Mapped s.mem r i j k →
    (leafEntry s.mem r i j k).write = true ∨ (leafEntry s.mem r i j k).custom = true

/-- The states reached from the state `s0`, whose only tree is rooted at `r0`, by
calls of `vms_fork_copy_on_write` on a live tree and of `page_fault_handler` on a
leaf slot of a live tree that is reached through valid L2 and L1 entries;
`live` lists the roots of the trees, the child of a fork being added in front.
A fatal fault leaves the state as it is. -/
inductive Reach (N r0 : Nat) (s0 : State) : State → List Nat → Prop
  | init : Reach N r0 s0 s0 [r0]
  | fork {s : State} {live : List Nat} (r : Nat) (h : Reach N r0 s0 s live) (hr : r ∈ live) :
      Reach N r0 s0 (vms_fork_copy_on_write N r s).2 ((vms_fork_copy_on_write N r s).1 :: live)
  | fault {s : State} {live : List Nat} (pe : (Nat → Nat → PTE) → Nat → Nat → Nat → Addr)
      (va level r i j k : Nat) (h : Reach N r0 s0 s live) (hr : r ∈ live)
      (hi : i < N) (hj : j < N) (hk : k < N) (hre : Reached s.mem r i j)
      (hpe : pe s.mem r va level = (l0Table s.mem r i j, k)) :
      Reach N r0 s0 (page_fault_handler pe va level r s).state live

/-- Every page mapped by a valid leaf entry of a live tree has ledger count at
least 1 (invariant I1 of the specification). -/
def Backed (N : Nat) (s : State) (live : List Nat) : Prop :=
  ∀ r, r ∈ live → ∀ i, i < N → ∀ j, j < N → ∀ k, k < N → Mapped s.mem r i j k →
    1 ≤ s.ledger (leafEntry s.mem r i j k).ppn

set_option synthInstance.maxHeartbeats 200000 in
set_option synthInstance.maxSize 2048 in
instance (N : Nat) (s : State) (live : List Nat) : Decidable (Backed N s live) := by
  unfold Backed; infer_instance

set_option synthInstance.maxHeartbeats 200000 in
set_option synthInstance.maxSize 2048 in
instance (N : Nat) (s : State) (live : List Nat) : Decidable (NoPlainReadOnly N s live) := by
  unfold NoPlainReadOnly; infer_instance

/-! ## The counts in machine arithmetic -/

/-- The largest value of a C `int` of 32 bits. -/
def INT_MAX : Int := 2147483647

/-- The smallest value of a C `int` of 32 bits. -/
def INT_MIN : Int := -2147483648

/-- The value a 32-bit two's complement `int` holds when the integer `x` is
stored in it: `x` itself between `INT_MIN` and `INT_MAX`, and wrapped around
modulo `2 ^ 32` outside. -/
def int_wrap (x : Int) : Int := (x - INT_MIN) % 4294967296 + INT_MIN

/-- The statement `++page_reference_count[idx]` in the arithmetic of the machine:
the counter is a 32-bit `int`, and incrementing `INT_MAX` wraps to `INT_MIN`. -/
def ledger_incr_int (s : State) (idx : Nat) : State :=
  { s with ledger := fun q => if q = idx then int_wrap (s.ledger idx + 1) else s.ledger q }

/-- Body of the innermost loop of `vms_fork_copy_on_write` (lines 238-295) with the
two increments of lines 292-293 in machine arithmetic. -/
def cow_l0_body_int (parent_l1_entry : Addr) (child_l0 : Nat) (k : Nat) (s : State) : State :=
  let parent_l0_entry :=
    vms_page_table_pte_entry_from_index (vms_ppn_to_page (vms_pte_get_ppn s parent_l1_entry)) k
  if vms_pte_valid s parent_l0_entry then
    let ppn := vms_pte_get_ppn s parent_l0_entry
    let child_l0_entry := vms_page_table_pte_entry_from_index child_l0 k
    let s := vms_pte_set_ppn s child_l0_entry ppn
    let s := vms_pte_valid_set s child_l0_entry
    let s :=
      if vms_pte_write s parent_l0_entry then
        let s := vms_pte_custom_set s parent_l0_entry
        let s := vms_pte_custom_set s child_l0_entry
        let s := vms_pte_write_clear s parent_l0_entry
        let s := vms_pte_write_clear s child_l0_entry
        if vms_pte_read s parent_l0_entry then vms_pte_read_set s child_l0_entry else s
      else
        let s := if vms_pte_read s parent_l0_entry then vms_pte_read_set s child_l0_entry else s
        let s := if vms_pte_write s parent_l0_entry then vms_pte_write_set s child_l0_entry else s
        if vms_pte_custom s parent_l0_entry then vms_pte_custom_set s child_l0_entry else s
    let s := ledger_incr_int s (vms_get_page_index (vms_ppn_to_page ppn))
    ledger_incr_int s (vms_get_page_index (vms_ppn_to_page (vms_pte_get_ppn s child_l0_entry)))
  else s

/-- Body of the middle loop of `vms_fork_copy_on_write` (lines 217-297), counting
in machine arithmetic. -/
def cow_l1_body_int (n : Nat) (parent_l2_entry : Addr) (child_l1 : Nat) (j : Nat)
    (s : State) : State :=
  let parent_l1_entry :=
    vms_page_table_pte_entry_from_index (vms_ppn_to_page (vms_pte_get_ppn s parent_l2_entry)) j
  if vms_pte_valid s parent_l1_entry then
    let r := vms_new_page s
    let child_l0 := r.1
    let s := r.2
    let child_l1_entry := vms_page_table_pte_entry_from_index child_l1 j
    let s := vms_pte_set_ppn s child_l1_entry (vms_page_to_ppn child_l0)
    let s := vms_pte_valid_set s child_l1_entry
    forLoop n (cow_l0_body_int parent_l1_entry child_l0) s
  else s

/-- Body of the outer loop of `vms_fork_copy_on_write` (lines 196-299), counting in
machine arithmetic. -/
def cow_l2_body_int (n : Nat) (parent_l2 child_l2 : Nat) (i : Nat) (s : State) : State :=
  let parent_l2_entry := vms_page_table_pte_entry_from_index parent_l2 i
  if vms_pte_valid s parent_l2_entry then
    let r := vms_new_page s
    let child_l1 := r.1
    let s := r.2
    let child_l2_entry := vms_page_table_pte_entry_from_index child_l2 i
    let s := vms_pte_set_ppn s child_l2_entry (vms_page_to_ppn child_l1)
    let s := vms_pte_valid_set s child_l2_entry
    forLoop n (cow_l1_body_int n parent_l2_entry child_l1) s
  else s

/-- The function `vms_fork_copy_on_write` of `vms.c` with `page_reference_count`
counted in machine arithmetic: the same statements as `vms_fork_copy_on_write`,
the increments being those of a 32-bit `int`. -/
def vms_fork_copy_on_write_int (n : Nat) (parent_l2 : Nat) (s : State) : Nat × State :=
  let r := vms_new_page s
  let child_l2 := r.1
  let s := r.2
  (child_l2, forLoop n (cow_l2_body_int n parent_l2 child_l2) s)

/-- The state `s` with every count stored in a 32-bit `int`. -/
def wrapLedger (s : State) : State := { s with ledger := fun q => int_wrap (s.ledger q) }

/-- Every count of the ledger is the value of a C `int`. -/
def LedgerInt (s : State) : Prop := ∀ q, INT_MIN ≤ s.ledger q ∧ s.ledger q ≤ INT_MAX

/-- No increment of a call of `vms_fork_copy_on_write` on the tree rooted at `root`
overflows: the count of each page, raised by 2 for every valid leaf entry of
the tree that maps the page, does not exceed `INT_MAX`. -/
def CountsFit (n : Nat) (s : State) (root : Nat) : Prop :=
  ∀ q, s.ledger q + 2 * (leafCount n s.mem root q : Int) ≤ INT_MAX

/-! ## Concrete address spaces -/

/-- Memory of Scenario A of the spec, with two entries per table: the root table
is page 0, its slot 0 names the L1 table page 1, whose slot 0 names the L0 table
page 2, whose slot 0 maps data page 7 readable and writable; page 7 holds the
word 65 in every slot and everything else is zero. -/
def scenarioMem : Nat → Nat → PTE := fun p t =>
  if p = 0 ∧ t = 0 then ⟨1, true, false, false, false, 0⟩
  else if p = 1 ∧ t = 0 then ⟨2, true, false, false, false, 0⟩
  else if p = 2 ∧ t = 0 then ⟨7, true, true, true, false, 0⟩
  else if p = 7 then ⟨0, false, false, false, false, 65⟩
  else PTE.zero

/-- Scenario A of the spec: pages 0..7 are in use and the ledger is all zero. -/
def scenarioA : State := ⟨scenarioMem, 8, fun _ => 0⟩

/-- Scenario A after `vms_fork_copy_on_write`. -/
def scenarioFork : Nat × State := vms_fork_copy_on_write 2 0 scenarioA

/-- Scenario B of the spec: after the fork, the child faults on virtual address
0 at the leaf level. -/
def scenarioB : FaultResult :=
  page_fault_handler (vms_page_table_pte_entry 2) 0 0 scenarioFork.1 scenarioFork.2

/-- The parent of Scenario A forks a second time, after the first fork. -/
def scenarioFork2 : Nat × State := vms_fork_copy_on_write 2 0 scenarioFork.2

/-- The second child faults on virtual address 0 at the leaf level while page 7
is still shared. -/
def scenarioFault2 : FaultResult :=
  page_fault_handler (vms_page_table_pte_entry 2) 0 0 scenarioFork2.1 scenarioFork2.2

/-- Memory of Scenario A in which page 8, the next page the allocator hands out,
is not zero-filled: its slot 1 holds a valid entry naming page 7. -/
def staleMem : Nat → Nat → PTE := fun p t =>
  if p = 8 ∧ t = 1 then ⟨7, true, true, true, false, 0⟩ else scenarioMem p t

/-- Scenario A with a stale word in the first free page. -/
def staleState : State := ⟨staleMem, 8, fun _ => 0⟩

/-- Memory of an address space like Scenario A whose single leaf mapping, to page
7, is readable but not writable. -/
def readOnlyMem : Nat → Nat → PTE := fun p t =>
  if p = 0 ∧ t = 0 then ⟨1, true, false, false, false, 0⟩
  else if p = 1 ∧ t = 0 then ⟨2, true, false, false, false, 0⟩
  else if p = 2 ∧ t = 0 then ⟨7, true, true, false, false, 0⟩
  else if p = 7 then ⟨0, false, false, false, false, 65⟩
  else PTE.zero

/-- An address space with one read-only leaf mapping; pages 0..7 are in use. -/
def readOnlyState : State := ⟨readOnlyMem, 8, fun _ => 0⟩

/-- Memory of Scenario A in which page 8, the next page the allocator hands out,
is not zero-filled: its slot 1 holds a valid entry naming page 0. -/
def staleRootMem : Nat → Nat → PTE := fun p t =>
  if p = 8 ∧ t = 1 then ⟨0, true, false, false, false, 0⟩ else scenarioMem p t

/-- Scenario A with a stale word naming the parent's root in the first free page. -/
def staleRootState : State := ⟨staleRootMem, 8, fun _ => 0⟩

/-- Scenario A in which the sole leaf entry is already write-trapped: valid,
readable, not writable and custom, with ledger count 0 for its page. -/
def trappedState : State :=
  ⟨fun p t => if p = 2 ∧ t = 0 then ⟨7, true, true, false, true, 0⟩ else scenarioMem p t,
   8, fun _ => 0⟩

/-- Scenario A with ledger count 1 for the mapped page 7. -/
def ownedState : State := ⟨scenarioMem, 8, fun q => if q = 7 then 1 else 0⟩

/-- Scenario A in which page 10, the page that becomes the child's L0 table in a
fork, is not zero-filled: its slot 1 holds a valid, readable and writable entry
naming page `q`. -/
def staleLeafState (q : Nat) : State :=
  ⟨fun p t => if p = 10 ∧ t = 1 then ⟨q, true, true, true, false, 0⟩ else scenarioMem p t,
   8, fun _ => 0⟩

/-- Scenario A with the count of the mapped page 7 at `INT_MAX`. -/
def maxedState : State := ⟨scenarioMem, 8, fun q => if q = 7 then 2147483647 else 0⟩

/-! ## Theorems: `page_fault_handler` -/

section Handler

variable (pe : (Nat → Nat → PTE) → Nat → Nat → Nat → Addr) (va level pt : Nat) (s : State)

theorem handler_shared_eq
    (hv : (s.rd (pe s.mem pt va level)).valid = true)
    (hc : (s.rd (pe s.mem pt va level)).custom = true)
    (hr : (s.rd (pe s.mem pt va level)).read = true)
    (hn : 1 < s.ledger (s.rd (pe s.mem pt va level)).ppn)
    (hold : (s.rd (pe s.mem pt va level)).ppn ≠ s.next)
    (htab : (pe s.mem pt va level).1 ≠ s.next) :
    page_fault_handler pe va level pt s =
      .resolved
        { mem := fun p t =>
            if p = (pe s.mem pt va level).1 ∧ t = (pe s.mem pt va level).2 then
              { s.rd (pe s.mem pt va level) with
                  ppn := s.next, write := true,
                  custom := if s.ledger (s.rd (pe s.mem pt va level)).ppn = 2 then false
                            else true }
            else if p = s.next then
              (if (s.rd (pe s.mem pt va level)).ppn = (pe s.mem pt va level).1
                  ∧ t = (pe s.mem pt va level).2 then
                { s.rd (pe s.mem pt va level) with ppn := s.next, write := true }
               else s.mem (s.rd (pe s.mem pt va level)).ppn t)
            else s.mem p t
          next := s.next + 1
          ledger := fun q =>
            if q = s.next then 1
            else if q = (s.rd (pe s.mem pt va level)).ppn then s.ledger q - 1
            else s.ledger q } := by
  generalize hA : pe s.mem pt va level = a at *
  obtain ⟨a1, a2⟩ := a
  simp only [State.rd] at hv hc hr hn hold htab ⊢
  simp [page_fault_handler, vms_pte_valid, vms_pte_custom, vms_pte_read, vms_pte_get_ppn,
    vms_ppn_to_page, vms_get_page_index, vms_new_page, vms_pte_set_ppn, vms_pte_write_set,
    vms_page_to_ppn, memcpy, vms_pte_custom_clear, State.rd, State.wr, hA, hv, hc, hr, hn,
    hold, htab]
  have h2 : s.ledger (s.mem a1 a2).ppn - 1 = 1 ↔ s.ledger (s.mem a1 a2).ppn = 2 := by omega
  by_cases h : s.ledger (s.mem a1 a2).ppn = 2
  · simp [h]
    constructor
    · funext p t
      split_ifs <;> simp_all
    · funext q
      split_ifs <;> simp_all
  · simp [h2, h]
    constructor
    · funext p t
      split_ifs <;> simp_all
    · funext q
      split_ifs <;> simp_all

end Handler

section HandlerClaims

variable (pe : (Nat → Nat → PTE) → Nat → Nat → Nat → Addr) (va level pt : Nat) (s : State)

/-- Ledger after a fault on a shared page, needing only that the old page is in use. -/
theorem handler_shared_ledger
    (hv : (s.rd (pe s.mem pt va level)).valid = true)
    (hc : (s.rd (pe s.mem pt va level)).custom = true)
    (hr : (s.rd (pe s.mem pt va level)).read = true)
    (hn : 1 < s.ledger (s.rd (pe s.mem pt va level)).ppn) :
    (page_fault_handler pe va level pt s).isFatal = false ∧
    (page_fault_handler pe va level pt s).state.next = s.next + 1 ∧
    (page_fault_handler pe va level pt s).state.ledger = fun q =>
      if q = s.next then 1
      else if q = (s.rd (pe s.mem pt va level)).ppn then s.ledger q - 1
      else s.ledger q := by
  generalize hA : pe s.mem pt va level = a at *
  obtain ⟨a1, a2⟩ := a
  simp only [State.rd] at hv hc hr hn ⊢
  simp only [page_fault_handler, vms_pte_valid, vms_pte_custom, vms_pte_read, vms_pte_get_ppn,
    vms_ppn_to_page, vms_get_page_index, vms_new_page, vms_pte_set_ppn, vms_pte_write_set,
    vms_page_to_ppn, memcpy, vms_pte_custom_clear, State.rd, State.wr, hA, hv, hc, hr, hn]
  simp only [Bool.not_true, Bool.false_eq_true, if_false, if_true, gt_iff_lt]
  split_ifs <;>
    simp only [FaultResult.isFatal, FaultResult.state, true_and] <;>
    (funext q; split_ifs <;> simp_all)

/-- A fault on a shared page leaves every word outside the faulting entry and the
new page as it was. -/
theorem handler_shared_frame (b : Addr)
    (hv : (s.rd (pe s.mem pt va level)).valid = true)
    (hc : (s.rd (pe s.mem pt va level)).custom = true)
    (hr : (s.rd (pe s.mem pt va level)).read = true)
    (hn : 1 < s.ledger (s.rd (pe s.mem pt va level)).ppn)
    (hb : b ≠ pe s.mem pt va level) (hnew : b.1 ≠ s.next) :
    (page_fault_handler pe va level pt s).state.rd b = s.rd b := by
  generalize hA : pe s.mem pt va level = a at *
  obtain ⟨a1, a2⟩ := a
  obtain ⟨b1, b2⟩ := b
  simp only [State.rd] at hv hc hr hn ⊢
  have hb2 : ¬ (b1 = a1 ∧ b2 = a2) := fun h => hb (by rw [h.1, h.2])
  simp only [page_fault_handler, vms_pte_valid, vms_pte_custom, vms_pte_read, vms_pte_get_ppn,
    vms_ppn_to_page, vms_get_page_index, vms_new_page, vms_pte_set_ppn, vms_pte_write_set,
    vms_page_to_ppn, memcpy, vms_pte_custom_clear, State.rd, State.wr, hA, hv, hc, hr, hn]
  simp only [Bool.not_true, Bool.false_eq_true, if_false, if_true, gt_iff_lt]
  simp only at hnew
  split_ifs <;> simp only [FaultResult.state, hb2, hnew, if_false]

/-- A fault on a page that is not shared only sets `write` and clears `custom` on
the faulting entry. -/
theorem handler_sole_eq
    (hv : (s.rd (pe s.mem pt va level)).valid = true)
    (hc : (s.rd (pe s.mem pt va level)).custom = true)
    (hr : (s.rd (pe s.mem pt va level)).read = true)
    (hn : s.ledger (s.rd (pe s.mem pt va level)).ppn ≤ 1) :
    page_fault_handler pe va level pt s =
      .resolved (s.wr (pe s.mem pt va level)
        { s.rd (pe s.mem pt va level) with write := true, custom := false }) := by
  generalize hA : pe s.mem pt va level = a at *
  obtain ⟨a1, a2⟩ := a
  simp only [State.rd] at hv hc hr hn ⊢
  have hn2 : ¬ 1 < s.ledger (s.mem a1 a2).ppn := by omega
  simp only [page_fault_handler, vms_pte_valid, vms_pte_custom, vms_pte_read, vms_pte_get_ppn,
    vms_ppn_to_page, vms_get_page_index, vms_pte_write_set, vms_pte_custom_clear, State.rd,
    State.wr, hA, hv, hc, hr, hn2]
  simp only [Bool.not_true, Bool.false_eq_true, if_false, if_true, gt_iff_lt]
  congr 2
  funext p t
  split_ifs <;> simp_all

/-- C2: a fault on a valid, custom, readable entry whose page has reference count
above 1 resolves; the entry then names the page allocated by the call, which
differs from the old page, the new page holds the pre-fault contents of the old
page, the old page is unchanged and the entry is writable.  The old page and the
table holding the entry are pages in use, and the entry does not lie in the page
it maps. -/
theorem page_fault_handler_shared_copy
    (hv : (s.rd (pe s.mem pt va level)).valid = true)
    (hc : (s.rd (pe s.mem pt va level)).custom = true)
    (hr : (s.rd (pe s.mem pt va level)).read = true)
    (hn : 1 < s.ledger (s.rd (pe s.mem pt va level)).ppn)
    (hold : (s.rd (pe s.mem pt va level)).ppn < s.next)
    (htab : (pe s.mem pt va level).1 < s.next)
    (hself : (pe s.mem pt va level).1 ≠ (s.rd (pe s.mem pt va level)).ppn) :
    ∃ st, page_fault_handler pe va level pt s = .resolved st ∧
      st.next = s.next + 1 ∧
      (st.rd (pe s.mem pt va level)).ppn = s.next ∧
      s.next ≠ (s.rd (pe s.mem pt va level)).ppn ∧
      (∀ t, st.mem s.next t = s.mem (s.rd (pe s.mem pt va level)).ppn t) ∧
      (∀ t, st.mem (s.rd (pe s.mem pt va level)).ppn t
              = s.mem (s.rd (pe s.mem pt va level)).ppn t) ∧
      (st.rd (pe s.mem pt va level)).write = true := by
  refine ⟨_, handler_shared_eq pe va level pt s hv hc hr hn (by omega) (by omega), rfl, ?_, ?_,
    ?_, ?_, ?_⟩
  · simp [State.rd]
  · omega
  · intro t
    have h1 : ¬ s.next = (pe s.mem pt va level).1 := by omega
    have h2 : ¬ (s.rd (pe s.mem pt va level)).ppn = (pe s.mem pt va level).1 :=
      fun h => hself h.symm
    simp [h1, h2]
  · intro t
    have h1 : ¬ (s.rd (pe s.mem pt va level)).ppn = s.next := by omega
    have h2 : ¬ (s.rd (pe s.mem pt va level)).ppn = (pe s.mem pt va level).1 :=
      fun h => hself h.symm
    simp [h1, h2]
  · simp [State.rd]

/-- C3: after a fault on a valid, custom, readable entry whose page has reference
count `n > 1`, the old page's count is `n - 1`, the count of the page allocated by
the call is 1 and every other count is unchanged. -/
theorem page_fault_handler_shared_ledger
    (hv : (s.rd (pe s.mem pt va level)).valid = true)
    (hc : (s.rd (pe s.mem pt va level)).custom = true)
    (hr : (s.rd (pe s.mem pt va level)).read = true)
    (hn : 1 < s.ledger (s.rd (pe s.mem pt va level)).ppn)
    (hold : (s.rd (pe s.mem pt va level)).ppn < s.next) :
    (page_fault_handler pe va level pt s).isFatal = false ∧
    (page_fault_handler pe va level pt s).state.next = s.next + 1 ∧
    (page_fault_handler pe va level pt s).state.ledger (s.rd (pe s.mem pt va level)).ppn
      = s.ledger (s.rd (pe s.mem pt va level)).ppn - 1 ∧
    (page_fault_handler pe va level pt s).state.ledger s.next = 1 ∧
    ∀ q, q ≠ (s.rd (pe s.mem pt va level)).ppn → q ≠ s.next →
      (page_fault_handler pe va level pt s).state.ledger q = s.ledger q := by
  obtain ⟨h1, h2, h3⟩ := handler_shared_ledger pe va level pt s hv hc hr hn
  refine ⟨h1, h2, ?_, ?_, ?_⟩
  · rw [h3]
    have : ¬ (s.rd (pe s.mem pt va level)).ppn = s.next := by omega
    simp [this]
  · rw [h3]; simp
  · intro q hq1 hq2
    rw [h3]; simp [hq1, hq2]

/-- C4 (amended): after a fault on a valid, custom, readable entry of a page in use,
the faulting entry has `custom = false` when the pre-fault reference count is
exactly 2, and keeps `custom = true` when the count is 3 or more. -/
theorem page_fault_handler_shared_custom
    (hv : (s.rd (pe s.mem pt va level)).valid = true)
    (hc : (s.rd (pe s.mem pt va level)).custom = true)
    (hr : (s.rd (pe s.mem pt va level)).read = true)
    (hn : 1 < s.ledger (s.rd (pe s.mem pt va level)).ppn)
    (hold : (s.rd (pe s.mem pt va level)).ppn < s.next)
    (htab : (pe s.mem pt va level).1 < s.next) :
    (page_fault_handler pe va level pt s).isFatal = false ∧
    (s.ledger (s.rd (pe s.mem pt va level)).ppn = 2 →
      ((page_fault_handler pe va level pt s).state.rd (pe s.mem pt va level)).custom = false) ∧
    (2 < s.ledger (s.rd (pe s.mem pt va level)).ppn →
      ((page_fault_handler pe va level pt s).state.rd (pe s.mem pt va level)).custom = true) := by
  rw [handler_shared_eq pe va level pt s hv hc hr hn (by omega) (by omega)]
  refine ⟨rfl, ?_, ?_⟩
  · intro h
    simp only [State.rd] at h
    simp [FaultResult.state, State.rd, h]
  · intro h
    have : ¬ s.ledger (s.rd (pe s.mem pt va level)).ppn = 2 := by omega
    simp only [State.rd] at this
    simp [FaultResult.state, State.rd, this]

/-- C5 (amended): when a fault on a shared page takes the old page's count from 2
to 1, any other entry mapping the old page is left exactly as it was: if it had
`write = false` and `custom = true` before the fault it still has them when the
handler returns. -/
theorem page_fault_handler_other_sharer (b : Addr)
    (hv : (s.rd (pe s.mem pt va level)).valid = true)
    (hc : (s.rd (pe s.mem pt va level)).custom = true)
    (hr : (s.rd (pe s.mem pt va level)).read = true)
    (hn : s.ledger (s.rd (pe s.mem pt va level)).ppn = 2)
    (hold : (s.rd (pe s.mem pt va level)).ppn < s.next)
    (hb : b ≠ pe s.mem pt va level) (hbuse : b.1 < s.next)
    (hbp : (s.rd b).ppn = (s.rd (pe s.mem pt va level)).ppn)
    (hbw : (s.rd b).write = false) (hbc : (s.rd b).custom = true) :
    (page_fault_handler pe va level pt s).isFatal = false ∧
    (page_fault_handler pe va level pt s).state.ledger (s.rd (pe s.mem pt va level)).ppn = 1 ∧
    (page_fault_handler pe va level pt s).state.rd b = s.rd b ∧
    ((page_fault_handler pe va level pt s).state.rd b).ppn
      = (s.rd (pe s.mem pt va level)).ppn ∧
    ((page_fault_handler pe va level pt s).state.rd b).write = false ∧
    ((page_fault_handler pe va level pt s).state.rd b).custom = true := by
  have hn2 : 1 < s.ledger (s.rd (pe s.mem pt va level)).ppn := by omega
  have hf := handler_shared_frame pe va level pt s b hv hc hr hn2 hb (by omega)
  obtain ⟨h1, -, h3⟩ := handler_shared_ledger pe va level pt s hv hc hr hn2
  have hne : ¬ (s.rd (pe s.mem pt va level)).ppn = s.next := by omega
  refine ⟨h1, ?_, hf, ?_, ?_, ?_⟩
  · rw [h3]
    simp only [hne, if_false, if_true, hn]
    rfl
  · rw [hf, hbp]
  · rw [hf, hbw]
  · rw [hf, hbc]

/-- C6: a fault on a valid, custom, readable entry whose page has reference count
at most 1 resolves without allocating; the ledger is unchanged, the entry keeps
its frame number (and `valid`, `read` and the remaining bits) and ends with
`write = true` and `custom = false`, and every other word of memory is unchanged. -/
theorem page_fault_handler_sole_owner
    (hv : (s.rd (pe s.mem pt va level)).valid = true)
    (hc : (s.rd (pe s.mem pt va level)).custom = true)
    (hr : (s.rd (pe s.mem pt va level)).read = true)
    (hn : s.ledger (s.rd (pe s.mem pt va level)).ppn ≤ 1) :
    ∃ st, page_fault_handler pe va level pt s = .resolved st ∧
      st.next = s.next ∧
      st.ledger = s.ledger ∧
      (st.rd (pe s.mem pt va level)).ppn = (s.rd (pe s.mem pt va level)).ppn ∧
      (st.rd (pe s.mem pt va level)).write = true ∧
      (st.rd (pe s.mem pt va level)).custom = false ∧
      (st.rd (pe s.mem pt va level)).valid = true ∧
      (st.rd (pe s.mem pt va level)).read = true ∧
      (st.rd (pe s.mem pt va level)).rest = (s.rd (pe s.mem pt va level)).rest ∧
      ∀ b, b ≠ pe s.mem pt va level → st.rd b = s.rd b := by
  refine ⟨_, handler_sole_eq pe va level pt s hv hc hr hn, rfl, rfl, ?_, ?_, ?_, ?_, ?_, ?_,
    ?_⟩
  · simp [State.rd, State.wr]
  · simp [State.rd, State.wr]
  · simp [State.rd, State.wr]
  · simpa [State.rd, State.wr] using hv
  · simpa [State.rd, State.wr] using hr
  · simp [State.rd, State.wr]
  · intro b hb
    have : ¬ (b.1 = (pe s.mem pt va level).1 ∧ b.2 = (pe s.mem pt va level).2) :=
      fun h => hb (Prod.ext h.1 h.2)
    simp [State.rd, State.wr, this]

/-- C7: the handler ends in `exit(EFAULT)` exactly when the located entry is not
valid, or not custom, or not readable, and in that case the state at exit is the
state at entry: no ledger count, entry or page content has changed. -/
theorem page_fault_handler_fatal_iff :
    ((page_fault_handler pe va level pt s).isFatal = true ↔
      ((s.rd (pe s.mem pt va level)).valid = false ∨
       (s.rd (pe s.mem pt va level)).custom = false ∨
       (s.rd (pe s.mem pt va level)).read = false)) ∧
    ((page_fault_handler pe va level pt s).isFatal = true →
      page_fault_handler pe va level pt s = .fatal EFAULT s) := by
  generalize hA : pe s.mem pt va level = a
  cases hv : (s.rd a).valid <;> cases hc : (s.rd a).custom <;> cases hr : (s.rd a).read <;>
    simp [page_fault_handler, vms_pte_valid, vms_pte_custom, vms_pte_read, hA, hv, hc, hr,
      FaultResult.isFatal]
  split_ifs <;> simp [FaultResult.isFatal]

end HandlerClaims

theorem page_fault_handler_shared_copy_witness :
    ∃ st, scenarioB = .resolved st ∧
      st.next = scenarioFork.2.next + 1 ∧
      (st.rd (vms_page_table_pte_entry 2 scenarioFork.2.mem scenarioFork.1 0 0)).ppn
        = scenarioFork.2.next ∧
      scenarioFork.2.next
        ≠ (scenarioFork.2.rd (vms_page_table_pte_entry 2 scenarioFork.2.mem scenarioFork.1 0 0)).ppn ∧
      (∀ t, st.mem scenarioFork.2.next t = scenarioFork.2.mem
        (scenarioFork.2.rd (vms_page_table_pte_entry 2 scenarioFork.2.mem scenarioFork.1 0 0)).ppn t) ∧
      (∀ t, st.mem
        (scenarioFork.2.rd (vms_page_table_pte_entry 2 scenarioFork.2.mem scenarioFork.1 0 0)).ppn t
          = scenarioFork.2.mem
        (scenarioFork.2.rd (vms_page_table_pte_entry 2 scenarioFork.2.mem scenarioFork.1 0 0)).ppn t) ∧
      (st.rd (vms_page_table_pte_entry 2 scenarioFork.2.mem scenarioFork.1 0 0)).write = true :=
  page_fault_handler_shared_copy (vms_page_table_pte_entry 2) 0 0 scenarioFork.1 scenarioFork.2
    (by decide) (by decide) (by decide) (by decide) (by decide) (by decide) (by decide)

theorem page_fault_handler_shared_ledger_witness :
    scenarioFork.2.ledger 7 = 2 ∧
    (scenarioB.isFatal = false ∧
     scenarioB.state.next = scenarioFork.2.next + 1 ∧
     scenarioB.state.ledger
        (scenarioFork.2.rd (vms_page_table_pte_entry 2 scenarioFork.2.mem scenarioFork.1 0 0)).ppn
      = scenarioFork.2.ledger
        (scenarioFork.2.rd (vms_page_table_pte_entry 2 scenarioFork.2.mem scenarioFork.1 0 0)).ppn
        - 1 ∧
     scenarioB.state.ledger scenarioFork.2.next = 1 ∧
     ∀ q, q ≠ (scenarioFork.2.rd
          (vms_page_table_pte_entry 2 scenarioFork.2.mem scenarioFork.1 0 0)).ppn →
        q ≠ scenarioFork.2.next → scenarioB.state.ledger q = scenarioFork.2.ledger q) :=
  ⟨by decide,
   page_fault_handler_shared_ledger (vms_page_table_pte_entry 2) 0 0 scenarioFork.1 scenarioFork.2
    (by decide) (by decide) (by decide) (by decide) (by decide)⟩

/-- C4, as stated, fails: after two forks page 7 has reference count 4; the
second child's entry is valid, custom and readable, its fault resolves, and the
entry, now mapping the private copy, still has `custom = true`. -/
theorem page_fault_handler_custom_counterexample :
    (scenarioFork2.2.rd
      (vms_page_table_pte_entry 2 scenarioFork2.2.mem scenarioFork2.1 0 0)).valid = true ∧
    (scenarioFork2.2.rd
      (vms_page_table_pte_entry 2 scenarioFork2.2.mem scenarioFork2.1 0 0)).custom = true ∧
    (scenarioFork2.2.rd
      (vms_page_table_pte_entry 2 scenarioFork2.2.mem scenarioFork2.1 0 0)).read = true ∧
    scenarioFork2.2.ledger (scenarioFork2.2.rd
      (vms_page_table_pte_entry 2 scenarioFork2.2.mem scenarioFork2.1 0 0)).ppn = 4 ∧
    scenarioFault2.isFatal = false ∧
    ¬ (scenarioFault2.state.rd
      (vms_page_table_pte_entry 2 scenarioFork2.2.mem scenarioFork2.1 0 0)).custom = false := by
  decide

theorem page_fault_handler_shared_custom_witness :
    scenarioB.isFatal = false ∧
    (scenarioFork.2.ledger (scenarioFork.2.rd
        (vms_page_table_pte_entry 2 scenarioFork.2.mem scenarioFork.1 0 0)).ppn = 2 →
      (scenarioB.state.rd
        (vms_page_table_pte_entry 2 scenarioFork.2.mem scenarioFork.1 0 0)).custom = false) ∧
    (2 < scenarioFork.2.ledger (scenarioFork.2.rd
        (vms_page_table_pte_entry 2 scenarioFork.2.mem scenarioFork.1 0 0)).ppn →
      (scenarioB.state.rd
        (vms_page_table_pte_entry 2 scenarioFork.2.mem scenarioFork.1 0 0)).custom = true) :=
  page_fault_handler_shared_custom (vms_page_table_pte_entry 2) 0 0 scenarioFork.1 scenarioFork.2
    (by decide) (by decide) (by decide) (by decide) (by decide) (by decide)

/-- C5, as stated, fails on Scenario B of the spec: the child's fault takes the
count of page 7 from 2 to 1, and the parent's entry, the one remaining mapping of
page 7, does not have `write = true` and `custom = false` when the handler
returns. -/
theorem page_fault_handler_remaining_counterexample :
    scenarioFork.2.ledger 7 = 2 ∧
    scenarioB.isFatal = false ∧
    scenarioB.state.ledger 7 = 1 ∧
    (leafEntry scenarioB.state.mem 0 0 0 0).valid = true ∧
    (leafEntry scenarioB.state.mem 0 0 0 0).ppn = 7 ∧
    ¬ ((leafEntry scenarioB.state.mem 0 0 0 0).write = true ∧
       (leafEntry scenarioB.state.mem 0 0 0 0).custom = false) := by
  decide

theorem page_fault_handler_other_sharer_witness :
    scenarioB.isFatal = false ∧
    scenarioB.state.ledger (scenarioFork.2.rd
        (vms_page_table_pte_entry 2 scenarioFork.2.mem scenarioFork.1 0 0)).ppn = 1 ∧
    scenarioB.state.rd (2, 0) = scenarioFork.2.rd (2, 0) ∧
    (scenarioB.state.rd (2, 0)).ppn = (scenarioFork.2.rd
        (vms_page_table_pte_entry 2 scenarioFork.2.mem scenarioFork.1 0 0)).ppn ∧
    (scenarioB.state.rd (2, 0)).write = false ∧
    (scenarioB.state.rd (2, 0)).custom = true :=
  page_fault_handler_other_sharer (vms_page_table_pte_entry 2) 0 0 scenarioFork.1 scenarioFork.2
    (2, 0) (by decide) (by decide) (by decide) (by decide) (by decide) (by decide) (by decide)
    (by decide) (by decide) (by decide)

theorem page_fault_handler_sole_owner_witness :
    scenarioB.state.ledger 7 = 1 ∧
    ∃ st, page_fault_handler (vms_page_table_pte_entry 2) 0 0 0 scenarioB.state = .resolved st ∧
      st.next = scenarioB.state.next ∧
      st.ledger = scenarioB.state.ledger ∧
      (st.rd (vms_page_table_pte_entry 2 scenarioB.state.mem 0 0 0)).ppn
        = (scenarioB.state.rd (vms_page_table_pte_entry 2 scenarioB.state.mem 0 0 0)).ppn ∧
      (st.rd (vms_page_table_pte_entry 2 scenarioB.state.mem 0 0 0)).write = true ∧
      (st.rd (vms_page_table_pte_entry 2 scenarioB.state.mem 0 0 0)).custom = false ∧
      (st.rd (vms_page_table_pte_entry 2 scenarioB.state.mem 0 0 0)).valid = true ∧
      (st.rd (vms_page_table_pte_entry 2 scenarioB.state.mem 0 0 0)).read = true ∧
      (st.rd (vms_page_table_pte_entry 2 scenarioB.state.mem 0 0 0)).rest
        = (scenarioB.state.rd (vms_page_table_pte_entry 2 scenarioB.state.mem 0 0 0)).rest ∧
      ∀ b, b ≠ vms_page_table_pte_entry 2 scenarioB.state.mem 0 0 0 →
        st.rd b = scenarioB.state.rd b :=
  ⟨by decide,
   page_fault_handler_sole_owner (vms_page_table_pte_entry 2) 0 0 0 scenarioB.state
    (by decide) (by decide) (by decide) (by decide)⟩

/-! ## Theorems: the copy-on-write duplicator -/

theorem forLoop_succ {σ : Type} (n : Nat) (body : Nat → σ → σ) (s : σ) :
    forLoop (n + 1) body s = body n (forLoop n body s) := rfl

theorem countBelow_succ (n : Nat) (f : Nat → Bool) :
    countBelow (n + 1) f = countBelow n f + if f n then 1 else 0 := by
  unfold countBelow
  rw [Finset.sum_range_succ]

/-- One iteration of the leaf loop of `vms_fork_copy_on_write` in closed form, when
the parent's L0 table is not the child's L0 table. -/
theorem cow_l0_body_eq (pl1e : Addr) (c0 k : Nat) (s : State)
    (hne : (s.rd pl1e).ppn ≠ c0) :
    cow_l0_body pl1e c0 k s =
      if (s.mem (s.rd pl1e).ppn k).valid then
        { mem := fun p t =>
            if p = c0 ∧ t = k then cowChild (s.mem (s.rd pl1e).ppn k) (s.mem c0 k)
            else if p = (s.rd pl1e).ppn ∧ t = k then cowParent (s.mem (s.rd pl1e).ppn k)
            else s.mem p t
          next := s.next
          ledger := fun q =>
            if q = (s.mem (s.rd pl1e).ppn k).ppn then s.ledger q + 2 else s.ledger q }
      else s := by
  obtain ⟨q1, j⟩ := pl1e
  simp only [State.rd] at hne ⊢
  have hne2 : ¬ (s.mem q1 j).ppn = c0 := hne
  have hne3 : ¬ c0 = (s.mem q1 j).ppn := fun h => hne h.symm
  cases hv : (s.mem (s.mem q1 j).ppn k).valid
  · simp [cow_l0_body, vms_pte_valid, vms_pte_get_ppn, vms_ppn_to_page,
      vms_page_table_pte_entry_from_index, State.rd, hv]
  · cases hw : (s.mem (s.mem q1 j).ppn k).write <;>
      cases hr : (s.mem (s.mem q1 j).ppn k).read <;>
      cases hc : (s.mem (s.mem q1 j).ppn k).custom <;>
    · simp [cow_l0_body, vms_pte_valid, vms_pte_get_ppn, vms_ppn_to_page,
        vms_page_table_pte_entry_from_index, vms_pte_set_ppn, vms_pte_valid_set,
        vms_pte_write, vms_pte_custom_set, vms_pte_write_clear, vms_pte_read, vms_pte_read_set,
        vms_pte_write_set, vms_pte_custom, ledger_incr, vms_get_page_index,
        State.rd, State.wr, hv, hw, hr, hc, hne2, hne3, cowChild, cowParent]
      constructor
      · funext p t
        split_ifs with h1 h2
        · rfl
        · obtain ⟨rfl, rfl⟩ := h2
          simp [PTE.ext_iff, hv, hw, hr, hc]
        · rfl
      · funext q
        split_ifs with h1
        · subst h1; ring
        · rfl

/-- The leaf loop of `vms_fork_copy_on_write` after `n` iterations, in closed form. -/
theorem cow_l0_loop_eq (pl1e : Addr) (c0 : Nat) (s : State)
    (hne : (s.rd pl1e).ppn ≠ c0) (hptr : pl1e.1 ≠ c0) (n : Nat) :
    forLoop n (cow_l0_body pl1e c0) s =
      { mem := fun p t =>
          if t < n ∧ (s.mem (s.rd pl1e).ppn t).valid = true then
            (if p = c0 then cowChild (s.mem (s.rd pl1e).ppn t) (s.mem c0 t)
             else if p = (s.rd pl1e).ppn then cowParent (s.mem (s.rd pl1e).ppn t)
             else s.mem p t)
          else s.mem p t
        next := s.next
        ledger := fun q => s.ledger q + 2 * (leafCountL0 n s.mem (s.rd pl1e).ppn q : Nat) } := by
  obtain ⟨q1, j⟩ := pl1e
  simp only [State.rd] at hne hptr ⊢
  induction n with
  | zero =>
    apply State.ext <;> simp [forLoop, leafCountL0, countBelow]
  | succ n ih =>
    rw [forLoop_succ, ih]
    have hne' : ¬ (s.mem q1 j).ppn = c0 := hne
    have hne'' : ¬ c0 = (s.mem q1 j).ppn := fun h => hne h.symm
    have hptr' : ¬ q1 = c0 := hptr
    rw [cow_l0_body_eq]
    · simp only [State.rd]
      have hP : ∀ x : PTE, (if j < n ∧ (s.mem (s.mem q1 j).ppn j).valid = true then
            if q1 = c0 then x
            else if q1 = (s.mem q1 j).ppn then cowParent (s.mem (s.mem q1 j).ppn j)
              else s.mem q1 j
          else s.mem q1 j).ppn = (s.mem q1 j).ppn := by
        intro x
        split_ifs with h1 h2
        · exact congrArg (fun x => (s.mem x j).ppn) h2.symm
        · rfl
        · rfl
      simp only [hP, lt_self_iff_false, false_and, if_false]
      have hcnt : ∀ q, leafCountL0 (n + 1) s.mem (s.mem q1 j).ppn q
          = leafCountL0 n s.mem (s.mem q1 j).ppn q
            + if ((s.mem (s.mem q1 j).ppn n).valid = true ∧ (s.mem (s.mem q1 j).ppn n).ppn = q)
              then 1 else 0 := by
        intro q
        simp [leafCountL0, countBelow_succ]
      cases hv : (s.mem (s.mem q1 j).ppn n).valid
      · simp only [Bool.false_eq_true, if_false]
        apply State.ext
        · funext p t
          simp only
          by_cases ht : t = n
          · subst ht; simp [hv]
          · have : (t < n + 1) = (t < n) := by
              apply propext; omega
            simp only [this]
        · rfl
        · funext q
          simp [hcnt, hv]
      · simp only [if_true]
        apply State.ext
        · funext p t
          simp only
          by_cases ht : t = n
          · subst ht
            simp only [and_true, lt_add_one, hv, true_and]
            split_ifs <;> rfl
          · have : (t < n + 1) = (t < n) := by
              apply propext; omega
            simp only [this, ht, and_false, if_false]
        · rfl
        · funext q
          simp only [hcnt, hv, true_and]
          split_ifs with h1 h2 h3
          · push_cast; ring
          · exact absurd h1.symm h2
          · exact absurd h3.symm h1
          · simp
    · simp only [State.rd]
      split_ifs with h1 h2
      · exact fun h => hne ((congrArg (fun x => (s.mem x j).ppn) h2).trans h)
      · exact hne
      · exact hne

/-! ### Downgrades and frames -/

theorem Down.down_refl (a : PTE) : Down a a := Or.inl rfl

theorem Down.ppn {a b : PTE} (h : Down a b) : b.ppn = a.ppn := by
  rcases h with h | ⟨-, h⟩ <;> rw [h]

theorem Down.valid {a b : PTE} (h : Down a b) : b.valid = a.valid := by
  rcases h with h | ⟨-, h⟩ <;> rw [h]

theorem Down.read {a b : PTE} (h : Down a b) : b.read = a.read := by
  rcases h with h | ⟨-, h⟩ <;> rw [h]

theorem Down.rest {a b : PTE} (h : Down a b) : b.rest = a.rest := by
  rcases h with h | ⟨-, h⟩ <;> rw [h]

theorem Down.eq_of_not_write {a b : PTE} (h : Down a b) (hw : a.write = false) : b = a := by
  rcases h with h | ⟨h1, -⟩
  · exact h
  · rw [hw] at h1; exact absurd h1 (by decide)

theorem Down.write_false {a b : PTE} (h : Down a b) (hw : a.write = false) :
    b.write = false := by
  rw [h.eq_of_not_write hw]; exact hw

theorem Down.down_trans {a b c : PTE} (h1 : Down a b) (h2 : Down b c) : Down a c := by
  rcases h1 with h1 | ⟨hw, h1⟩
  · rw [h1] at h2; exact h2
  · have : b.write = false := by rw [h1]
    rw [h2.eq_of_not_write this]
    exact Or.inr ⟨hw, h1⟩

theorem Down.cowParent (e : PTE) : Down e (cowParent e) := by
  cases hw : e.write
  · left
    simp [Vms.cowParent, PTE.ext_iff, hw]
  · right
    simp [Vms.cowParent, hw]

theorem Down.of_write_false {a b : PTE} (h : Down a b) (hb : b.write = false) :
    b = Vms.cowParent a := by
  rcases h with h | ⟨hw, h⟩
  · rw [h] at hb ⊢
    simp [Vms.cowParent, PTE.ext_iff, hb]
  · rw [h]; simp [Vms.cowParent, hw]

theorem Evolves.evolves_refl (s : State) : Evolves s s :=
  ⟨le_refl _, fun _ _ _ => rfl, fun _ _ _ => Down.down_refl _⟩

theorem Evolves.frame {s0 s s1 : State} {c : Nat} {S : Nat → Prop}
    (h : Evolves s0 s) (f : Frame s0.next c S s s1) : Evolves s0 s1 where
  next_le := le_trans h.next_le f.next_le
  fresh := fun p hp t => by
    rw [f.fresh p hp t, h.fresh p (le_trans f.next_le hp) t]
  old := fun p hp t => (h.old p hp t).down_trans (f.old p hp t)

theorem Frame.frame_refl (n0 c : Nat) (S : Nat → Prop) (s : State) : Frame n0 c S s s :=
  ⟨le_refl _, fun _ _ _ _ _ => rfl, fun _ _ _ => rfl, fun _ _ _ => Down.down_refl _⟩

theorem Frame.frame_trans {n0 c : Nat} {S S1 S2 : Nat → Prop} {s s1 s2 : State}
    (f1 : Frame n0 c S1 s s1) (f2 : Frame n0 c S2 s1 s2)
    (h1 : ∀ t, S1 t → S t) (h2 : ∀ t, S2 t → S t) : Frame n0 c S s s2 where
  next_le := le_trans f1.next_le f2.next_le
  kept := fun p hp hp2 t ht => by
    rw [f2.kept p hp (lt_of_lt_of_le hp2 f1.next_le) t (fun hc hS => ht hc (h2 t hS)),
      f1.kept p hp hp2 t (fun hc hS => ht hc (h1 t hS))]
  fresh := fun p hp t => by
    rw [f2.fresh p hp t, f1.fresh p (le_trans f2.next_le hp) t]
  old := fun p hp t => (f1.old p hp t).down_trans (f2.old p hp t)

theorem LeafOK.leaf_stable {s0 s s1 : State} {l0 c0 k : Nat} (h : LeafOK s0 s l0 c0 k)
    (hold : Down (s.mem l0 k) (s1.mem l0 k)) (hkept : s1.mem c0 k = s.mem c0 k) :
    LeafOK s0 s1 l0 c0 k := by
  refine ⟨fun hv => ?_, fun hv => ?_⟩
  · obtain ⟨hw, e, he, hc⟩ := h.1 hv
    exact ⟨hold.write_false hw, e, he, by rw [hkept, hc]⟩
  · rw [hkept, h.2 hv]

theorem L1EntryOK.l1_stable {n : Nat} {s0 s s1 : State} {lo l1 c1 j n0 c : Nat} {S : Nat → Prop}
    (h : L1EntryOK n s0 s lo l1 c1 j) (f : Frame n0 c S s s1)
    (hl0 : (s0.mem l1 j).valid = true → (s0.mem l1 j).ppn < n0)
    (hlo : n0 ≤ lo) (hc : ∀ c0, lo ≤ c0 → c0 ≠ c)
    (hkept : s1.mem c1 j = s.mem c1 j) : L1EntryOK n s0 s1 lo l1 c1 j := by
  refine ⟨fun hv => ?_, fun hv => ?_⟩
  · obtain ⟨c0, h1, h2, h3, h4⟩ := h.1 hv
    refine ⟨c0, by rw [hkept, h1], h2, lt_of_lt_of_le h3 f.next_le, fun k hk => ?_⟩
    exact (h4 k hk).leaf_stable (f.old _ (hl0 hv) k)
      (f.kept c0 (le_trans hlo h2) h3 k (fun hcc => absurd hcc (hc c0 h2)))
  · rw [hkept, h.2 hv]

theorem L1EntryOK.mono {n : Nat} {s0 s : State} {lo lo1 l1 c1 j : Nat}
    (h : L1EntryOK n s0 s lo l1 c1 j) (hlo : lo1 ≤ lo) : L1EntryOK n s0 s lo1 l1 c1 j := by
  refine ⟨fun hv => ?_, h.2⟩
  obtain ⟨c0, h1, h2, h3, h4⟩ := h.1 hv
  exact ⟨c0, h1, le_trans hlo h2, h3, h4⟩

theorem L2EntryOK.l2_stable {n : Nat} {s0 s s1 : State} {lo l2 c2 i n0 c : Nat} {S : Nat → Prop}
    (h : L2EntryOK n s0 s lo l2 c2 i) (f : Frame n0 c S s s1)
    (hl0 : ∀ j, j < n → (s0.mem l2 i).valid = true →
      (s0.mem (s0.mem l2 i).ppn j).valid = true → (s0.mem (s0.mem l2 i).ppn j).ppn < n0)
    (hlo : n0 ≤ lo) (hc : ∀ c0, lo ≤ c0 → c0 ≠ c)
    (hkept : s1.mem c2 i = s.mem c2 i) : L2EntryOK n s0 s1 lo l2 c2 i := by
  refine ⟨fun hv => ?_, fun hv => ?_⟩
  · obtain ⟨c1, h1, h2, h3, h4⟩ := h.1 hv
    refine ⟨c1, by rw [hkept, h1], h2, lt_of_lt_of_le h3 f.next_le, fun j hj => ?_⟩
    exact (h4 j hj).l1_stable f (hl0 j hj hv) hlo hc
      (f.kept c1 (le_trans hlo h2) h3 j (fun hcc => absurd hcc (hc c1 h2)))
  · rw [hkept, h.2 hv]

theorem leafCountL0_congr (n : Nat) (m1 m2 : Nat → Nat → PTE) (l0 q : Nat)
    (h : ∀ t, (m1 l0 t).valid = (m2 l0 t).valid ∧ (m1 l0 t).ppn = (m2 l0 t).ppn) :
    leafCountL0 n m1 l0 q = leafCountL0 n m2 l0 q := by
  unfold leafCountL0
  congr 1
  funext k
  rw [(h k).1, (h k).2]

/-- One iteration of the middle loop of `vms_fork_copy_on_write`, unfolded. -/
theorem cow_l1_body_eq (n : Nat) (pl2e : Addr) (c1 j : Nat) (s : State) :
    cow_l1_body n pl2e c1 j s =
      if (s.mem (s.rd pl2e).ppn j).valid = true then
        forLoop n (cow_l0_body ((s.rd pl2e).ppn, j) s.next)
          { mem := fun p t =>
              if p = c1 ∧ t = j then { s.mem c1 j with ppn := s.next, valid := true }
              else s.mem p t
            next := s.next + 1
            ledger := s.ledger }
      else s := by
  simp only [cow_l1_body, vms_pte_valid, vms_pte_get_ppn, vms_ppn_to_page,
    vms_page_table_pte_entry_from_index, vms_new_page, vms_pte_set_ppn, vms_page_to_ppn,
    vms_pte_valid_set, State.rd, State.wr]
  by_cases hv : (s.mem (s.mem pl2e.1 pl2e.2).ppn j).valid = true
  · rw [if_pos hv, if_pos hv]
    congr 1
    apply State.ext
    · funext p t
      by_cases h : p = c1 ∧ t = j <;> simp [h]
    · rfl
    · rfl
  · rw [if_neg hv, if_neg hv]

/-- One iteration of the outer loop of `vms_fork_copy_on_write`, unfolded. -/
theorem cow_l2_body_eq (n : Nat) (l2 c2 i : Nat) (s : State) :
    cow_l2_body n l2 c2 i s =
      if (s.mem l2 i).valid = true then
        forLoop n (cow_l1_body n (l2, i) s.next)
          { mem := fun p t =>
              if p = c2 ∧ t = i then { s.mem c2 i with ppn := s.next, valid := true }
              else s.mem p t
            next := s.next + 1
            ledger := s.ledger }
      else s := by
  simp only [cow_l2_body, vms_pte_valid, vms_pte_get_ppn, vms_ppn_to_page,
    vms_page_table_pte_entry_from_index, vms_new_page, vms_pte_set_ppn, vms_page_to_ppn,
    vms_pte_valid_set, State.rd, State.wr]
  by_cases hv : (s.mem l2 i).valid = true
  · rw [if_pos hv, if_pos hv]
    congr 1
    apply State.ext
    · funext p t
      by_cases h : p = c2 ∧ t = i <;> simp [h]
    · rfl
    · rfl
  · rw [if_neg hv, if_neg hv]

/-- One iteration of the middle loop of `vms_fork_copy_on_write` on a valid parent
L1 entry, in closed form, when the parent tables involved differ from the child
tables. -/
theorem cow_l1_body_closed (n : Nat) (l2 i c1 j : Nat) (s : State)
    (hv : (s.mem (s.mem l2 i).ppn j).valid = true)
    (h1 : (s.mem l2 i).ppn ≠ c1) (h2 : (s.mem l2 i).ppn ≠ s.next)
    (h3 : (s.mem (s.mem l2 i).ppn j).ppn ≠ c1) (h4 : (s.mem (s.mem l2 i).ppn j).ppn ≠ s.next)
    (h5 : c1 ≠ s.next) :
    cow_l1_body n (l2, i) c1 j s =
      { mem := fun p t =>
          if p = s.next then
            (if t < n ∧ (s.mem (s.mem (s.mem l2 i).ppn j).ppn t).valid = true then
              cowChild (s.mem (s.mem (s.mem l2 i).ppn j).ppn t) (s.mem s.next t)
             else s.mem s.next t)
          else if p = (s.mem (s.mem l2 i).ppn j).ppn then
            (if t < n ∧ (s.mem (s.mem (s.mem l2 i).ppn j).ppn t).valid = true then
              cowParent (s.mem (s.mem (s.mem l2 i).ppn j).ppn t)
             else s.mem p t)
          else if p = c1 ∧ t = j then { s.mem c1 j with ppn := s.next, valid := true }
          else s.mem p t
        next := s.next + 1
        ledger := fun q =>
          s.ledger q + 2 * (leafCountL0 n s.mem (s.mem (s.mem l2 i).ppn j).ppn q : Nat) } := by
  rw [cow_l1_body_eq]
  simp only [State.rd, hv, if_true]
  have h5' : s.next ≠ c1 := fun h => h5 h.symm
  rw [cow_l0_loop_eq]
  · simp only [State.rd, h1, h3, h5', false_and, if_false]
    apply State.ext
    · funext p t
      simp only
      by_cases hp : p = s.next
      · subst hp
        simp only [if_true, h5', false_and, if_false]
      · simp only [hp, if_false]
        by_cases hp2 : p = (s.mem (s.mem l2 i).ppn j).ppn
        · subst hp2
          simp only [if_true, h3, false_and, if_false]
        · simp only [hp2, if_false, ite_self]
    · rfl
    · funext q
      simp only
      rw [leafCountL0_congr]
      intro t
      simp only [h3, false_and, if_false, and_self]
  · simp only [State.rd, h1, false_and, if_false]
    exact h4
  · exact h2

/-- What one iteration of the middle loop of `vms_fork_copy_on_write` achieves. -/
theorem cow_l1_body_spec (n : Nat) (s0 s : State) (l2 i c1 j : Nat)
    (hev : Evolves s0 s) (hp : l2 < s0.next) (hP1 : (s0.mem l2 i).ppn < s0.next)
    (hL0 : (s0.mem (s0.mem l2 i).ppn j).valid = true →
      (s0.mem (s0.mem l2 i).ppn j).ppn < s0.next)
    (hc1lo : s0.next ≤ c1) (hc1 : c1 < s.next) (hc1z : s.mem c1 j = s0.mem c1 j) :
    Frame s0.next c1 (fun t => t = j) s (cow_l1_body n (l2, i) c1 j s) ∧
    L1EntryOK n s0 (cow_l1_body n (l2, i) c1 j s) s.next (s0.mem l2 i).ppn c1 j ∧
    ∀ q, (cow_l1_body n (l2, i) c1 j s).ledger q = s.ledger q +
      2 * ((if (s0.mem (s0.mem l2 i).ppn j).valid = true then
              leafCountL0 n s0.mem (s0.mem (s0.mem l2 i).ppn j).ppn q else 0 : Nat) : Int) := by
  have e1 : (s.mem l2 i).ppn = (s0.mem l2 i).ppn := (hev.old l2 hp i).ppn
  have e2 : (s.mem (s0.mem l2 i).ppn j).valid = (s0.mem (s0.mem l2 i).ppn j).valid :=
    (hev.old _ hP1 j).valid
  have e3 : (s.mem (s0.mem l2 i).ppn j).ppn = (s0.mem (s0.mem l2 i).ppn j).ppn :=
    (hev.old _ hP1 j).ppn
  have hn := hev.next_le
  cases hv : (s0.mem (s0.mem l2 i).ppn j).valid
  · have hb : cow_l1_body n (l2, i) c1 j s = s := by
      rw [cow_l1_body_eq]; simp [State.rd, e1, e2, hv]
    rw [hb]
    refine ⟨Frame.frame_refl _ _ _ _, ⟨fun h => ?_, fun _ => hc1z⟩, fun q => ?_⟩
    · rw [hv] at h; exact absurd h (by decide)
    · simp
  · have hP0 := hL0 hv
    rw [cow_l1_body_closed n l2 i c1 j s (by rw [e1, e2]; exact hv) (by omega) (by omega)
      (by rw [e1, e3]; omega) (by rw [e1, e3]; omega) (by omega)]
    simp only [e1, e3]
    generalize (s0.mem l2 i).ppn = P1 at *
    generalize hP0e : (s0.mem P1 j).ppn = P0 at *
    have hval : ∀ t, (s.mem P0 t).valid = (s0.mem P0 t).valid := fun t => (hev.old _ hP0 t).valid
    have hppn : ∀ t, (s.mem P0 t).ppn = (s0.mem P0 t).ppn := fun t => (hev.old _ hP0 t).ppn
    have n1 : ¬ P0 = s.next := by omega
    have n2 : ¬ c1 = s.next := by omega
    have n3 : ¬ c1 = P0 := by omega
    refine ⟨⟨?_, ?_, ?_, ?_⟩, ⟨fun _ => ⟨s.next, ?_, le_refl _, ?_, ?_⟩, fun h => ?_⟩, ?_⟩
    · simp
    · intro p hp1 hp2 t ht
      have m1 : ¬ p = s.next := by omega
      have m2 : ¬ p = P0 := by omega
      have m3 : ¬ (p = c1 ∧ t = j) := fun h => ht h.1 h.2
      simp only [m1, m2, m3, if_false]
    · intro p hp1 t
      simp only at hp1
      have m1 : ¬ p = s.next := by omega
      have m2 : ¬ p = P0 := by omega
      have m3 : ¬ (p = c1 ∧ t = j) := fun h => by omega
      simp only [m1, m2, m3, if_false]
    · intro p hp1 t
      have m1 : ¬ p = s.next := by omega
      have m3 : ¬ (p = c1 ∧ t = j) := fun h => by omega
      simp only [m1, m3, if_false]
      split_ifs with h1 h2
      · rw [h1]; exact Down.cowParent _
      · exact Down.down_refl _
      · exact Down.down_refl _
    · simp only [n2, n3, if_false, and_self, if_true, hc1z]
    · simp
    · intro k hk
      rw [hP0e]
      refine ⟨fun hvk => ?_, fun hvk => ?_⟩
      · have c : k < n ∧ (s.mem P0 k).valid = true := ⟨hk, by rw [hval]; exact hvk⟩
        simp only [n1, if_false, if_true, c, and_self]
        refine ⟨rfl, s.mem P0 k, hev.old _ hP0 k, ?_⟩
        rw [hev.fresh s.next (le_refl _) k]
      · have c : ¬ (k < n ∧ (s.mem P0 k).valid = true) := by
          rw [hval, hvk]; simp
        simp only [if_true, c, if_false]
        exact hev.fresh s.next (le_refl _) k
    · rw [hv] at h; exact absurd h (by decide)
    · intro q
      simp only [if_true]
      rw [leafCountL0_congr n s.mem s0.mem P0 q (fun t => ⟨hval t, hppn t⟩)]

/-- What the middle loop of `vms_fork_copy_on_write` has achieved after `n`
iterations. -/
theorem cow_l1_loop_spec (N : Nat) (s0 s : State) (l2 i c1 : Nat)
    (hev : Evolves s0 s) (hp : l2 < s0.next) (hP1 : (s0.mem l2 i).ppn < s0.next)
    (hL0 : ∀ j, j < N → (s0.mem (s0.mem l2 i).ppn j).valid = true →
      (s0.mem (s0.mem l2 i).ppn j).ppn < s0.next)
    (hc1lo : s0.next ≤ c1) (hc1 : c1 < s.next) (hc1z : ∀ t, s.mem c1 t = s0.mem c1 t)
    (n : Nat) (hn : n ≤ N) :
    Frame s0.next c1 (fun t => t < n) s (forLoop n (cow_l1_body N (l2, i) c1) s) ∧
    (∀ j, j < n →
      L1EntryOK N s0 (forLoop n (cow_l1_body N (l2, i) c1) s) s.next (s0.mem l2 i).ppn c1 j) ∧
    ∀ q, (forLoop n (cow_l1_body N (l2, i) c1) s).ledger q = s.ledger q +
      2 * ((∑ j ∈ Finset.range n, if (s0.mem (s0.mem l2 i).ppn j).valid = true then
              leafCountL0 N s0.mem (s0.mem (s0.mem l2 i).ppn j).ppn q else 0 : Nat) : Int) := by
  induction n with
  | zero =>
    refine ⟨Frame.frame_refl _ _ _ _, fun j hj => absurd hj (Nat.not_lt_zero j), fun q => ?_⟩
    simp [forLoop]
  | succ n ih =>
    obtain ⟨fr, oks, led⟩ := ih (by omega)
    rw [forLoop_succ]
    generalize forLoop n (cow_l1_body N (l2, i) c1) s = sn at *
    have hev' : Evolves s0 sn := hev.frame fr
    have hc1' : c1 < sn.next := lt_of_lt_of_le hc1 fr.next_le
    have hc1z' : sn.mem c1 n = s0.mem c1 n := by
      rw [fr.kept c1 hc1lo hc1 n (fun _ h => lt_irrefl n h), hc1z]
    obtain ⟨f, ok, led1⟩ := cow_l1_body_spec N s0 sn l2 i c1 n hev' hp hP1 (hL0 n (by omega))
      hc1lo hc1' hc1z'
    refine ⟨fr.frame_trans f (fun t h => Nat.lt_succ_of_lt h) (fun t h => h ▸ Nat.lt_succ_self n),
      fun j hj => ?_, fun q => ?_⟩
    · by_cases hjn : j = n
      · subst hjn
        exact ok.mono fr.next_le
      · have hj' : j < n := by omega
        exact (oks j hj').l1_stable f (hL0 j (by omega)) hev.next_le
          (fun c0 h0 => by omega)
          (f.kept c1 hc1lo hc1' j (fun _ h => hjn h))
    · rw [led1 q, led q, Finset.sum_range_succ]
      push_cast
      ring

/-- What one iteration of the outer loop of `vms_fork_copy_on_write` achieves. -/
theorem cow_l2_body_spec (N : Nat) (s0 s : State) (l2 c2 i : Nat)
    (hev : Evolves s0 s) (hp : l2 < s0.next)
    (hP1 : (s0.mem l2 i).valid = true → (s0.mem l2 i).ppn < s0.next)
    (hL0 : ∀ j, j < N → (s0.mem l2 i).valid = true →
      (s0.mem (s0.mem l2 i).ppn j).valid = true → (s0.mem (s0.mem l2 i).ppn j).ppn < s0.next)
    (hc2lo : s0.next ≤ c2) (hc2 : c2 < s.next) (hc2z : s.mem c2 i = s0.mem c2 i) :
    Frame s0.next c2 (fun t => t = i) s (cow_l2_body N l2 c2 i s) ∧
    L2EntryOK N s0 (cow_l2_body N l2 c2 i s) s.next l2 c2 i ∧
    ∀ q, (cow_l2_body N l2 c2 i s).ledger q = s.ledger q +
      2 * ((if (s0.mem l2 i).valid = true then
              leafCountL1 N s0.mem (s0.mem l2 i).ppn q else 0 : Nat) : Int) := by
  have e2 : (s.mem l2 i).valid = (s0.mem l2 i).valid := (hev.old _ hp i).valid
  have hn := hev.next_le
  rw [cow_l2_body_eq, e2]
  cases hv : (s0.mem l2 i).valid
  · simp only [Bool.false_eq_true, if_false]
    refine ⟨Frame.frame_refl _ _ _ _, ⟨fun h => ?_, fun _ => hc2z⟩, fun q => ?_⟩
    · rw [hv] at h; exact absurd h (by decide)
    · simp
  · simp only [if_true]
    generalize hsb : State.mk (fun p t =>
        if p = c2 ∧ t = i then { s.mem c2 i with ppn := s.next, valid := true } else s.mem p t)
        (s.next + 1) s.ledger = sb
    have b1 : sb.next = s.next + 1 := by rw [← hsb]
    have b2 : sb.ledger = s.ledger := by rw [← hsb]
    have b3 : ∀ p t, ¬ (p = c2 ∧ t = i) → sb.mem p t = s.mem p t := by
      intro p t h; rw [← hsb]; simp only [h, if_false]
    have b4 : sb.mem c2 i = { s.mem c2 i with ppn := s.next, valid := true } := by
      rw [← hsb]; simp
    have hevb : Evolves s0 sb := by
      refine ⟨by omega, fun p hp1 t => ?_, fun p hp1 t => ?_⟩
      · rw [b3 p t (fun h => by omega)]
        exact hev.fresh p (by omega) t
      · rw [b3 p t (fun h => by omega)]
        exact hev.old p hp1 t
    have hc1z : ∀ t, sb.mem s.next t = s0.mem s.next t := by
      intro t
      rw [b3 s.next t (fun h => by omega)]
      exact hev.fresh s.next (le_refl _) t
    obtain ⟨fr, oks, led⟩ := cow_l1_loop_spec N s0 sb l2 i s.next hevb hp (hP1 hv)
      (fun j hj => hL0 j hj hv) hn (by omega) hc1z N (le_refl _)
    generalize forLoop N (cow_l1_body N (l2, i) s.next) sb = s1 at *
    refine ⟨⟨?_, ?_, ?_, ?_⟩, ⟨fun _ => ⟨s.next, ?_, le_refl _, ?_, ?_⟩, fun h => ?_⟩, ?_⟩
    · have := fr.next_le; omega
    · intro p hp1 hp2 t ht
      rw [fr.kept p hp1 (by omega) t (fun h => by omega)]
      exact b3 p t (fun h => ht h.1 h.2)
    · intro p hp1 t
      rw [fr.fresh p hp1 t]
      have := fr.next_le
      exact b3 p t (fun h => by omega)
    · intro p hp1 t
      have := fr.old p hp1 t
      rwa [b3 p t (fun h => by omega)] at this
    · rw [fr.kept c2 hc2lo (by omega) i (fun h => by omega), b4, hc2z]
    · have := fr.next_le; omega
    · intro j hj
      exact (oks j hj).mono (by omega)
    · rw [hv] at h; exact absurd h (by decide)
    · intro q
      rw [led q, b2]
      rfl

/-- What the outer loop of `vms_fork_copy_on_write` has achieved after `n`
iterations. -/
theorem cow_l2_loop_spec (N : Nat) (s0 s : State) (l2 c2 : Nat)
    (hev : Evolves s0 s) (hin : TablesInUse N l2 s0)
    (hc2lo : s0.next ≤ c2) (hc2 : c2 < s.next) (hc2z : ∀ t, s.mem c2 t = s0.mem c2 t)
    (n : Nat) (hn : n ≤ N) :
    Frame s0.next c2 (fun t => t < n) s (forLoop n (cow_l2_body N l2 c2) s) ∧
    (∀ i, i < n → L2EntryOK N s0 (forLoop n (cow_l2_body N l2 c2) s) s.next l2 c2 i) ∧
    ∀ q, (forLoop n (cow_l2_body N l2 c2) s).ledger q = s.ledger q +
      2 * ((∑ i ∈ Finset.range n, if (s0.mem l2 i).valid = true then
              leafCountL1 N s0.mem (s0.mem l2 i).ppn q else 0 : Nat) : Int) := by
  obtain ⟨hroot, hl1, hl0⟩ := hin
  induction n with
  | zero =>
    refine ⟨Frame.frame_refl _ _ _ _, fun j hj => absurd hj (Nat.not_lt_zero j), fun q => ?_⟩
    simp [forLoop]
  | succ n ih =>
    obtain ⟨fr, oks, led⟩ := ih (by omega)
    rw [forLoop_succ]
    generalize forLoop n (cow_l2_body N l2 c2) s = sn at *
    have hev' : Evolves s0 sn := hev.frame fr
    have hc2' : c2 < sn.next := lt_of_lt_of_le hc2 fr.next_le
    have hc2z' : sn.mem c2 n = s0.mem c2 n := by
      rw [fr.kept c2 hc2lo hc2 n (fun _ h => lt_irrefl n h), hc2z]
    obtain ⟨f, ok, led1⟩ := cow_l2_body_spec N s0 sn l2 c2 n hev' hroot (hl1 n (by omega))
      (fun j hj => hl0 n (by omega) j hj) hc2lo hc2' hc2z'
    refine ⟨fr.frame_trans f (fun t h => Nat.lt_succ_of_lt h) (fun t h => h ▸ Nat.lt_succ_self n),
      fun j hj => ?_, fun q => ?_⟩
    · by_cases hjn : j = n
      · subst hjn
        obtain ⟨ok1, ok2⟩ := ok
        refine ⟨fun hv => ?_, ok2⟩
        obtain ⟨c1, h1, h2, h3, h4⟩ := ok1 hv
        exact ⟨c1, h1, le_trans fr.next_le h2, h3, fun j' hj' => (h4 j' hj').mono fr.next_le⟩
      · have hj' : j < n := by omega
        exact (oks j hj').l2_stable f (fun j' hj' => hl0 j (by omega) j' hj') hev.next_le
          (fun c0 h0 => by omega)
          (f.kept c2 hc2lo hc2' j (fun _ h => hjn h))
    · rw [led1 q, led q, Finset.sum_range_succ]
      push_cast
      ring

/-- The state `vms_fork_copy_on_write` returns, described slot by slot. -/
theorem cow_fork_spec (N root : Nat) (s0 : State) (hin : TablesInUse N root s0) :
    (vms_fork_copy_on_write N root s0).1 = s0.next ∧
    Evolves s0 (vms_fork_copy_on_write N root s0).2 ∧
    s0.next < (vms_fork_copy_on_write N root s0).2.next ∧
    (∀ i, i < N →
      L2EntryOK N s0 (vms_fork_copy_on_write N root s0).2 (s0.next + 1) root s0.next i) ∧
    ∀ q, (vms_fork_copy_on_write N root s0).2.ledger q
      = s0.ledger q + 2 * (leafCount N s0.mem root q : Int) := by
  have hsa : Evolves s0 { s0 with next := s0.next + 1 } :=
    ⟨Nat.le_succ _, fun _ _ _ => rfl, fun _ _ _ => Down.down_refl _⟩
  obtain ⟨fr, oks, led⟩ := cow_l2_loop_spec N s0 { s0 with next := s0.next + 1 } root s0.next
    hsa hin (le_refl _) (Nat.lt_succ_self _) (fun _ => rfl) N (le_refl _)
  refine ⟨rfl, hsa.frame fr, ?_, oks, led⟩
  exact lt_of_lt_of_le (Nat.lt_succ_self _) fr.next_le

/-- The parent's and the child's leaf entry at a mapped position after
`vms_fork_copy_on_write`. -/
theorem cow_fork_leaf (N root : Nat) (s0 : State) (i j k : Nat)
    (hin : TablesInUse N root s0) (hi : i < N) (hj : j < N) (hk : k < N)
    (hr : Reached s0.mem root i j) (hv0 : (leafEntry s0.mem root i j k).valid = true) :
    l0Table (vms_fork_copy_on_write N root s0).2.mem root i j = l0Table s0.mem root i j ∧
    Reached (vms_fork_copy_on_write N root s0).2.mem root i j ∧
    leafEntry (vms_fork_copy_on_write N root s0).2.mem root i j k
      = cowParent (leafEntry s0.mem root i j k) ∧
    Reached (vms_fork_copy_on_write N root s0).2.mem (vms_fork_copy_on_write N root s0).1 i j ∧
    s0.next <
      l0Table (vms_fork_copy_on_write N root s0).2.mem (vms_fork_copy_on_write N root s0).1 i j ∧
    ∃ e, Down (leafEntry s0.mem root i j k) e ∧
      leafEntry (vms_fork_copy_on_write N root s0).2.mem (vms_fork_copy_on_write N root s0).1 i j k
        = cowChild e (s0.mem
            (l0Table (vms_fork_copy_on_write N root s0).2.mem
              (vms_fork_copy_on_write N root s0).1 i j) k) := by
  obtain ⟨hc2, hev, -, oks, -⟩ := cow_fork_spec N root s0 hin
  obtain ⟨hroot, hl1, hl0⟩ := hin
  obtain ⟨hv2, hv1⟩ := hr
  rw [hc2]
  generalize (vms_fork_copy_on_write N root s0).2 = s1 at *
  simp only [l0Table, l1Table, leafEntry, Reached] at *
  have hP1 := hl1 i hi hv2
  have hP0 := hl0 i hi j hj hv2 hv1
  have d2 := hev.old root hroot i
  have d1 := hev.old _ hP1 j
  have d0 := hev.old _ hP0 k
  obtain ⟨c1, g1, g2, -, g4⟩ := (oks i hi).1 hv2
  obtain ⟨c0, f1, f2, -, f4⟩ := (g4 j hj).1 hv1
  obtain ⟨hw, e, he, hce⟩ := (f4 k hk).1 hv0
  have q1 : (s1.mem s0.next i).ppn = c1 := by rw [g1]
  have q2 : (s1.mem c1 j).ppn = c0 := by rw [f1]
  rw [d2.ppn, d1.ppn, d2.valid, d1.valid, q1, q2]
  refine ⟨rfl, ⟨hv2, hv1⟩, d0.of_write_false hw, ⟨by rw [g1], by rw [f1]⟩, by omega, e, he, hce⟩

theorem cowChild_zero (e : PTE) :
    cowChild e PTE.zero =
      { ppn := e.ppn, valid := true, read := e.read, write := false,
        custom := e.custom || e.write, rest := 0 } := by
  simp [cowChild, PTE.zero]

theorem scenarioA_freshZero : FreshZero scenarioA := by
  intro p hp t
  have hp' : 8 ≤ p := hp
  unfold scenarioA scenarioMem
  simp only
  rw [if_neg (by omega), if_neg (by omega), if_neg (by omega), if_neg (by omega)]

theorem readOnlyState_freshZero : FreshZero readOnlyState := by
  intro p hp t
  have hp' : 8 ≤ p := hp
  unfold readOnlyState readOnlyMem
  simp only
  rw [if_neg (by omega), if_neg (by omega), if_neg (by omega), if_neg (by omega)]

/-- C1: for a valid parent leaf entry at a mapped position `(i, j, k)` that is
writable when `vms_fork_copy_on_write` is called, after the call the parent's
entry (still at the same place) and the child's entry at `(i, j, k)` are both
valid, not writable and custom, both carry the parent's original frame number,
and both have the parent's original read flag.  The parent's tables are pages in
use and pages not yet allocated are zero-filled. -/
theorem vms_fork_copy_on_write_writable_leaf (N root : Nat) (s0 : State) (i j k : Nat)
    (hin : TablesInUse N root s0) (hz : FreshZero s0)
    (hi : i < N) (hj : j < N) (hk : k < N)
    (hr : Reached s0.mem root i j)
    (hv0 : (leafEntry s0.mem root i j k).valid = true)
    (hw : (leafEntry s0.mem root i j k).write = true) :
    (l0Table (vms_fork_copy_on_write N root s0).2.mem root i j = l0Table s0.mem root i j ∧
     Reached (vms_fork_copy_on_write N root s0).2.mem root i j ∧
     (leafEntry (vms_fork_copy_on_write N root s0).2.mem root i j k).valid = true ∧
     (leafEntry (vms_fork_copy_on_write N root s0).2.mem root i j k).write = false ∧
     (leafEntry (vms_fork_copy_on_write N root s0).2.mem root i j k).custom = true ∧
     (leafEntry (vms_fork_copy_on_write N root s0).2.mem root i j k).ppn
        = (leafEntry s0.mem root i j k).ppn ∧
     (leafEntry (vms_fork_copy_on_write N root s0).2.mem root i j k).read
        = (leafEntry s0.mem root i j k).read) ∧
    (Reached (vms_fork_copy_on_write N root s0).2.mem (vms_fork_copy_on_write N root s0).1 i j ∧
     (leafEntry (vms_fork_copy_on_write N root s0).2.mem
        (vms_fork_copy_on_write N root s0).1 i j k).valid = true ∧
     (leafEntry (vms_fork_copy_on_write N root s0).2.mem
        (vms_fork_copy_on_write N root s0).1 i j k).write = false ∧
     (leafEntry (vms_fork_copy_on_write N root s0).2.mem
        (vms_fork_copy_on_write N root s0).1 i j k).custom = true ∧
     (leafEntry (vms_fork_copy_on_write N root s0).2.mem
        (vms_fork_copy_on_write N root s0).1 i j k).ppn = (leafEntry s0.mem root i j k).ppn ∧
     (leafEntry (vms_fork_copy_on_write N root s0).2.mem
        (vms_fork_copy_on_write N root s0).1 i j k).read
        = (leafEntry s0.mem root i j k).read) := by
  obtain ⟨h1, h2, h3, h4, h5, e, he, hc⟩ := cow_fork_leaf N root s0 i j k hin hi hj hk hr hv0
  rw [hz _ (le_of_lt h5) k, cowChild_zero] at hc
  refine ⟨⟨h1, h2, ?_, ?_, ?_, ?_, ?_⟩, h4, ?_, ?_, ?_, ?_, ?_⟩
  · rw [h3]; exact hv0
  · rw [h3]; rfl
  · rw [h3]; simp [cowParent, hw]
  · rw [h3]; rfl
  · rw [h3]; rfl
  · rw [hc]
  · rw [hc]
  · rw [hc]
    rcases he with he | ⟨-, he⟩
    · rw [he]; simp [hw]
    · rw [he]; simp
  · rw [hc]; exact he.ppn
  · rw [hc]; exact he.read

theorem vms_fork_copy_on_write_writable_leaf_witness :
    (leafEntry scenarioA.mem 0 0 0 0).write = true ∧
    (leafEntry (vms_fork_copy_on_write 2 0 scenarioA).2.mem 0 0 0 0).write = false ∧
    (leafEntry (vms_fork_copy_on_write 2 0 scenarioA).2.mem 0 0 0 0).custom = true ∧
    (leafEntry (vms_fork_copy_on_write 2 0 scenarioA).2.mem
      (vms_fork_copy_on_write 2 0 scenarioA).1 0 0 0).write = false ∧
    (leafEntry (vms_fork_copy_on_write 2 0 scenarioA).2.mem
      (vms_fork_copy_on_write 2 0 scenarioA).1 0 0 0).custom = true :=
  have h := vms_fork_copy_on_write_writable_leaf 2 0 scenarioA 0 0 0 (by decide)
    scenarioA_freshZero (by decide) (by decide) (by decide) (by decide) (by decide) (by decide)
  ⟨by decide, h.1.2.2.2.1, h.1.2.2.2.2.1, h.2.2.2.1, h.2.2.2.2.1⟩

/-- C9: for a valid parent leaf entry at a mapped position `(i, j, k)` that is not
writable when `vms_fork_copy_on_write` is called, the parent's entry is unchanged
by the call, and the child's entry at `(i, j, k)` is valid, has the same frame
number and has `read`, `write` (false) and `custom` equal to the parent's.  The
parent's tables are pages in use and pages not yet allocated are zero-filled. -/
theorem vms_fork_copy_on_write_readonly_leaf (N root : Nat) (s0 : State) (i j k : Nat)
    (hin : TablesInUse N root s0) (hz : FreshZero s0)
    (hi : i < N) (hj : j < N) (hk : k < N)
    (hr : Reached s0.mem root i j)
    (hv0 : (leafEntry s0.mem root i j k).valid = true)
    (hw : (leafEntry s0.mem root i j k).write = false) :
    l0Table (vms_fork_copy_on_write N root s0).2.mem root i j = l0Table s0.mem root i j ∧
    Reached (vms_fork_copy_on_write N root s0).2.mem root i j ∧
    leafEntry (vms_fork_copy_on_write N root s0).2.mem root i j k
      = leafEntry s0.mem root i j k ∧
    Reached (vms_fork_copy_on_write N root s0).2.mem (vms_fork_copy_on_write N root s0).1 i j ∧
    (leafEntry (vms_fork_copy_on_write N root s0).2.mem
        (vms_fork_copy_on_write N root s0).1 i j k).valid = true ∧
    (leafEntry (vms_fork_copy_on_write N root s0).2.mem
        (vms_fork_copy_on_write N root s0).1 i j k).ppn = (leafEntry s0.mem root i j k).ppn ∧
    (leafEntry (vms_fork_copy_on_write N root s0).2.mem
        (vms_fork_copy_on_write N root s0).1 i j k).read
        = (leafEntry s0.mem root i j k).read ∧
    (leafEntry (vms_fork_copy_on_write N root s0).2.mem
        (vms_fork_copy_on_write N root s0).1 i j k).write = false ∧
    (leafEntry (vms_fork_copy_on_write N root s0).2.mem
        (vms_fork_copy_on_write N root s0).1 i j k).custom
        = (leafEntry s0.mem root i j k).custom := by
  obtain ⟨h1, h2, h3, h4, h5, e, he, hc⟩ := cow_fork_leaf N root s0 i j k hin hi hj hk hr hv0
  rw [hz _ (le_of_lt h5) k, cowChild_zero, he.eq_of_not_write hw] at hc
  refine ⟨h1, h2, ?_, h4, ?_, ?_, ?_, ?_, ?_⟩
  · rw [h3]
    simp [cowParent, PTE.ext_iff, hw]
  · rw [hc]
  · rw [hc]
  · rw [hc]
  · rw [hc]
  · rw [hc]; simp [hw]

theorem vms_fork_copy_on_write_readonly_leaf_witness :
    (leafEntry readOnlyState.mem 0 0 0 0).write = false ∧
    leafEntry (vms_fork_copy_on_write 2 0 readOnlyState).2.mem 0 0 0 0
      = leafEntry readOnlyState.mem 0 0 0 0 ∧
    (leafEntry (vms_fork_copy_on_write 2 0 readOnlyState).2.mem
        (vms_fork_copy_on_write 2 0 readOnlyState).1 0 0 0).custom
        = (leafEntry readOnlyState.mem 0 0 0 0).custom :=
  have h := vms_fork_copy_on_write_readonly_leaf 2 0 readOnlyState 0 0 0 (by decide)
    readOnlyState_freshZero (by decide) (by decide) (by decide) (by decide) (by decide)
    (by decide)
  ⟨by decide, h.2.2.1, h.2.2.2.2.2.2.2.2⟩

/-! ## Theorems: the eager duplicator -/

theorem SameBelow.same_refl (n0 : Nat) (s : State) : SameBelow n0 s s :=
  ⟨rfl, le_refl _, fun _ _ _ => rfl⟩

theorem SameBelow.same_trans {n0 : Nat} {s s1 s2 : State}
    (h1 : SameBelow n0 s s1) (h2 : SameBelow n0 s1 s2) : SameBelow n0 s s2 :=
  ⟨h2.ledger_eq.trans h1.ledger_eq, le_trans h1.next_le h2.next_le,
    fun p hp t => (h2.mem_eq p hp t).trans (h1.mem_eq p hp t)⟩

theorem SameBelow.same_wr {n0 : Nat} {s s1 : State} (h : SameBelow n0 s s1) (a : Addr) (e : PTE)
    (ha : n0 ≤ a.1) : SameBelow n0 s (s1.wr a e) :=
  ⟨h.ledger_eq, h.next_le, fun p hp t => by
    have : ¬ (p = a.1 ∧ t = a.2) := fun hh => by omega
    simp only [State.wr, this, if_false]
    exact h.mem_eq p hp t⟩

theorem SameBelow.same_memcpy {n0 : Nat} {s s1 : State} (h : SameBelow n0 s s1) (dst src : Nat)
    (hd : n0 ≤ dst) : SameBelow n0 s (memcpy s1 dst src) :=
  ⟨h.ledger_eq, h.next_le, fun p hp t => by
    have : ¬ p = dst := by omega
    simp only [memcpy, this, if_false]
    exact h.mem_eq p hp t⟩

theorem SameBelow.same_alloc {n0 : Nat} {s s1 : State} (h : SameBelow n0 s s1) :
    SameBelow n0 s (vms_new_page s1).2 :=
  ⟨h.ledger_eq, le_trans h.next_le (Nat.le_succ _), h.mem_eq⟩

theorem SameBelow.same_loop {n0 : Nat} (body : Nat → State → State)
    (hb : ∀ i s, n0 ≤ s.next → SameBelow n0 s (body i s)) (n : Nat) (s : State)
    (hs : n0 ≤ s.next) : SameBelow n0 s (forLoop n body s) := by
  induction n with
  | zero => exact SameBelow.same_refl _ _
  | succ n ih =>
    rw [forLoop_succ]
    exact ih.same_trans (hb n _ (le_trans hs ih.next_le))

/-- The leaf loop body of `vms_fork_copy` writes only to the child's L0 table and
to the page it allocates. -/
theorem copy_l0_body_same (n0 : Nat) (pl1e : Addr) (c0 k : Nat) (s : State)
    (hc : n0 ≤ c0) (hs : n0 ≤ s.next) : SameBelow n0 s (copy_l0_body pl1e c0 k s) := by
  simp only [copy_l0_body, vms_pte_set_ppn, vms_pte_valid_set, vms_pte_read_set,
    vms_pte_write_set, vms_pte_custom_set, vms_page_table_pte_entry_from_index]
  have h0 : SameBelow n0 s (vms_new_page s).2 := (SameBelow.same_refl n0 s).same_alloc
  have hd : n0 ≤ (vms_new_page s).1 := hs
  split_ifs <;>
    first
    | exact SameBelow.same_refl _ _
    | (repeat first
        | exact h0
        | apply SameBelow.same_wr _ _ _ hc
        | apply SameBelow.same_memcpy _ _ _ hd)

theorem copy_l1_body_same (n0 N : Nat) (pl2e : Addr) (c1 j : Nat) (s : State)
    (hc : n0 ≤ c1) (hs : n0 ≤ s.next) : SameBelow n0 s (copy_l1_body N pl2e c1 j s) := by
  simp only [copy_l1_body, vms_pte_set_ppn, vms_pte_valid_set,
    vms_page_table_pte_entry_from_index]
  have h0 : SameBelow n0 s (vms_new_page s).2 := (SameBelow.same_refl n0 s).same_alloc
  have hd : n0 ≤ (vms_new_page s).1 := hs
  split_ifs
  · refine SameBelow.same_trans ?_ (SameBelow.same_loop _
      (fun k s' hs' => copy_l0_body_same n0 _ _ k s' hd hs') N _ ?_)
    · repeat first
        | exact h0
        | apply SameBelow.same_wr _ _ _ hc
        | apply SameBelow.same_memcpy _ _ _ hd
    · exact le_trans hs (Nat.le_succ _)
  · exact SameBelow.same_refl _ _

theorem copy_l2_body_same (n0 N : Nat) (l2 c2 i : Nat) (s : State)
    (hc : n0 ≤ c2) (hs : n0 ≤ s.next) : SameBelow n0 s (copy_l2_body N l2 c2 i s) := by
  simp only [copy_l2_body, vms_pte_set_ppn, vms_pte_valid_set,
    vms_page_table_pte_entry_from_index]
  have h0 : SameBelow n0 s (vms_new_page s).2 := (SameBelow.same_refl n0 s).same_alloc
  have hd : n0 ≤ (vms_new_page s).1 := hs
  split_ifs
  · refine SameBelow.same_trans ?_ (SameBelow.same_loop _
      (fun j s' hs' => copy_l1_body_same n0 N _ _ j s' hd hs') N _ ?_)
    · repeat first
        | exact h0
        | apply SameBelow.same_wr _ _ _ hc
        | apply SameBelow.same_memcpy _ _ _ hd
    · exact le_trans hs (Nat.le_succ _)
  · exact SameBelow.same_refl _ _

/-- `vms_fork_copy` leaves the ledger and every page that was allocated before the
call unchanged, whatever the parent tree looks like. -/
theorem vms_fork_copy_same (N root : Nat) (s0 : State) :
    SameBelow s0.next s0 (vms_fork_copy N root s0).2 := by
  unfold vms_fork_copy
  refine SameBelow.same_trans (SameBelow.same_refl _ s0).same_alloc
    (SameBelow.same_loop _ (fun i s' hs' => copy_l2_body_same s0.next N root _ i s' ?_ hs') N _ ?_)
  · exact le_refl _
  · exact Nat.le_succ _

/-- One iteration of the leaf loop of `vms_fork_copy` in closed form, when the
parent's L0 table and data page are neither the child's L0 table nor the page
being allocated. -/
theorem copy_l0_body_eq (l1 j c0 k : Nat) (s : State)
    (h1 : (s.mem l1 j).ppn ≠ c0) (h2 : (s.mem l1 j).ppn ≠ s.next) (h3 : c0 ≠ s.next)
    (h4 : (s.mem (s.mem l1 j).ppn k).ppn ≠ c0) :
    copy_l0_body (l1, j) c0 k s =
      if (s.mem (s.mem l1 j).ppn k).valid = true then
        { mem := fun p t =>
            if p = s.next then s.mem (s.mem (s.mem l1 j).ppn k).ppn t
            else if p = c0 ∧ t = k then
              { ppn := s.next, valid := true,
                read := (s.mem c0 k).read || (s.mem (s.mem l1 j).ppn k).read,
                write := (s.mem c0 k).write || (s.mem (s.mem l1 j).ppn k).write,
                custom := (s.mem c0 k).custom || (s.mem (s.mem l1 j).ppn k).custom,
                rest := (s.mem c0 k).rest }
            else s.mem p t
          next := s.next + 1
          ledger := s.ledger }
      else s := by
  have h1' : ¬ (s.mem l1 j).ppn = c0 := h1
  have h2' : ¬ (s.mem l1 j).ppn = s.next := h2
  have h3' : ¬ c0 = s.next := h3
  have h4' : ¬ (s.mem (s.mem l1 j).ppn k).ppn = c0 := h4
  cases hv : (s.mem (s.mem l1 j).ppn k).valid
  · simp [copy_l0_body, vms_pte_valid, vms_pte_get_ppn, vms_ppn_to_page,
      vms_page_table_pte_entry_from_index, State.rd, hv]
  · cases hw : (s.mem (s.mem l1 j).ppn k).write <;>
      cases hr : (s.mem (s.mem l1 j).ppn k).read <;>
      cases hc : (s.mem (s.mem l1 j).ppn k).custom <;>
    · simp [copy_l0_body, vms_pte_valid, vms_pte_get_ppn, vms_ppn_to_page,
        vms_page_table_pte_entry_from_index, vms_pte_set_ppn, vms_pte_valid_set,
        vms_pte_write, vms_pte_read, vms_pte_read_set, vms_new_page, vms_page_to_ppn, memcpy,
        vms_pte_write_set, vms_pte_custom, vms_pte_custom_set,
        State.rd, State.wr, hv, hw, hr, hc, h1', h2', h3', h4']
      funext p t
      split_ifs <;> simp_all

theorem Kept.kept_refl (n0 c : Nat) (S : Nat → Prop) (s : State) : Kept n0 c S s s :=
  ⟨le_refl _, fun _ _ _ _ _ => rfl⟩

theorem Kept.kept_trans {n0 c : Nat} {S S1 S2 : Nat → Prop} {s s1 s2 : State}
    (f1 : Kept n0 c S1 s s1) (f2 : Kept n0 c S2 s1 s2)
    (h1 : ∀ t, S1 t → S t) (h2 : ∀ t, S2 t → S t) : Kept n0 c S s s2 where
  next_le := le_trans f1.next_le f2.next_le
  kept := fun p hp hp2 t ht => by
    rw [f2.kept p hp (lt_of_lt_of_le hp2 f1.next_le) t (fun hc hS => ht hc (h2 t hS)),
      f1.kept p hp hp2 t (fun hc hS => ht hc (h1 t hS))]

theorem CopyLeafOK.copy_leaf_stable {s0 s s1 : State} {lo l0 c0 k n0 c : Nat} {S : Nat → Prop}
    (h : CopyLeafOK s0 s lo l0 c0 k) (f : Kept n0 c S s s1)
    (hlo : n0 ≤ lo) (hc : ∀ d, lo ≤ d → d ≠ c)
    (hkept : s1.mem c0 k = s.mem c0 k) : CopyLeafOK s0 s1 lo l0 c0 k := by
  refine ⟨fun hv => ?_, fun hv => ?_⟩
  · obtain ⟨d, h1, h2, h3, h4⟩ := h.1 hv
    refine ⟨d, by rw [hkept, h1], h2, lt_of_lt_of_le h3 f.next_le, fun t => ?_⟩
    rw [f.kept d (le_trans hlo h2) h3 t (fun hcc => absurd hcc (hc d h2)), h4]
  · rw [hkept, h.2 hv]

theorem CopyLeafOK.copy_leaf_mono {s0 s : State} {lo lo1 l0 c0 k : Nat}
    (h : CopyLeafOK s0 s lo l0 c0 k) (hlo : lo1 ≤ lo) : CopyLeafOK s0 s lo1 l0 c0 k := by
  refine ⟨fun hv => ?_, h.2⟩
  obtain ⟨d, h1, h2, h3, h4⟩ := h.1 hv
  exact ⟨d, h1, le_trans hlo h2, h3, h4⟩

theorem CopyL1EntryOK.copy_l1_stable {n : Nat} {s0 s s1 : State} {lo l1 c1 j n0 c : Nat}
    {S : Nat → Prop} (h : CopyL1EntryOK n s0 s lo l1 c1 j) (f : Kept n0 c S s s1)
    (hlo : n0 ≤ lo) (hc : ∀ d, lo ≤ d → d ≠ c)
    (hkept : s1.mem c1 j = s.mem c1 j) : CopyL1EntryOK n s0 s1 lo l1 c1 j := by
  refine ⟨fun hv => ?_, fun hv => ?_⟩
  · obtain ⟨c0, h1, h2, h3, h4⟩ := h.1 hv
    refine ⟨c0, by rw [hkept, h1], h2, lt_of_lt_of_le h3 f.next_le, fun k hk => ?_⟩
    exact (h4 k hk).copy_leaf_stable f hlo hc
      (f.kept c0 (le_trans hlo h2) h3 k (fun hcc => absurd hcc (hc c0 h2)))
  · rw [hkept, h.2 hv]

theorem CopyL1EntryOK.copy_l1_mono {n : Nat} {s0 s : State} {lo lo1 l1 c1 j : Nat}
    (h : CopyL1EntryOK n s0 s lo l1 c1 j) (hlo : lo1 ≤ lo) :
    CopyL1EntryOK n s0 s lo1 l1 c1 j := by
  refine ⟨fun hv => ?_, h.2⟩
  obtain ⟨c0, h1, h2, h3, h4⟩ := h.1 hv
  exact ⟨c0, h1, le_trans hlo h2, h3, fun k hk => (h4 k hk).copy_leaf_mono hlo⟩

theorem CopyL2EntryOK.copy_l2_stable {n : Nat} {s0 s s1 : State} {lo l2 c2 i n0 c : Nat}
    {S : Nat → Prop} (h : CopyL2EntryOK n s0 s lo l2 c2 i) (f : Kept n0 c S s s1)
    (hlo : n0 ≤ lo) (hc : ∀ d, lo ≤ d → d ≠ c)
    (hkept : s1.mem c2 i = s.mem c2 i) : CopyL2EntryOK n s0 s1 lo l2 c2 i := by
  refine ⟨fun hv => ?_, fun hv => ?_⟩
  · obtain ⟨c1, h1, h2, h3, h4⟩ := h.1 hv
    refine ⟨c1, by rw [hkept, h1], h2, lt_of_lt_of_le h3 f.next_le, fun j hj => ?_⟩
    exact (h4 j hj).copy_l1_stable f hlo hc
      (f.kept c1 (le_trans hlo h2) h3 j (fun hcc => absurd hcc (hc c1 h2)))
  · rw [hkept, h.2 hv]

theorem CopyL2EntryOK.copy_l2_mono {n : Nat} {s0 s : State} {lo lo1 l2 c2 i : Nat}
    (h : CopyL2EntryOK n s0 s lo l2 c2 i) (hlo : lo1 ≤ lo) :
    CopyL2EntryOK n s0 s lo1 l2 c2 i := by
  refine ⟨fun hv => ?_, h.2⟩
  obtain ⟨c1, h1, h2, h3, h4⟩ := h.1 hv
  exact ⟨c1, h1, le_trans hlo h2, h3, fun j hj => (h4 j hj).copy_l1_mono hlo⟩

/-- What one iteration of the leaf loop of `vms_fork_copy` achieves. -/
theorem copy_l0_body_spec (s0 s : State) (l1 j c0 k : Nat)
    (hsame : ∀ p, p < s0.next → ∀ t, s.mem p t = s0.mem p t) (hn : s0.next ≤ s.next)
    (hl1 : l1 < s0.next) (hP0 : (s0.mem l1 j).ppn < s0.next)
    (hdata : (s0.mem (s0.mem l1 j).ppn k).valid = true →
      (s0.mem (s0.mem l1 j).ppn k).ppn < s0.next)
    (hc0lo : s0.next ≤ c0) (hc0 : c0 < s.next)
    (hc0z : s.mem c0 k = s0.mem (s0.mem l1 j).ppn k) :
    Kept s0.next c0 (fun t => t = k) s (copy_l0_body (l1, j) c0 k s) ∧
    CopyLeafOK s0 (copy_l0_body (l1, j) c0 k s) s.next (s0.mem l1 j).ppn c0 k := by
  have e1 : (s.mem l1 j).ppn = (s0.mem l1 j).ppn := by rw [hsame l1 hl1 j]
  have e2 : s.mem (s0.mem l1 j).ppn k = s0.mem (s0.mem l1 j).ppn k := hsame _ hP0 k
  cases hv : (s0.mem (s0.mem l1 j).ppn k).valid
  · have hb : copy_l0_body (l1, j) c0 k s = s := by
      simp [copy_l0_body, vms_pte_valid, vms_pte_get_ppn, vms_ppn_to_page,
        vms_page_table_pte_entry_from_index, State.rd, e1, e2, hv]
    rw [hb]
    refine ⟨Kept.kept_refl _ _ _ _, fun h => ?_, fun _ => hc0z⟩
    rw [hv] at h; exact absurd h (by decide)
  · have hd := hdata hv
    rw [copy_l0_body_eq l1 j c0 k s (by rw [e1]; omega) (by rw [e1]; omega) (by omega)
      (by rw [e1, e2]; omega)]
    simp only [e1, e2, hv, if_true, hc0z]
    refine ⟨⟨by simp, fun p hp1 hp2 t ht => ?_⟩, fun _ => ⟨s.next, ?_, le_refl _, by simp, ?_⟩,
      fun h => ?_⟩
    · have m1 : ¬ p = s.next := by omega
      have m2 : ¬ (p = c0 ∧ t = k) := fun h => ht h.1 h.2
      simp only [m1, m2, if_false]
    · have m1 : ¬ c0 = s.next := by omega
      simp only [m1, if_false, and_self, if_true]
      simp [PTE.ext_iff, hv]
    · intro t
      simp only [if_true]
      exact hsame _ hd t
    · rw [hv] at h; exact absurd h (by decide)

/-- What the leaf loop of `vms_fork_copy` has achieved after `n` iterations. -/
theorem copy_l0_loop_spec (N : Nat) (s0 s : State) (l1 j c0 : Nat)
    (hsame : ∀ p, p < s0.next → ∀ t, s.mem p t = s0.mem p t) (hn : s0.next ≤ s.next)
    (hl1 : l1 < s0.next) (hP0 : (s0.mem l1 j).ppn < s0.next)
    (hdata : ∀ k, k < N → (s0.mem (s0.mem l1 j).ppn k).valid = true →
      (s0.mem (s0.mem l1 j).ppn k).ppn < s0.next)
    (hc0lo : s0.next ≤ c0) (hc0 : c0 < s.next)
    (hc0z : ∀ t, s.mem c0 t = s0.mem (s0.mem l1 j).ppn t)
    (n : Nat) (hnN : n ≤ N) :
    Kept s0.next c0 (fun t => t < n) s (forLoop n (copy_l0_body (l1, j) c0) s) ∧
    ∀ k, k < n →
      CopyLeafOK s0 (forLoop n (copy_l0_body (l1, j) c0) s) s.next (s0.mem l1 j).ppn c0 k := by
  induction n with
  | zero =>
    exact ⟨Kept.kept_refl _ _ _ _, fun k hk => absurd hk (Nat.not_lt_zero k)⟩
  | succ n ih =>
    obtain ⟨fr, oks⟩ := ih (by omega)
    have sb := SameBelow.same_loop (copy_l0_body (l1, j) c0)
      (fun k s' hs' => copy_l0_body_same s0.next (l1, j) c0 k s' hc0lo hs') n s hn
    rw [forLoop_succ]
    generalize forLoop n (copy_l0_body (l1, j) c0) s = sn at *
    have hsame' : ∀ p, p < s0.next → ∀ t, sn.mem p t = s0.mem p t :=
      fun p hp t => (sb.mem_eq p hp t).trans (hsame p hp t)
    have hc0' : c0 < sn.next := lt_of_lt_of_le hc0 fr.next_le
    have hc0z' : sn.mem c0 n = s0.mem (s0.mem l1 j).ppn n := by
      rw [fr.kept c0 hc0lo hc0 n (fun _ h => lt_irrefl n h), hc0z]
    obtain ⟨f, ok⟩ := copy_l0_body_spec s0 sn l1 j c0 n hsame' (le_trans hn fr.next_le) hl1 hP0
      (hdata n (by omega)) hc0lo hc0' hc0z'
    refine ⟨fr.kept_trans f (fun t h => Nat.lt_succ_of_lt h)
      (fun t h => h ▸ Nat.lt_succ_self n), fun k hk => ?_⟩
    by_cases hkn : k = n
    · subst hkn
      exact ok.copy_leaf_mono fr.next_le
    · have hk' : k < n := by omega
      exact (oks k hk').copy_leaf_stable f hn (fun d hd => by omega)
        (f.kept c0 hc0lo hc0' k (fun _ h => hkn h))

/-- One iteration of the middle loop of `vms_fork_copy`, unfolded, when the
parent's tables are neither the child's L1 table nor the page being allocated. -/
theorem copy_l1_body_eq (n : Nat) (l2 i c1 j : Nat) (s : State)
    (h1 : (s.mem l2 i).ppn ≠ c1) (h2 : (s.mem (s.mem l2 i).ppn j).ppn ≠ c1)
    (h3 : c1 ≠ s.next) :
    copy_l1_body n (l2, i) c1 j s =
      if (s.mem (s.mem l2 i).ppn j).valid = true then
        forLoop n (copy_l0_body ((s.mem l2 i).ppn, j) s.next)
          { mem := fun p t =>
              if p = c1 ∧ t = j then { s.mem c1 j with ppn := s.next, valid := true }
              else if p = s.next then s.mem (s.mem (s.mem l2 i).ppn j).ppn t
              else s.mem p t
            next := s.next + 1
            ledger := s.ledger }
      else s := by
  have h1' : ¬ (s.mem l2 i).ppn = c1 := h1
  have h2' : ¬ (s.mem (s.mem l2 i).ppn j).ppn = c1 := h2
  simp only [copy_l1_body, vms_pte_valid, vms_pte_get_ppn, vms_ppn_to_page,
    vms_page_table_pte_entry_from_index, vms_new_page, vms_pte_set_ppn, vms_page_to_ppn,
    vms_pte_valid_set, memcpy, State.rd, State.wr]
  by_cases hv : (s.mem (s.mem l2 i).ppn j).valid = true
  · rw [if_pos hv, if_pos hv]
    congr 1
    apply State.ext
    · funext p t
      have h3' : ¬ c1 = s.next := h3
      have h3'' : ¬ s.next = c1 := fun h => h3 h.symm
      simp only [h1', false_and, if_false, h2', h3']
      by_cases h : p = c1 ∧ t = j
      · obtain ⟨rfl, rfl⟩ := h
        simp [h3']
      · by_cases hp : p = s.next
        · subst hp
          simp [h3'', h2']
        · simp [h, hp]
    · rfl
    · rfl
  · rw [if_neg hv, if_neg hv]

/-- What one iteration of the middle loop of `vms_fork_copy` achieves. -/
theorem copy_l1_body_spec (N : Nat) (s0 s : State) (l2 i c1 j : Nat)
    (hsame : ∀ p, p < s0.next → ∀ t, s.mem p t = s0.mem p t) (hn : s0.next ≤ s.next)
    (hl2 : l2 < s0.next) (hP1 : (s0.mem l2 i).ppn < s0.next)
    (hL0 : (s0.mem (s0.mem l2 i).ppn j).valid = true →
      (s0.mem (s0.mem l2 i).ppn j).ppn < s0.next)
    (hdata : ∀ k, k < N → (s0.mem (s0.mem l2 i).ppn j).valid = true →
      (s0.mem (s0.mem (s0.mem l2 i).ppn j).ppn k).valid = true →
      (s0.mem (s0.mem (s0.mem l2 i).ppn j).ppn k).ppn < s0.next)
    (hc1lo : s0.next ≤ c1) (hc1 : c1 < s.next)
    (hc1z : s.mem c1 j = s0.mem (s0.mem l2 i).ppn j) :
    Kept s0.next c1 (fun t => t = j) s (copy_l1_body N (l2, i) c1 j s) ∧
    CopyL1EntryOK N s0 (copy_l1_body N (l2, i) c1 j s) s.next (s0.mem l2 i).ppn c1 j := by
  have e1 : (s.mem l2 i).ppn = (s0.mem l2 i).ppn := by rw [hsame l2 hl2 i]
  have e2 : s.mem (s0.mem l2 i).ppn j = s0.mem (s0.mem l2 i).ppn j := hsame _ hP1 j
  cases hv : (s0.mem (s0.mem l2 i).ppn j).valid
  · have hb : copy_l1_body N (l2, i) c1 j s = s := by
      simp [copy_l1_body, vms_pte_valid, vms_pte_get_ppn, vms_ppn_to_page,
        vms_page_table_pte_entry_from_index, State.rd, e1, e2, hv]
    rw [hb]
    refine ⟨Kept.kept_refl _ _ _ _, fun h => ?_, fun _ => hc1z⟩
    rw [hv] at h; exact absurd h (by decide)
  · have hP0 := hL0 hv
    rw [copy_l1_body_eq N l2 i c1 j s (by rw [e1]; omega) (by rw [e1, e2]; omega) (by omega)]
    simp only [e1, e2, hv, if_true]
    generalize hsb : State.mk (fun p t =>
        if p = c1 ∧ t = j then { s.mem c1 j with ppn := s.next, valid := true }
        else if p = s.next then s.mem (s0.mem (s0.mem l2 i).ppn j).ppn t
        else s.mem p t) (s.next + 1) s.ledger = sb
    have b1 : sb.next = s.next + 1 := by rw [← hsb]
    have b3 : ∀ p t, ¬ p = c1 → ¬ p = s.next → sb.mem p t = s.mem p t := by
      intro p t h h'; rw [← hsb]; simp only [h, h', false_and, if_false]
    have b4 : sb.mem c1 j = { s.mem c1 j with ppn := s.next, valid := true } := by
      rw [← hsb]; simp
    have b5 : ∀ t, sb.mem s.next t = s0.mem (s0.mem (s0.mem l2 i).ppn j).ppn t := by
      intro t
      have : ¬ s.next = c1 := by omega
      rw [← hsb]; simp only [this, false_and, if_false, if_true]
      exact hsame _ hP0 t
    obtain ⟨fr, oks⟩ := copy_l0_loop_spec N s0 sb (s0.mem l2 i).ppn j s.next
      (fun p hp t => by rw [b3 p t (by omega) (by omega)]; exact hsame p hp t)
      (by omega) hP1 hP0 (fun k hk => hdata k hk hv) hn (by omega) b5 N (le_refl _)
    generalize forLoop N (copy_l0_body ((s0.mem l2 i).ppn, j) s.next) sb = s1 at *
    refine ⟨⟨?_, fun p hp1 hp2 t ht => ?_⟩, fun _ => ⟨s.next, ?_, le_refl _, ?_, ?_⟩,
      fun h => ?_⟩
    · have := fr.next_le; omega
    · rw [fr.kept p hp1 (by omega) t (fun h => by omega)]
      by_cases hpc : p = c1
      · have htj : ¬ t = j := ht hpc
        rw [← hsb]
        have : ¬ p = s.next := by omega
        simp only [htj, and_false, if_false, this]
      · exact b3 p t hpc (by omega)
    · rw [fr.kept c1 hc1lo (by omega) j (fun h => by omega), b4, hc1z]
      simp [PTE.ext_iff, hv]
    · have := fr.next_le; omega
    · intro k hk
      exact (oks k hk).copy_leaf_mono (by omega)
    · rw [hv] at h; exact absurd h (by decide)

/-- What the middle loop of `vms_fork_copy` has achieved after `n` iterations. -/
theorem copy_l1_loop_spec (N : Nat) (s0 s : State) (l2 i c1 : Nat)
    (hsame : ∀ p, p < s0.next → ∀ t, s.mem p t = s0.mem p t) (hn : s0.next ≤ s.next)
    (hl2 : l2 < s0.next) (hP1 : (s0.mem l2 i).ppn < s0.next)
    (hL0 : ∀ j, j < N → (s0.mem (s0.mem l2 i).ppn j).valid = true →
      (s0.mem (s0.mem l2 i).ppn j).ppn < s0.next)
    (hdata : ∀ j, j < N → ∀ k, k < N → (s0.mem (s0.mem l2 i).ppn j).valid = true →
      (s0.mem (s0.mem (s0.mem l2 i).ppn j).ppn k).valid = true →
      (s0.mem (s0.mem (s0.mem l2 i).ppn j).ppn k).ppn < s0.next)
    (hc1lo : s0.next ≤ c1) (hc1 : c1 < s.next)
    (hc1z : ∀ t, s.mem c1 t = s0.mem (s0.mem l2 i).ppn t)
    (n : Nat) (hnN : n ≤ N) :
    Kept s0.next c1 (fun t => t < n) s (forLoop n (copy_l1_body N (l2, i) c1) s) ∧
    ∀ j, j < n →
      CopyL1EntryOK N s0 (forLoop n (copy_l1_body N (l2, i) c1) s) s.next
        (s0.mem l2 i).ppn c1 j := by
  induction n with
  | zero =>
    exact ⟨Kept.kept_refl _ _ _ _, fun k hk => absurd hk (Nat.not_lt_zero k)⟩
  | succ n ih =>
    obtain ⟨fr, oks⟩ := ih (by omega)
    have sb := SameBelow.same_loop (copy_l1_body N (l2, i) c1)
      (fun k s' hs' => copy_l1_body_same s0.next N (l2, i) c1 k s' hc1lo hs') n s hn
    rw [forLoop_succ]
    generalize forLoop n (copy_l1_body N (l2, i) c1) s = sn at *
    have hsame' : ∀ p, p < s0.next → ∀ t, sn.mem p t = s0.mem p t :=
      fun p hp t => (sb.mem_eq p hp t).trans (hsame p hp t)
    have hc1' : c1 < sn.next := lt_of_lt_of_le hc1 fr.next_le
    have hc1z' : sn.mem c1 n = s0.mem (s0.mem l2 i).ppn n := by
      rw [fr.kept c1 hc1lo hc1 n (fun _ h => lt_irrefl n h), hc1z]
    obtain ⟨f, ok⟩ := copy_l1_body_spec N s0 sn l2 i c1 n hsame' (le_trans hn fr.next_le) hl2 hP1
      (hL0 n (by omega)) (fun k hk => hdata n (by omega) k hk) hc1lo hc1' hc1z'
    refine ⟨fr.kept_trans f (fun t h => Nat.lt_succ_of_lt h)
      (fun t h => h ▸ Nat.lt_succ_self n), fun k hk => ?_⟩
    by_cases hkn : k = n
    · subst hkn
      exact ok.copy_l1_mono fr.next_le
    · have hk' : k < n := by omega
      exact (oks k hk').copy_l1_stable f hn (fun d hd => by omega)
        (f.kept c1 hc1lo hc1' k (fun _ h => hkn h))

/-- One iteration of the outer loop of `vms_fork_copy`, unfolded, when the parent's
tables are neither the child's root nor the page being allocated. -/
theorem copy_l2_body_eq (n : Nat) (l2 c2 i : Nat) (s : State)
    (h1 : l2 ≠ c2) (h2 : (s.mem l2 i).ppn ≠ c2) (h3 : c2 ≠ s.next) :
    copy_l2_body n l2 c2 i s =
      if (s.mem l2 i).valid = true then
        forLoop n (copy_l1_body n (l2, i) s.next)
          { mem := fun p t =>
              if p = c2 ∧ t = i then { s.mem c2 i with ppn := s.next, valid := true }
              else if p = s.next then s.mem (s.mem l2 i).ppn t
              else s.mem p t
            next := s.next + 1
            ledger := s.ledger }
      else s := by
  have h1' : ¬ l2 = c2 := h1
  have h2' : ¬ (s.mem l2 i).ppn = c2 := h2
  have h3' : ¬ c2 = s.next := h3
  have h3'' : ¬ s.next = c2 := fun h => h3 h.symm
  simp only [copy_l2_body, vms_pte_valid, vms_pte_get_ppn, vms_ppn_to_page,
    vms_page_table_pte_entry_from_index, vms_new_page, vms_pte_set_ppn, vms_page_to_ppn,
    vms_pte_valid_set, memcpy, State.rd, State.wr]
  by_cases hv : (s.mem l2 i).valid = true
  · rw [if_pos hv, if_pos hv]
    congr 1
    apply State.ext
    · funext p t
      simp only [h1', false_and, if_false, h2', h3']
      by_cases h : p = c2 ∧ t = i
      · obtain ⟨rfl, rfl⟩ := h
        simp [h3']
      · by_cases hp : p = s.next
        · subst hp
          simp [h3'', h2']
        · simp [h, hp]
    · rfl
    · rfl
  · rw [if_neg hv, if_neg hv]

/-- What one iteration of the outer loop of `vms_fork_copy` achieves. -/
theorem copy_l2_body_spec (N : Nat) (s0 s : State) (l2 c2 i : Nat)
    (hsame : ∀ p, p < s0.next → ∀ t, s.mem p t = s0.mem p t) (hn : s0.next ≤ s.next)
    (hl2 : l2 < s0.next)
    (hP1 : (s0.mem l2 i).valid = true → (s0.mem l2 i).ppn < s0.next)
    (hL0 : ∀ j, j < N → (s0.mem l2 i).valid = true →
      (s0.mem (s0.mem l2 i).ppn j).valid = true → (s0.mem (s0.mem l2 i).ppn j).ppn < s0.next)
    (hdata : ∀ j, j < N → ∀ k, k < N → (s0.mem l2 i).valid = true →
      (s0.mem (s0.mem l2 i).ppn j).valid = true →
      (s0.mem (s0.mem (s0.mem l2 i).ppn j).ppn k).valid = true →
      (s0.mem (s0.mem (s0.mem l2 i).ppn j).ppn k).ppn < s0.next)
    (hc2lo : s0.next ≤ c2) (hc2 : c2 < s.next) (hc2z : s.mem c2 i = s0.mem c2 i) :
    Kept s0.next c2 (fun t => t = i) s (copy_l2_body N l2 c2 i s) ∧
    CopyL2EntryOK N s0 (copy_l2_body N l2 c2 i s) s.next l2 c2 i := by
  have e2 : s.mem l2 i = s0.mem l2 i := hsame _ hl2 i
  cases hv : (s0.mem l2 i).valid
  · have hb : copy_l2_body N l2 c2 i s = s := by
      simp [copy_l2_body, vms_pte_valid, vms_page_table_pte_entry_from_index, State.rd, e2, hv]
    rw [hb]
    refine ⟨Kept.kept_refl _ _ _ _, fun h => ?_, fun _ => hc2z⟩
    rw [hv] at h; exact absurd h (by decide)
  · have hP1' := hP1 hv
    rw [copy_l2_body_eq N l2 c2 i s (by omega) (by rw [e2]; omega) (by omega)]
    simp only [e2, hv, if_true]
    generalize hsb : State.mk (fun p t =>
        if p = c2 ∧ t = i then { s.mem c2 i with ppn := s.next, valid := true }
        else if p = s.next then s.mem (s0.mem l2 i).ppn t
        else s.mem p t) (s.next + 1) s.ledger = sb
    have b1 : sb.next = s.next + 1 := by rw [← hsb]
    have b3 : ∀ p t, ¬ p = c2 → ¬ p = s.next → sb.mem p t = s.mem p t := by
      intro p t h h'; rw [← hsb]; simp only [h, h', false_and, if_false]
    have b4 : sb.mem c2 i = { s.mem c2 i with ppn := s.next, valid := true } := by
      rw [← hsb]; simp
    have b5 : ∀ t, sb.mem s.next t = s0.mem (s0.mem l2 i).ppn t := by
      intro t
      have : ¬ s.next = c2 := by omega
      rw [← hsb]; simp only [this, false_and, if_false, if_true]
      exact hsame _ hP1' t
    obtain ⟨fr, oks⟩ := copy_l1_loop_spec N s0 sb l2 i s.next
      (fun p hp t => by rw [b3 p t (by omega) (by omega)]; exact hsame p hp t)
      (by omega) hl2 hP1' (fun j hj => hL0 j hj hv) (fun j hj k hk => hdata j hj k hk hv)
      hn (by omega) b5 N (le_refl _)
    generalize forLoop N (copy_l1_body N (l2, i) s.next) sb = s1 at *
    refine ⟨⟨?_, fun p hp1 hp2 t ht => ?_⟩, fun _ => ⟨s.next, ?_, le_refl _, ?_, ?_⟩,
      fun h => ?_⟩
    · have := fr.next_le; omega
    · rw [fr.kept p hp1 (by omega) t (fun h => by omega)]
      by_cases hpc : p = c2
      · have htj : ¬ t = i := ht hpc
        rw [← hsb]
        have : ¬ p = s.next := by omega
        simp only [htj, and_false, if_false, this]
      · exact b3 p t hpc (by omega)
    · rw [fr.kept c2 hc2lo (by omega) i (fun h => by omega), b4, hc2z]
    · have := fr.next_le; omega
    · intro j hj
      exact (oks j hj).copy_l1_mono (by omega)
    · rw [hv] at h; exact absurd h (by decide)

/-- What the outer loop of `vms_fork_copy` has achieved after `n` iterations. -/
theorem copy_l2_loop_spec (N : Nat) (s0 s : State) (l2 c2 : Nat)
    (hsame : ∀ p, p < s0.next → ∀ t, s.mem p t = s0.mem p t) (hn : s0.next ≤ s.next)
    (hin : AllInUse N l2 s0)
    (hc2lo : s0.next ≤ c2) (hc2 : c2 < s.next) (hc2z : ∀ t, s.mem c2 t = s0.mem c2 t)
    (n : Nat) (hnN : n ≤ N) :
    Kept s0.next c2 (fun t => t < n) s (forLoop n (copy_l2_body N l2 c2) s) ∧
    ∀ i, i < n → CopyL2EntryOK N s0 (forLoop n (copy_l2_body N l2 c2) s) s.next l2 c2 i := by
  obtain ⟨⟨hroot, hl1, hl0⟩, hdat⟩ := hin
  induction n with
  | zero =>
    exact ⟨Kept.kept_refl _ _ _ _, fun k hk => absurd hk (Nat.not_lt_zero k)⟩
  | succ n ih =>
    obtain ⟨fr, oks⟩ := ih (by omega)
    have sb := SameBelow.same_loop (copy_l2_body N l2 c2)
      (fun k s' hs' => copy_l2_body_same s0.next N l2 c2 k s' hc2lo hs') n s hn
    rw [forLoop_succ]
    generalize forLoop n (copy_l2_body N l2 c2) s = sn at *
    have hsame' : ∀ p, p < s0.next → ∀ t, sn.mem p t = s0.mem p t :=
      fun p hp t => (sb.mem_eq p hp t).trans (hsame p hp t)
    have hc2' : c2 < sn.next := lt_of_lt_of_le hc2 fr.next_le
    have hc2z' : sn.mem c2 n = s0.mem c2 n := by
      rw [fr.kept c2 hc2lo hc2 n (fun _ h => lt_irrefl n h), hc2z]
    obtain ⟨f, ok⟩ := copy_l2_body_spec N s0 sn l2 c2 n hsame' (le_trans hn fr.next_le) hroot
      (hl1 n (by omega)) (fun j hj => hl0 n (by omega) j hj)
      (fun j hj k hk => hdat n (by omega) j hj k hk) hc2lo hc2' hc2z'
    refine ⟨fr.kept_trans f (fun t h => Nat.lt_succ_of_lt h)
      (fun t h => h ▸ Nat.lt_succ_self n), fun k hk => ?_⟩
    by_cases hkn : k = n
    · subst hkn
      exact ok.copy_l2_mono fr.next_le
    · have hk' : k < n := by omega
      exact (oks k hk').copy_l2_stable f hn (fun d hd => by omega)
        (f.kept c2 hc2lo hc2' k (fun _ h => hkn h))

/-- The tree `vms_fork_copy` returns, described slot by slot. -/
theorem copy_fork_spec (N root : Nat) (s0 : State) (hin : AllInUse N root s0) :
    (vms_fork_copy N root s0).1 = s0.next ∧
    s0.next < (vms_fork_copy N root s0).2.next ∧
    ∀ i, i < N → CopyL2EntryOK N s0 (vms_fork_copy N root s0).2 (s0.next + 1) root s0.next i := by
  obtain ⟨fr, oks⟩ := copy_l2_loop_spec N s0 { s0 with next := s0.next + 1 } root s0.next
    (fun _ _ _ => rfl) (Nat.le_succ _) hin (le_refl _) (Nat.lt_succ_self _) (fun _ => rfl)
    N (le_refl _)
  exact ⟨rfl, lt_of_lt_of_le (Nat.lt_succ_self _) fr.next_le, oks⟩

/-- After `vms_fork_copy`, with unallocated pages zero-filled, every page of the
child's tree was allocated by the call. -/
theorem copy_child_fresh (N root : Nat) (s0 : State) (hin : AllInUse N root s0)
    (hz : FreshZero s0) (q : Nat)
    (hq : InTree N (vms_fork_copy N root s0).2.mem (vms_fork_copy N root s0).1 q) :
    s0.next ≤ q := by
  obtain ⟨hc2, -, oks⟩ := copy_fork_spec N root s0 hin
  rw [hc2] at hq
  generalize (vms_fork_copy N root s0).2 = s1 at *
  have hinv : ∀ e : PTE, e.valid = true → e = PTE.zero → False := by
    intro e h1 h2; rw [h2] at h1; exact absurd h1 (by decide)
  rcases hq with rfl | ⟨i, hi, hvi, hq⟩
  · exact le_refl _
  obtain ⟨ok1, ok2⟩ := oks i hi
  cases hpv : (s0.mem root i).valid
  · rw [ok2 hpv] at hvi
    exact (hinv _ hvi (hz _ (le_refl _) i)).elim
  obtain ⟨c1, g1, g2, -, g4⟩ := ok1 hpv
  have q1 : (s1.mem s0.next i).ppn = c1 := by rw [g1]
  rw [q1] at hq
  rcases hq with rfl | ⟨j, hj, hvj, hq⟩
  · omega
  obtain ⟨ok1, ok2⟩ := g4 j hj
  cases hpv1 : (s0.mem (s0.mem root i).ppn j).valid
  · rw [ok2 hpv1, hpv1] at hvj
    exact absurd hvj (by decide)
  obtain ⟨c0, f1, f2, -, f4⟩ := ok1 hpv1
  have q2 : (s1.mem c1 j).ppn = c0 := by rw [f1]
  rw [q2] at hq
  rcases hq with rfl | ⟨k, hk, hvk, hq⟩
  · omega
  obtain ⟨ok1, ok2⟩ := f4 k hk
  cases hpv0 : (s0.mem (s0.mem (s0.mem root i).ppn j).ppn k).valid
  · rw [ok2 hpv0, hpv0] at hvk
    exact absurd hvk (by decide)
  obtain ⟨d, e1, e2, -, -⟩ := ok1 hpv0
  rw [hq, e1]
  show s0.next ≤ d
  omega

/-- After `vms_fork_copy` every page of the parent's tree is a page that was in
use before the call. -/
theorem copy_parent_old (N root : Nat) (s0 : State) (hin : AllInUse N root s0) (q : Nat)
    (hq : InTree N (vms_fork_copy N root s0).2.mem root q) : q < s0.next := by
  have sb := vms_fork_copy_same N root s0
  generalize (vms_fork_copy N root s0).2 = s1 at *
  obtain ⟨⟨hroot, hl1, hl0⟩, hdat⟩ := hin
  rcases hq with rfl | ⟨i, hi, hvi, hq⟩
  · exact hroot
  rw [sb.mem_eq _ hroot i] at hvi hq
  have h1 := hl1 i hi hvi
  rcases hq with rfl | ⟨j, hj, hvj, hq⟩
  · exact h1
  rw [sb.mem_eq _ h1 j] at hvj hq
  have h0 := hl0 i hi j hj hvi hvj
  rcases hq with rfl | ⟨k, hk, hvk, hq⟩
  · exact h0
  rw [sb.mem_eq _ h0 k] at hvk hq
  rw [hq]
  exact hdat i hi j hj k hk hvi hvj hvk

theorem DataPage.inTree {n : Nat} {mem : Nat → Nat → PTE} {root q : Nat}
    (h : DataPage n mem root q) : InTree n mem root q := by
  obtain ⟨i, hi, j, hj, k, hk, ⟨h2, h1⟩, h0, hq⟩ := h
  exact Or.inr ⟨i, hi, h2, Or.inr ⟨j, hj, h1, Or.inr ⟨k, hk, h0, hq⟩⟩⟩

/-- C10, as stated, fails when the allocator hands out a page that is not in use
but not zero-filled: every page of the parent's tree is in use, yet page 7, the
parent's data page, is reachable through valid entries of the child's tree (the
stale slot 1 of the child's root names it) as well as of the parent's. -/
theorem vms_fork_copy_disjoint_counterexample :
    AllInUse 2 0 staleState ∧
    InTree 2 (vms_fork_copy 2 0 staleState).2.mem (vms_fork_copy 2 0 staleState).1 7 ∧
    InTree 2 (vms_fork_copy 2 0 staleState).2.mem 0 7 :=
  ⟨by decide,
   Or.inr ⟨1, by decide, by decide, Or.inl (by decide)⟩,
   Or.inr ⟨0, by decide, by decide,
     Or.inr ⟨0, by decide, by decide, Or.inr ⟨0, by decide, by decide, by decide⟩⟩⟩⟩

/-- C10 (amended): after `vms_fork_copy` on a tree all of whose pages are in use,
with pages not yet allocated zero-filled, no page reachable through valid entries
of the child's tree is reachable through valid entries of the parent's tree; so
overwriting a data page of either tree leaves every data page of the other tree
unchanged. -/
theorem vms_fork_copy_disjoint (N root : Nat) (s0 : State)
    (hin : AllInUse N root s0) (hz : FreshZero s0) :
    (∀ q, InTree N (vms_fork_copy N root s0).2.mem (vms_fork_copy N root s0).1 q →
      ¬ InTree N (vms_fork_copy N root s0).2.mem root q) ∧
    (∀ q d content,
      DataPage N (vms_fork_copy N root s0).2.mem (vms_fork_copy N root s0).1 q →
      DataPage N (vms_fork_copy N root s0).2.mem root d →
      (page_write (vms_fork_copy N root s0).2 q content).mem d
        = (vms_fork_copy N root s0).2.mem d ∧
      (page_write (vms_fork_copy N root s0).2 d content).mem q
        = (vms_fork_copy N root s0).2.mem q) := by
  have key : ∀ q d, InTree N (vms_fork_copy N root s0).2.mem (vms_fork_copy N root s0).1 q →
      InTree N (vms_fork_copy N root s0).2.mem root d → q ≠ d := by
    intro q d hq hd h
    have h1 := copy_child_fresh N root s0 hin hz q hq
    have h2 := copy_parent_old N root s0 hin d hd
    omega
  refine ⟨fun q hq hq' => key q q hq hq' rfl, fun q d content hq hd => ?_⟩
  have hne := key q d hq.inTree hd.inTree
  have hne' : ¬ d = q := fun h => hne h.symm
  have hne'' : ¬ q = d := hne
  simp [page_write, hne', hne'']

theorem vms_fork_copy_disjoint_witness :
    (∀ q, InTree 2 (vms_fork_copy 2 0 scenarioA).2.mem (vms_fork_copy 2 0 scenarioA).1 q →
      ¬ InTree 2 (vms_fork_copy 2 0 scenarioA).2.mem 0 q) ∧
    (∀ q d content,
      DataPage 2 (vms_fork_copy 2 0 scenarioA).2.mem (vms_fork_copy 2 0 scenarioA).1 q →
      DataPage 2 (vms_fork_copy 2 0 scenarioA).2.mem 0 d →
      (page_write (vms_fork_copy 2 0 scenarioA).2 q content).mem d
        = (vms_fork_copy 2 0 scenarioA).2.mem d ∧
      (page_write (vms_fork_copy 2 0 scenarioA).2 d content).mem q
        = (vms_fork_copy 2 0 scenarioA).2.mem q) :=
  vms_fork_copy_disjoint 2 0 scenarioA (by decide) scenarioA_freshZero

/-! ## Theorems: what `vms_fork_copy` writes -/

theorem Confined.confined_refl (s : State) : Confined s s :=
  ⟨le_refl _, fun _ _ _ => rfl⟩

theorem Confined.confined_trans {s s1 s2 : State}
    (h1 : Confined s s1) (h2 : Confined s1 s2) : Confined s s2 :=
  ⟨le_trans h1.next_le h2.next_le,
    fun p hp t => (h2.above p hp t).trans (h1.above p (le_trans h2.next_le hp) t)⟩

theorem Confined.confined_wr {s s1 : State} (h : Confined s s1) (a : Addr) (e : PTE)
    (ha : a.1 < s1.next) : Confined s (s1.wr a e) :=
  ⟨h.next_le, fun p hp t => by
    have hp' : s1.next ≤ p := hp
    have : ¬ (p = a.1 ∧ t = a.2) := fun hh => by omega
    simp only [State.wr, this, if_false]
    exact h.above p hp' t⟩

theorem Confined.confined_memcpy {s s1 : State} (h : Confined s s1) (dst src : Nat)
    (hd : dst < s1.next) : Confined s (memcpy s1 dst src) :=
  ⟨h.next_le, fun p hp t => by
    have hp' : s1.next ≤ p := hp
    have : ¬ p = dst := by omega
    simp only [memcpy, this, if_false]
    exact h.above p hp' t⟩

theorem Confined.confined_alloc {s s1 : State} (h : Confined s s1) :
    Confined s (vms_new_page s1).2 :=
  ⟨le_trans h.next_le (Nat.le_succ _), fun p hp t => by
    have hp' : s1.next + 1 ≤ p := hp
    exact h.above p (by omega) t⟩

theorem Confined.confined_loop (c : Nat) (body : Nat → State → State)
    (hb : ∀ i s, c < s.next → Confined s (body i s)) (n : Nat) (s : State)
    (hs : c < s.next) : Confined s (forLoop n body s) := by
  induction n with
  | zero => exact Confined.confined_refl _
  | succ n ih =>
    rw [forLoop_succ]
    exact ih.confined_trans (hb n _ (lt_of_lt_of_le hs ih.next_le))

theorem copy_l0_body_confined (pl1e : Addr) (c0 k : Nat) (s : State)
    (hc : c0 < s.next) : Confined s (copy_l0_body pl1e c0 k s) := by
  simp only [copy_l0_body, vms_pte_set_ppn, vms_pte_valid_set, vms_pte_read_set,
    vms_pte_write_set, vms_pte_custom_set, vms_page_table_pte_entry_from_index]
  have h0 : Confined s (vms_new_page s).2 := (Confined.confined_refl s).confined_alloc
  have hc1 : c0 < s.next + 1 := Nat.lt_succ_of_lt hc
  have hd1 : s.next < s.next + 1 := Nat.lt_succ_self _
  split_ifs <;>
    first
    | exact Confined.confined_refl _
    | (repeat first
        | exact h0
        | apply Confined.confined_wr _ _ _ hc1
        | apply Confined.confined_memcpy _ _ _ hd1)

theorem copy_l1_body_confined (N : Nat) (pl2e : Addr) (c1 j : Nat) (s : State)
    (hc : c1 < s.next) : Confined s (copy_l1_body N pl2e c1 j s) := by
  simp only [copy_l1_body, vms_pte_set_ppn, vms_pte_valid_set,
    vms_page_table_pte_entry_from_index]
  have h0 : Confined s (vms_new_page s).2 := (Confined.confined_refl s).confined_alloc
  have hc1 : c1 < s.next + 1 := Nat.lt_succ_of_lt hc
  have hd1 : s.next < s.next + 1 := Nat.lt_succ_self _
  split_ifs
  · refine Confined.confined_trans ?_ (Confined.confined_loop (vms_new_page s).1 _
      (fun k s' hs' => copy_l0_body_confined _ _ k s' hs') N _ hd1)
    repeat first
      | exact h0
      | apply Confined.confined_wr _ _ _ hc1
      | apply Confined.confined_memcpy _ _ _ hd1
  · exact Confined.confined_refl _

theorem copy_l2_body_confined (N : Nat) (l2 c2 i : Nat) (s : State)
    (hc : c2 < s.next) : Confined s (copy_l2_body N l2 c2 i s) := by
  simp only [copy_l2_body, vms_pte_set_ppn, vms_pte_valid_set,
    vms_page_table_pte_entry_from_index]
  have h0 : Confined s (vms_new_page s).2 := (Confined.confined_refl s).confined_alloc
  have hc1 : c2 < s.next + 1 := Nat.lt_succ_of_lt hc
  have hd1 : s.next < s.next + 1 := Nat.lt_succ_self _
  split_ifs
  · refine Confined.confined_trans ?_ (Confined.confined_loop (vms_new_page s).1 _
      (fun j s' hs' => copy_l1_body_confined N _ _ j s' hs') N _ hd1)
    repeat first
      | exact h0
      | apply Confined.confined_wr _ _ _ hc1
      | apply Confined.confined_memcpy _ _ _ hd1
  · exact Confined.confined_refl _

/-- `vms_fork_copy` leaves every page it has not allocated yet unchanged. -/
theorem vms_fork_copy_confined (N root : Nat) (s0 : State) :
    Confined s0 (vms_fork_copy N root s0).2 := by
  unfold vms_fork_copy
  exact (Confined.confined_refl s0).confined_alloc.confined_trans
    (Confined.confined_loop s0.next _
      (fun i s' hs' => copy_l2_body_confined N root _ i s' hs') N _ (Nat.lt_succ_self _))

/-- C12: `vms_fork_copy` leaves every entry of the reference ledger unchanged and
leaves every page that was allocated before the call unchanged; the pages it
writes to lie between the allocation pointer before and after the call, that is,
they are pages it allocated. -/
theorem vms_fork_copy_frame (N root : Nat) (s0 : State) :
    (vms_fork_copy N root s0).2.ledger = s0.ledger ∧
    s0.next < (vms_fork_copy N root s0).2.next ∧
    (∀ p t, (vms_fork_copy N root s0).2.mem p t ≠ s0.mem p t →
      s0.next ≤ p ∧ p < (vms_fork_copy N root s0).2.next) := by
  have h1 := vms_fork_copy_same N root s0
  have h2 := vms_fork_copy_confined N root s0
  refine ⟨h1.ledger_eq, ?_, fun p t hne => ?_⟩
  · have : (vms_fork_copy N root s0).2 =
        forLoop N (copy_l2_body N root s0.next) (vms_new_page s0).2 := rfl
    have h3 := SameBelow.same_loop (copy_l2_body N root s0.next)
      (fun i s' hs' => copy_l2_body_same s0.next N root _ i s' (le_refl _) hs') N
      (vms_new_page s0).2 (Nat.le_succ _)
    rw [this]
    exact lt_of_lt_of_le (Nat.lt_succ_self _) h3.next_le
  · constructor
    · by_contra h
      exact hne (h1.mem_eq p (by omega) t)
    · by_contra h
      exact hne (h2.above p (by omega) t)

/-- C11, as stated, fails when the page handed out for the child's root is not
zero-filled: every page of the parent's tree is in use, the parent has no valid
leaf entry at position (1, 0, 0), yet the tree `vms_fork_copy` returns has one. -/
theorem vms_fork_copy_mirror_counterexample :
    AllInUse 2 0 staleRootState ∧
    ¬ Mapped staleRootState.mem 0 1 0 0 ∧
    ¬ Mapped (vms_fork_copy 2 0 staleRootState).2.mem 0 1 0 0 ∧
    Mapped (vms_fork_copy 2 0 staleRootState).2.mem (vms_fork_copy 2 0 staleRootState).1 1 0 0 := by
  decide

/-- C11 (amended): after `vms_fork_copy` on a tree all of whose pages are in use,
with pages not yet allocated zero-filled, the child has a valid leaf entry at
position `(i, j, k)` exactly when the parent has one (before the call, and still
after it); at such a position the child's entry has the parent's `read`, `write`
and `custom` flags and names a page whose contents are those of the parent's data
page at the time of the call. -/
theorem vms_fork_copy_mirror (N root : Nat) (s0 : State)
    (hin : AllInUse N root s0) (hz : FreshZero s0) (i j k : Nat)
    (hi : i < N) (hj : j < N) (hk : k < N) :
    (Mapped (vms_fork_copy N root s0).2.mem (vms_fork_copy N root s0).1 i j k ↔
      Mapped s0.mem root i j k) ∧
    (Mapped (vms_fork_copy N root s0).2.mem root i j k ↔ Mapped s0.mem root i j k) ∧
    (Mapped s0.mem root i j k →
      (leafEntry (vms_fork_copy N root s0).2.mem (vms_fork_copy N root s0).1 i j k).read
        = (leafEntry s0.mem root i j k).read ∧
      (leafEntry (vms_fork_copy N root s0).2.mem (vms_fork_copy N root s0).1 i j k).write
        = (leafEntry s0.mem root i j k).write ∧
      (leafEntry (vms_fork_copy N root s0).2.mem (vms_fork_copy N root s0).1 i j k).custom
        = (leafEntry s0.mem root i j k).custom ∧
      ∀ t, (vms_fork_copy N root s0).2.mem
          (leafEntry (vms_fork_copy N root s0).2.mem (vms_fork_copy N root s0).1 i j k).ppn t
        = s0.mem (leafEntry s0.mem root i j k).ppn t) := by
  obtain ⟨hc2, -, oks⟩ := copy_fork_spec N root s0 hin
  have sb := vms_fork_copy_same N root s0
  rw [hc2]
  generalize (vms_fork_copy N root s0).2 = s1 at *
  obtain ⟨⟨hroot, hl1, hl0⟩, -⟩ := hin
  simp only [Mapped, Reached, leafEntry, l0Table, l1Table]
  obtain ⟨ok1, ok2⟩ := oks i hi
  have par : ((s1.mem root i).valid = true ∧ (s1.mem (s1.mem root i).ppn j).valid = true) ∧
      (s1.mem (s1.mem (s1.mem root i).ppn j).ppn k).valid = true ↔
      ((s0.mem root i).valid = true ∧ (s0.mem (s0.mem root i).ppn j).valid = true) ∧
      (s0.mem (s0.mem (s0.mem root i).ppn j).ppn k).valid = true := by
    rw [sb.mem_eq root hroot i]
    constructor
    · rintro ⟨⟨h2, h1⟩, h0⟩
      rw [sb.mem_eq _ (hl1 i hi h2) j] at h1 h0
      rw [sb.mem_eq _ (hl0 i hi j hj h2 h1) k] at h0
      exact ⟨⟨h2, h1⟩, h0⟩
    · rintro ⟨⟨h2, h1⟩, h0⟩
      rw [sb.mem_eq _ (hl1 i hi h2) j, sb.mem_eq _ (hl0 i hi j hj h2 h1) k]
      exact ⟨⟨h2, h1⟩, h0⟩
  by_cases hv2' : (s0.mem root i).valid = true
  swap
  · have hv2 : (s0.mem root i).valid = false := by simpa using hv2'
    have hz2 : s1.mem s0.next i = PTE.zero := by rw [ok2 hv2]; exact hz _ (le_refl _) i
    refine ⟨?_, par, ?_⟩
    · rw [hz2]; simp [PTE.zero, hv2]
    · rintro ⟨⟨h, -⟩, -⟩; exact absurd h hv2'
  have hv2 := hv2'
  obtain ⟨c1, g1, -, -, g4⟩ := ok1 hv2
  have q1 : (s1.mem s0.next i).ppn = c1 := by rw [g1]
  have v1 : (s1.mem s0.next i).valid = true := by rw [g1]
  rw [q1, v1]
  obtain ⟨ok1, ok2⟩ := g4 j hj
  by_cases hv1' : (s0.mem (s0.mem root i).ppn j).valid = true
  swap
  · have hv1 : (s0.mem (s0.mem root i).ppn j).valid = false := by simpa using hv1'
    refine ⟨?_, par, ?_⟩
    · rw [ok2 hv1, hv1]; simp
    · rintro ⟨⟨-, h⟩, -⟩; exact absurd h hv1'
  have hv1 := hv1'
  obtain ⟨c0, f1, -, -, f4⟩ := ok1 hv1
  have q2 : (s1.mem c1 j).ppn = c0 := by rw [f1]
  have v2 : (s1.mem c1 j).valid = true := by rw [f1]; exact hv1
  rw [q2, v2]
  obtain ⟨ok1, ok2⟩ := f4 k hk
  by_cases hv0' : (s0.mem (s0.mem (s0.mem root i).ppn j).ppn k).valid = true
  swap
  · have hv0 : (s0.mem (s0.mem (s0.mem root i).ppn j).ppn k).valid = false := by
      simpa using hv0'
    refine ⟨?_, par, ?_⟩
    · rw [ok2 hv0, hv0]; simp
    · rintro ⟨-, h⟩; exact absurd h hv0'
  have hv0 := hv0'
  obtain ⟨d, e1, -, -, e4⟩ := ok1 hv0
  refine ⟨?_, par, fun _ => ?_⟩
  · rw [e1]; simp [hv0, hv1, hv2]
  · rw [e1]
    exact ⟨rfl, rfl, rfl, e4⟩

theorem vms_fork_copy_mirror_witness :
    (Mapped (vms_fork_copy 2 0 scenarioA).2.mem (vms_fork_copy 2 0 scenarioA).1 0 0 0 ↔
      Mapped scenarioA.mem 0 0 0 0) ∧
    Mapped scenarioA.mem 0 0 0 0 ∧
    ∀ t, (vms_fork_copy 2 0 scenarioA).2.mem
          (leafEntry (vms_fork_copy 2 0 scenarioA).2.mem (vms_fork_copy 2 0 scenarioA).1 0 0 0).ppn t
        = scenarioA.mem (leafEntry scenarioA.mem 0 0 0 0).ppn t :=
  have h := vms_fork_copy_mirror 2 0 scenarioA (by decide) scenarioA_freshZero 0 0 0
    (by decide) (by decide) (by decide)
  ⟨h.1, by decide, (h.2.2 (by decide)).2.2.2⟩

/-! ## Theorems: what `page_fault_handler` writes -/

section HandlerFrame

variable (pe : (Nat → Nat → PTE) → Nat → Nat → Nat → Addr) (va level pt : Nat) (s : State)

/-- The faulting entry after a fault on a shared page, when the table holding it
is not the page being allocated. -/
theorem handler_shared_entry
    (hv : (s.rd (pe s.mem pt va level)).valid = true)
    (hc : (s.rd (pe s.mem pt va level)).custom = true)
    (hr : (s.rd (pe s.mem pt va level)).read = true)
    (hn : 1 < s.ledger (s.rd (pe s.mem pt va level)).ppn)
    (htab : (pe s.mem pt va level).1 ≠ s.next) :
    ((page_fault_handler pe va level pt s).state.rd (pe s.mem pt va level)).valid = true ∧
    ((page_fault_handler pe va level pt s).state.rd (pe s.mem pt va level)).read = true ∧
    ((page_fault_handler pe va level pt s).state.rd (pe s.mem pt va level)).write = true ∧
    ((page_fault_handler pe va level pt s).state.rd (pe s.mem pt va level)).ppn = s.next ∧
    ((page_fault_handler pe va level pt s).state.rd (pe s.mem pt va level)).rest
      = (s.rd (pe s.mem pt va level)).rest := by
  generalize hA : pe s.mem pt va level = a at *
  obtain ⟨a1, a2⟩ := a
  simp only [State.rd] at hv hc hr hn htab ⊢
  have htab' : ¬ a1 = s.next := htab
  simp only [page_fault_handler, vms_pte_valid, vms_pte_custom, vms_pte_read, vms_pte_get_ppn,
    vms_ppn_to_page, vms_get_page_index, vms_new_page, vms_pte_set_ppn, vms_pte_write_set,
    vms_page_to_ppn, memcpy, vms_pte_custom_clear, State.rd, State.wr, hA, hv, hc, hr, hn]
  simp only [Bool.not_true, Bool.false_eq_true, if_false, if_true, gt_iff_lt]
  split_ifs <;> simp_all [FaultResult.state]

/-- When the handler exits, and what state it exits in. -/
theorem handler_fatal_eq :
    ((page_fault_handler pe va level pt s).isFatal = true ↔
      ((s.rd (pe s.mem pt va level)).valid = false ∨
       (s.rd (pe s.mem pt va level)).custom = false ∨
       (s.rd (pe s.mem pt va level)).read = false)) ∧
    ((page_fault_handler pe va level pt s).isFatal = true →
      page_fault_handler pe va level pt s = .fatal EFAULT s) := by
  generalize hA : pe s.mem pt va level = a
  cases hv : (s.rd a).valid <;> cases hc : (s.rd a).custom <;> cases hr : (s.rd a).read <;>
    simp [page_fault_handler, vms_pte_valid, vms_pte_custom, vms_pte_read, hA, hv, hc, hr,
      FaultResult.isFatal]
  split_ifs <;> simp [FaultResult.isFatal]

/-- In every case `page_fault_handler` ends in a state and either it is the shared
case, or nothing but the faulting entry has changed. -/
theorem handler_not_shared
    (h : ¬ ((s.rd (pe s.mem pt va level)).valid = true ∧
            (s.rd (pe s.mem pt va level)).custom = true ∧
            (s.rd (pe s.mem pt va level)).read = true ∧
            1 < s.ledger (s.rd (pe s.mem pt va level)).ppn)) :
    (page_fault_handler pe va level pt s).state.next = s.next ∧
    (page_fault_handler pe va level pt s).state.ledger = s.ledger ∧
    (∀ b, b ≠ pe s.mem pt va level →
      (page_fault_handler pe va level pt s).state.rd b = s.rd b) ∧
    ((page_fault_handler pe va level pt s).state.rd (pe s.mem pt va level)).valid
      = (s.rd (pe s.mem pt va level)).valid ∧
    ((page_fault_handler pe va level pt s).state.rd (pe s.mem pt va level)).read
      = (s.rd (pe s.mem pt va level)).read ∧
    ((page_fault_handler pe va level pt s).state.rd (pe s.mem pt va level)).ppn
      = (s.rd (pe s.mem pt va level)).ppn ∧
    ((page_fault_handler pe va level pt s).state.rd (pe s.mem pt va level)).rest
      = (s.rd (pe s.mem pt va level)).rest := by
  by_cases hf : (page_fault_handler pe va level pt s).isFatal = true
  · rw [(handler_fatal_eq pe va level pt s).2 hf]
    exact ⟨rfl, rfl, fun _ _ => rfl, rfl, rfl, rfl, rfl⟩
  · have hnf := (not_congr (handler_fatal_eq pe va level pt s).1).1 hf
    simp only [not_or, Bool.not_eq_false] at hnf
    obtain ⟨hv, hc, hr⟩ := hnf
    have hn : s.ledger (s.rd (pe s.mem pt va level)).ppn ≤ 1 := by
      by_contra hh
      exact h ⟨hv, hc, hr, by omega⟩
    rw [handler_sole_eq pe va level pt s hv hc hr hn]
    refine ⟨rfl, rfl, fun b hb => ?_, ?_, ?_, ?_, ?_⟩
    · have : ¬ (b.1 = (pe s.mem pt va level).1 ∧ b.2 = (pe s.mem pt va level).2) :=
        fun h => hb (Prod.ext h.1 h.2)
      simp [FaultResult.state, State.rd, State.wr, this]
    all_goals simp [FaultResult.state, State.rd, State.wr]

/-- C18: `page_fault_handler` changes no word of memory other than the faulting
entry and, when it allocates, the page it allocates; entries of tables in use
other than the faulting one are therefore unchanged.  The faulting entry keeps
`valid` and `read` (and the bits no accessor touches).  At most one page is
allocated, only in the shared case, and it is the page the faulting entry maps
afterwards, not a table; when none is allocated every word other than the
faulting entry is unchanged.  The table holding the faulting entry is a page in
use. -/
theorem page_fault_handler_frame
    (htab : (pe s.mem pt va level).1 < s.next) :
    (∀ b, b ≠ pe s.mem pt va level → b.1 ≠ s.next →
      (page_fault_handler pe va level pt s).state.rd b = s.rd b) ∧
    ((page_fault_handler pe va level pt s).state.rd (pe s.mem pt va level)).valid
      = (s.rd (pe s.mem pt va level)).valid ∧
    ((page_fault_handler pe va level pt s).state.rd (pe s.mem pt va level)).read
      = (s.rd (pe s.mem pt va level)).read ∧
    ((page_fault_handler pe va level pt s).state.rd (pe s.mem pt va level)).rest
      = (s.rd (pe s.mem pt va level)).rest ∧
    (((page_fault_handler pe va level pt s).state.next = s.next ∧
      ∀ b, b ≠ pe s.mem pt va level →
        (page_fault_handler pe va level pt s).state.rd b = s.rd b) ∨
     ((page_fault_handler pe va level pt s).state.next = s.next + 1 ∧
      1 < s.ledger (s.rd (pe s.mem pt va level)).ppn ∧
      ((page_fault_handler pe va level pt s).state.rd (pe s.mem pt va level)).ppn
        = s.next)) := by
  by_cases h : (s.rd (pe s.mem pt va level)).valid = true ∧
            (s.rd (pe s.mem pt va level)).custom = true ∧
            (s.rd (pe s.mem pt va level)).read = true ∧
            1 < s.ledger (s.rd (pe s.mem pt va level)).ppn
  · obtain ⟨hv, hc, hr, hn⟩ := h
    obtain ⟨e1, e2, -, e4, e5⟩ :=
      handler_shared_entry pe va level pt s hv hc hr hn (by omega)
    obtain ⟨-, l2, -⟩ := handler_shared_ledger pe va level pt s hv hc hr hn
    refine ⟨fun b hb hb' => handler_shared_frame pe va level pt s b hv hc hr hn hb hb', ?_, ?_,
      e5, Or.inr ⟨l2, hn, e4⟩⟩
    · rw [e1, hv]
    · rw [e2, hr]
  · obtain ⟨n1, -, n3, n4, n5, -, n7⟩ := handler_not_shared pe va level pt s h
    exact ⟨fun b hb _ => n3 b hb, n4, n5, n7, Or.inl ⟨n1, n3⟩⟩

end HandlerFrame

theorem page_fault_handler_frame_witness :
    (vms_page_table_pte_entry 2 scenarioFork.2.mem scenarioFork.1 0 0).1 < scenarioFork.2.next ∧
    scenarioB.state.rd (2, 0) = scenarioFork.2.rd (2, 0) ∧
    (scenarioB.state.next = scenarioFork.2.next + 1 ∧
      1 < scenarioFork.2.ledger (scenarioFork.2.rd
        (vms_page_table_pte_entry 2 scenarioFork.2.mem scenarioFork.1 0 0)).ppn) :=
  ⟨by decide,
   (page_fault_handler_frame (vms_page_table_pte_entry 2) 0 0 scenarioFork.1 scenarioFork.2
    (by decide)).1 (2, 0) (by decide) (by decide),
   by decide, by decide⟩

/-! ## Theorems: the pages `vms_fork_copy_on_write` allocates -/

/-- One iteration of the middle loop of `vms_fork_copy_on_write`: what it
allocates and which old pages it can change. -/
theorem cow_l1_body_more (n : Nat) (s0 s : State) (l2 i c1 j : Nat)
    (hev : Evolves s0 s) (hp : l2 < s0.next) (hP1 : (s0.mem l2 i).ppn < s0.next)
    (hL0 : (s0.mem (s0.mem l2 i).ppn j).valid = true →
      (s0.mem (s0.mem l2 i).ppn j).ppn < s0.next)
    (hc1lo : s0.next ≤ c1) (hc1 : c1 < s.next) :
    ((s0.mem (s0.mem l2 i).ppn j).valid = true →
      (cow_l1_body n (l2, i) c1 j s).next = s.next + 1 ∧
      ((cow_l1_body n (l2, i) c1 j s).mem c1 j).ppn = s.next) ∧
    ((s0.mem (s0.mem l2 i).ppn j).valid = false → cow_l1_body n (l2, i) c1 j s = s) ∧
    (∀ p, p < s0.next → p ≠ (s0.mem (s0.mem l2 i).ppn j).ppn →
      ∀ t, (cow_l1_body n (l2, i) c1 j s).mem p t = s.mem p t) := by
  have e1 : (s.mem l2 i).ppn = (s0.mem l2 i).ppn := (hev.old l2 hp i).ppn
  have e2 : (s.mem (s0.mem l2 i).ppn j).valid = (s0.mem (s0.mem l2 i).ppn j).valid :=
    (hev.old _ hP1 j).valid
  have e3 : (s.mem (s0.mem l2 i).ppn j).ppn = (s0.mem (s0.mem l2 i).ppn j).ppn :=
    (hev.old _ hP1 j).ppn
  have hn := hev.next_le
  by_cases hv : (s0.mem (s0.mem l2 i).ppn j).valid = true
  swap
  · have hb : cow_l1_body n (l2, i) c1 j s = s := by
      rw [cow_l1_body_eq]; simp [State.rd, e1, e2, hv]
    rw [hb]
    exact ⟨fun h => absurd h hv, fun _ => rfl, fun _ _ _ _ => rfl⟩
  · have hP0 := hL0 hv
    rw [cow_l1_body_closed n l2 i c1 j s (by rw [e1, e2]; exact hv) (by omega) (by omega)
      (by rw [e1, e3]; omega) (by rw [e1, e3]; omega) (by omega)]
    simp only [e1, e3]
    have n2 : ¬ c1 = s.next := by omega
    have n3 : ¬ c1 = (s0.mem (s0.mem l2 i).ppn j).ppn := by omega
    refine ⟨fun _ => ⟨trivial, ?_⟩, fun h => ?_, fun p hp1 hp2 t => ?_⟩
    · simp only [n2, n3, if_false, and_self, if_true]
    · rw [hv] at h; exact absurd h (by decide)
    · have m1 : ¬ p = s.next := by omega
      have m3 : ¬ (p = c1 ∧ t = j) := fun h => by omega
      simp only [m1, hp2, m3, if_false]

/-- The middle loop of `vms_fork_copy_on_write` after `n` iterations: the pages it
has allocated, in order, and the old pages it can have changed. -/
theorem cow_l1_loop_more (N : Nat) (s0 s : State) (l2 i c1 : Nat)
    (hev : Evolves s0 s) (hp : l2 < s0.next) (hP1 : (s0.mem l2 i).ppn < s0.next)
    (hL0 : ∀ j, j < N → (s0.mem (s0.mem l2 i).ppn j).valid = true →
      (s0.mem (s0.mem l2 i).ppn j).ppn < s0.next)
    (hc1lo : s0.next ≤ c1) (hc1 : c1 < s.next) (hc1z : ∀ t, s.mem c1 t = s0.mem c1 t)
    (n : Nat) (hn : n ≤ N) :
    (forLoop n (cow_l1_body N (l2, i) c1) s).next
      = s.next + countBelow n (fun j => (s0.mem (s0.mem l2 i).ppn j).valid) ∧
    (∀ j, j < n → (s0.mem (s0.mem l2 i).ppn j).valid = true →
      ((forLoop n (cow_l1_body N (l2, i) c1) s).mem c1 j).ppn
        = s.next + countBelow j (fun j => (s0.mem (s0.mem l2 i).ppn j).valid)) ∧
    (∀ p, p < s0.next →
      (∀ j, j < n → (s0.mem (s0.mem l2 i).ppn j).valid = true →
        p ≠ (s0.mem (s0.mem l2 i).ppn j).ppn) →
      ∀ t, (forLoop n (cow_l1_body N (l2, i) c1) s).mem p t = s.mem p t) := by
  induction n with
  | zero =>
    refine ⟨?_, fun j hj => absurd hj (Nat.not_lt_zero j), fun _ _ _ _ => rfl⟩
    simp [forLoop, countBelow]
  | succ n ih =>
    obtain ⟨a1, a2, a3⟩ := ih (by omega)
    obtain ⟨fr, -, -⟩ := cow_l1_loop_spec N s0 s l2 i c1 hev hp hP1 hL0 hc1lo hc1 hc1z n
      (by omega)
    rw [forLoop_succ]
    generalize forLoop n (cow_l1_body N (l2, i) c1) s = sn at *
    have hev' : Evolves s0 sn := hev.frame fr
    have hc1' : c1 < sn.next := lt_of_lt_of_le hc1 fr.next_le
    have hc1z' : sn.mem c1 n = s0.mem c1 n := by
      rw [fr.kept c1 hc1lo hc1 n (fun _ h => lt_irrefl n h), hc1z]
    obtain ⟨f, -, -⟩ := cow_l1_body_spec N s0 sn l2 i c1 n hev' hp hP1 (hL0 n (by omega))
      hc1lo hc1' hc1z'
    obtain ⟨b1, b2, b3⟩ := cow_l1_body_more N s0 sn l2 i c1 n hev' hp hP1 (hL0 n (by omega))
      hc1lo hc1'
    refine ⟨?_, fun j hj hvj => ?_, fun p hp1 hp2 t => ?_⟩
    · rw [countBelow_succ]
      by_cases hv : (s0.mem (s0.mem l2 i).ppn n).valid = true
      · rw [(b1 hv).1, a1]; simp [hv]; ring
      · have hv' : (s0.mem (s0.mem l2 i).ppn n).valid = false := by simpa using hv
        rw [b2 hv', a1]; simp [hv']
    · by_cases hjn : j = n
      · subst hjn
        rw [(b1 hvj).2, a1]
      · rw [f.kept c1 hc1lo hc1' j (fun _ h => hjn h)]
        exact a2 j (by omega) hvj
    · by_cases hv : (s0.mem (s0.mem l2 i).ppn n).valid = true
      · rw [b3 p hp1 (hp2 n (Nat.lt_succ_self n) hv) t]
        exact a3 p hp1 (fun j hj => hp2 j (by omega)) t
      · have hv' : (s0.mem (s0.mem l2 i).ppn n).valid = false := by simpa using hv
        rw [b2 hv']
        exact a3 p hp1 (fun j hj => hp2 j (by omega)) t


/-- One iteration of the outer loop of `vms_fork_copy_on_write`: what it
allocates and which old pages it can change. -/
theorem cow_l2_body_more (N : Nat) (s0 s : State) (l2 c2 i : Nat)
    (hev : Evolves s0 s) (hp : l2 < s0.next)
    (hP1 : (s0.mem l2 i).valid = true → (s0.mem l2 i).ppn < s0.next)
    (hL0 : ∀ j, j < N → (s0.mem l2 i).valid = true →
      (s0.mem (s0.mem l2 i).ppn j).valid = true → (s0.mem (s0.mem l2 i).ppn j).ppn < s0.next)
    (hc2lo : s0.next ≤ c2) (hc2 : c2 < s.next) :
    (cow_l2_body N l2 c2 i s).next = s.next + cowPages N s0.mem l2 i ∧
    ((s0.mem l2 i).valid = true →
      ((cow_l2_body N l2 c2 i s).mem c2 i).ppn = s.next ∧
      ∀ j, j < N → (s0.mem (s0.mem l2 i).ppn j).valid = true →
        ((cow_l2_body N l2 c2 i s).mem s.next j).ppn
          = s.next + 1 + countBelow j (fun y => (s0.mem (s0.mem l2 i).ppn y).valid)) ∧
    (∀ p, p < s0.next →
      (∀ j, j < N → (s0.mem l2 i).valid = true → (s0.mem (s0.mem l2 i).ppn j).valid = true →
        p ≠ (s0.mem (s0.mem l2 i).ppn j).ppn) →
      ∀ t, (cow_l2_body N l2 c2 i s).mem p t = s.mem p t) := by
  have e2 : (s.mem l2 i).valid = (s0.mem l2 i).valid := (hev.old _ hp i).valid
  have hn := hev.next_le
  rw [cow_l2_body_eq, e2]
  unfold cowPages
  cases hv : (s0.mem l2 i).valid
  · simp only [Bool.false_eq_true, if_false]
    exact ⟨rfl, fun h => absurd h (by decide), fun _ _ _ _ => trivial⟩
  · simp only [if_true]
    generalize hsb : State.mk (fun p t =>
        if p = c2 ∧ t = i then { s.mem c2 i with ppn := s.next, valid := true } else s.mem p t)
        (s.next + 1) s.ledger = sb
    have b1 : sb.next = s.next + 1 := by rw [← hsb]
    have b3 : ∀ p t, ¬ (p = c2 ∧ t = i) → sb.mem p t = s.mem p t := by
      intro p t h; rw [← hsb]; simp only [h, if_false]
    have b4 : sb.mem c2 i = { s.mem c2 i with ppn := s.next, valid := true } := by
      rw [← hsb]; simp
    have hevb : Evolves s0 sb := by
      refine ⟨by omega, fun p hp1 t => ?_, fun p hp1 t => ?_⟩
      · rw [b3 p t (fun h => by omega)]
        exact hev.fresh p (by omega) t
      · rw [b3 p t (fun h => by omega)]
        exact hev.old p hp1 t
    have hc1z : ∀ t, sb.mem s.next t = s0.mem s.next t := by
      intro t
      rw [b3 s.next t (fun h => by omega)]
      exact hev.fresh s.next (le_refl _) t
    obtain ⟨fr, -, -⟩ := cow_l1_loop_spec N s0 sb l2 i s.next hevb hp (hP1 hv)
      (fun j hj => hL0 j hj hv) hn (by omega) hc1z N (le_refl _)
    obtain ⟨a1, a2, a3⟩ := cow_l1_loop_more N s0 sb l2 i s.next hevb hp (hP1 hv)
      (fun j hj => hL0 j hj hv) hn (by omega) hc1z N (le_refl _)
    generalize forLoop N (cow_l1_body N (l2, i) s.next) sb = s1 at *
    refine ⟨?_, fun _ => ⟨?_, fun j hj hvj => ?_⟩, fun p hp1 hp2 t => ?_⟩
    · rw [a1, b1]; unfold l1Size; ring
    · rw [fr.kept c2 hc2lo (by omega) i (fun h => by omega), b4]
    · rw [a2 j hj hvj, b1]
    · rw [a3 p hp1 (fun j hj hvj => hp2 j hj trivial hvj) t]
      exact b3 p t (fun h => by omega)

/-- The outer loop of `vms_fork_copy_on_write` after `n` iterations: the pages it
has allocated, in order, and the old pages it can have changed. -/
theorem cow_l2_loop_more (N : Nat) (s0 s : State) (l2 c2 : Nat)
    (hev : Evolves s0 s) (hin : TablesInUse N l2 s0)
    (hc2lo : s0.next ≤ c2) (hc2 : c2 + 1 = s.next) (hc2z : ∀ t, s.mem c2 t = s0.mem c2 t)
    (n : Nat) (hn : n ≤ N) :
    (forLoop n (cow_l2_body N l2 c2) s).next = cowL1Page N s0.mem l2 c2 n ∧
    (∀ i, i < n → (s0.mem l2 i).valid = true →
      ((forLoop n (cow_l2_body N l2 c2) s).mem c2 i).ppn = cowL1Page N s0.mem l2 c2 i ∧
      ∀ j, j < N → (s0.mem (s0.mem l2 i).ppn j).valid = true →
        ((forLoop n (cow_l2_body N l2 c2) s).mem (cowL1Page N s0.mem l2 c2 i) j).ppn
          = cowL0Page N s0.mem l2 c2 i j) ∧
    (∀ p, p < s0.next →
      (∀ i, i < n → ∀ j, j < N → (s0.mem l2 i).valid = true →
        (s0.mem (s0.mem l2 i).ppn j).valid = true → p ≠ (s0.mem (s0.mem l2 i).ppn j).ppn) →
      ∀ t, (forLoop n (cow_l2_body N l2 c2) s).mem p t = s.mem p t) := by
  have hin' := hin
  obtain ⟨hroot, hl1, hl0⟩ := hin
  induction n with
  | zero =>
    refine ⟨?_, fun j hj => absurd hj (Nat.not_lt_zero j), fun _ _ _ _ => rfl⟩
    simp [forLoop, cowL1Page, hc2]
  | succ n ih =>
    obtain ⟨a1, a2, a3⟩ := ih (by omega)
    obtain ⟨fr, -, -⟩ := cow_l2_loop_spec N s0 s l2 c2 hev hin' hc2lo (by omega) hc2z n
      (by omega)
    rw [forLoop_succ]
    generalize forLoop n (cow_l2_body N l2 c2) s = sn at *
    have hev' : Evolves s0 sn := hev.frame fr
    have hc2' : c2 < sn.next := lt_of_lt_of_le (by omega) fr.next_le
    have hc2z' : sn.mem c2 n = s0.mem c2 n := by
      rw [fr.kept c2 hc2lo (by omega) n (fun _ h => lt_irrefl n h), hc2z]
    obtain ⟨f, -, -⟩ := cow_l2_body_spec N s0 sn l2 c2 n hev' hroot (hl1 n (by omega))
      (fun j hj => hl0 n (by omega) j hj) hc2lo hc2' hc2z'
    obtain ⟨b1, b2, b3⟩ := cow_l2_body_more N s0 sn l2 c2 n hev' hroot (hl1 n (by omega))
      (fun j hj => hl0 n (by omega) j hj) hc2lo hc2'
    have hmono : ∀ i, i ≤ n → cowL1Page N s0.mem l2 c2 i ≤ cowL1Page N s0.mem l2 c2 n := by
      intro i hi
      unfold cowL1Page
      have h : ∑ x ∈ Finset.range i, cowPages N s0.mem l2 x
          ≤ ∑ x ∈ Finset.range n, cowPages N s0.mem l2 x :=
        Finset.sum_le_sum_of_subset (Finset.range_mono hi)
      omega
    have hlo : ∀ i, c2 + 1 ≤ cowL1Page N s0.mem l2 c2 i := by
      intro i; unfold cowL1Page; omega
    refine ⟨?_, fun i hi hvi => ?_, fun p hp1 hp2 t => ?_⟩
    · rw [b1, a1]; unfold cowL1Page; rw [Finset.sum_range_succ]; ring
    · by_cases hin : i = n
      · subst hin
        obtain ⟨c1, c2'⟩ := b2 hvi
        rw [a1] at c1 c2'
        refine ⟨c1, fun j hj hvj => ?_⟩
        rw [c2' j hj hvj]; rfl
      · have hi' : i < n := by omega
        obtain ⟨c1, c2'⟩ := a2 i hi' hvi
        have hlt : cowL1Page N s0.mem l2 c2 i < sn.next := by
          rw [a1]
          have h1 := hmono (i + 1) (by omega)
          have : cowL1Page N s0.mem l2 c2 (i + 1)
              = cowL1Page N s0.mem l2 c2 i + cowPages N s0.mem l2 i := by
            unfold cowL1Page; rw [Finset.sum_range_succ]; ring
          have h2 : 1 ≤ cowPages N s0.mem l2 i := by
            unfold cowPages; rw [hvi]; simp
          omega
        have h3 := hlo i
        refine ⟨?_, fun j hj hvj => ?_⟩
        · rw [f.kept c2 hc2lo hc2' i (fun _ h => hin h)]; exact c1
        · rw [f.kept _ (by omega) hlt j (fun h => by omega)]
          exact c2' j hj hvj
    · rw [b3 p hp1 (fun j hj => hp2 n (Nat.lt_succ_self n) j hj) t]
      exact a3 p hp1 (fun i hi => hp2 i (by omega)) t

/-- The pages `vms_fork_copy_on_write` allocates, in closed form, and the old pages
it can change: only L0 tables of the parent. -/
theorem cow_fork_more (N root : Nat) (s0 : State) (hin : TablesInUse N root s0) :
    (vms_fork_copy_on_write N root s0).2.next = cowL1Page N s0.mem root s0.next N ∧
    (∀ i, i < N → (s0.mem root i).valid = true →
      ((vms_fork_copy_on_write N root s0).2.mem s0.next i).ppn
        = cowL1Page N s0.mem root s0.next i ∧
      ∀ j, j < N → (s0.mem (s0.mem root i).ppn j).valid = true →
        ((vms_fork_copy_on_write N root s0).2.mem (cowL1Page N s0.mem root s0.next i) j).ppn
          = cowL0Page N s0.mem root s0.next i j) ∧
    (∀ p, p < s0.next →
      (∀ i, i < N → ∀ j, j < N → Reached s0.mem root i j → p ≠ l0Table s0.mem root i j) →
      ∀ t, (vms_fork_copy_on_write N root s0).2.mem p t = s0.mem p t) := by
  have hsa : Evolves s0 { s0 with next := s0.next + 1 } :=
    ⟨Nat.le_succ _, fun _ _ _ => rfl, fun _ _ _ => Down.down_refl _⟩
  obtain ⟨a1, a2, a3⟩ := cow_l2_loop_more N s0 { s0 with next := s0.next + 1 } root s0.next
    hsa hin (le_refl _) rfl (fun _ => rfl) N (le_refl _)
  refine ⟨a1, a2, fun p hp1 hp2 t => ?_⟩
  exact a3 p hp1 (fun i hi j hj hv2 hv1 => hp2 i hi j hj ⟨hv2, hv1⟩) t

/-! ### The order in which the child's tables are allocated -/

theorem countBelow_mono (f : Nat → Bool) {a b : Nat} (h : a ≤ b) :
    countBelow a f ≤ countBelow b f := by
  unfold countBelow
  exact Finset.sum_le_sum_of_subset (Finset.range_mono h)

theorem countBelow_lt (f : Nat → Bool) {a b : Nat} (h : a < b) (ha : f a = true) :
    countBelow a f < countBelow b f := by
  have h1 := countBelow_mono f (Nat.succ_le_of_lt h)
  rw [countBelow_succ, ha] at h1
  simp only [if_true] at h1
  omega

/-- Every number below the count is the count below some index that satisfies
`f`. -/
theorem countBelow_surj (f : Nat → Bool) (n m : Nat) (h : m < countBelow n f) :
    ∃ j, j < n ∧ f j = true ∧ countBelow j f = m := by
  induction n with
  | zero => simp [countBelow] at h
  | succ n ih =>
    rw [countBelow_succ] at h
    by_cases hm : m < countBelow n f
    · obtain ⟨j, h1, h2, h3⟩ := ih hm
      exact ⟨j, by omega, h2, h3⟩
    · cases hf : f n
      · rw [hf] at h; simp at h; omega
      · rw [hf] at h; simp only [if_true] at h
        exact ⟨n, Nat.lt_succ_self n, hf, by omega⟩

theorem cowL1Page_succ (n : Nat) (mem : Nat → Nat → PTE) (root c2 i : Nat) :
    cowL1Page n mem root c2 (i + 1) = cowL1Page n mem root c2 i + cowPages n mem root i := by
  unfold cowL1Page; rw [Finset.sum_range_succ]; ring

theorem cowL1Page_mono (n : Nat) (mem : Nat → Nat → PTE) (root c2 : Nat) {a b : Nat}
    (h : a ≤ b) : cowL1Page n mem root c2 a ≤ cowL1Page n mem root c2 b := by
  unfold cowL1Page
  have h1 : ∑ x ∈ Finset.range a, cowPages n mem root x
      ≤ ∑ x ∈ Finset.range b, cowPages n mem root x :=
    Finset.sum_le_sum_of_subset (Finset.range_mono h)
  omega

theorem cowL1Page_gt (n : Nat) (mem : Nat → Nat → PTE) (root c2 i : Nat) :
    c2 < cowL1Page n mem root c2 i := by
  unfold cowL1Page; omega

/-- The child's L0 table at a reached position lies strictly between the child's
L1 table of that root slot and the L1 table of the next slot. -/
theorem cowL0Page_bounds (n : Nat) (mem : Nat → Nat → PTE) (root c2 i j : Nat)
    (hj : j < n) (hv2 : (mem root i).valid = true) (hv1 : (mem (mem root i).ppn j).valid = true) :
    cowL1Page n mem root c2 i < cowL0Page n mem root c2 i j ∧
    cowL0Page n mem root c2 i j < cowL1Page n mem root c2 (i + 1) := by
  have h1 := countBelow_lt (fun y => (mem (mem root i).ppn y).valid) hj hv1
  rw [cowL1Page_succ]
  unfold cowL0Page cowPages l1Size
  rw [hv2]
  simp only [if_true]
  omega

theorem cowL1Page_lt (n : Nat) (mem : Nat → Nat → PTE) (root c2 : Nat) {a b : Nat}
    (h : a < b) (hv2 : (mem root a).valid = true) :
    cowL1Page n mem root c2 a < cowL1Page n mem root c2 b := by
  have h1 := cowL1Page_mono n mem root c2 (show a + 1 ≤ b by omega)
  rw [cowL1Page_succ] at h1
  have h2 : 1 ≤ cowPages n mem root a := by unfold cowPages; rw [hv2]; simp
  omega

/-- Distinct valid root slots get distinct L1 tables. -/
theorem cowL1Page_inj (n : Nat) (mem : Nat → Nat → PTE) (root c2 a b : Nat)
    (ha : (mem root a).valid = true) (hb : (mem root b).valid = true)
    (h : cowL1Page n mem root c2 a = cowL1Page n mem root c2 b) : a = b := by
  rcases Nat.lt_trichotomy a b with h1 | h1 | h1
  · have := cowL1Page_lt n mem root c2 h1 ha; omega
  · exact h1
  · have := cowL1Page_lt n mem root c2 h1 hb; omega

/-- Distinct reached positions get distinct L0 tables. -/
theorem cowL0Page_inj (n : Nat) (mem : Nat → Nat → PTE) (root c2 i j x y : Nat)
    (hj : j < n) (hy : y < n)
    (hi2 : (mem root i).valid = true) (hi1 : (mem (mem root i).ppn j).valid = true)
    (hx2 : (mem root x).valid = true) (hx1 : (mem (mem root x).ppn y).valid = true)
    (h : cowL0Page n mem root c2 i j = cowL0Page n mem root c2 x y) : i = x ∧ j = y := by
  obtain ⟨a1, a2⟩ := cowL0Page_bounds n mem root c2 i j hj hi2 hi1
  obtain ⟨b1, b2⟩ := cowL0Page_bounds n mem root c2 x y hy hx2 hx1
  rcases Nat.lt_trichotomy i x with h1 | h1 | h1
  · have := cowL1Page_mono n mem root c2 (show i + 1 ≤ x by omega); omega
  · subst h1
    refine ⟨rfl, ?_⟩
    unfold cowL0Page at h
    rcases Nat.lt_trichotomy j y with h2 | h2 | h2
    · have := countBelow_lt (fun y => (mem (mem root i).ppn y).valid) h2 hi1; omega
    · exact h2
    · have := countBelow_lt (fun y => (mem (mem root i).ppn y).valid) h2 hx1; omega
  · have := cowL1Page_mono n mem root c2 (show x + 1 ≤ i by omega); omega

/-- No L1 table of the child is one of its L0 tables. -/
theorem cowL1Page_ne_cowL0Page (n : Nat) (mem : Nat → Nat → PTE) (root c2 i x y : Nat)
    (hy : y < n) (hx2 : (mem root x).valid = true) (hx1 : (mem (mem root x).ppn y).valid = true) :
    cowL1Page n mem root c2 i ≠ cowL0Page n mem root c2 x y := by
  obtain ⟨b1, b2⟩ := cowL0Page_bounds n mem root c2 x y hy hx2 hx1
  by_cases h : i ≤ x
  · have := cowL1Page_mono n mem root c2 h; omega
  · have := cowL1Page_mono n mem root c2 (show x + 1 ≤ i by omega); omega

/-- Every page from the first L1 table on, up to the end of the allocation, is
the L1 table of a valid root slot or the L0 table of a reached position. -/
theorem cowPage_surj (n : Nat) (mem : Nat → Nat → PTE) (root c2 : Nat) (m p : Nat)
    (hlo : c2 < p) (hhi : p < cowL1Page n mem root c2 m) :
    ∃ i, i < m ∧ (mem root i).valid = true ∧
      (p = cowL1Page n mem root c2 i ∨
       ∃ j, j < n ∧ (mem (mem root i).ppn j).valid = true ∧ p = cowL0Page n mem root c2 i j) := by
  induction m with
  | zero => unfold cowL1Page at hhi; simp at hhi; omega
  | succ m ih =>
    by_cases hp : p < cowL1Page n mem root c2 m
    · obtain ⟨i, h1, h2⟩ := ih hp
      exact ⟨i, by omega, h2⟩
    · rw [cowL1Page_succ] at hhi
      cases hv : (mem root m).valid
      · unfold cowPages at hhi; rw [hv] at hhi; simp at hhi; omega
      · refine ⟨m, Nat.lt_succ_self m, hv, ?_⟩
        unfold cowPages at hhi; rw [hv] at hhi; simp only [if_true] at hhi
        by_cases he : p = cowL1Page n mem root c2 m
        · exact Or.inl he
        · right
          obtain ⟨j, h1, h2, h3⟩ := countBelow_surj (fun y => (mem (mem root m).ppn y).valid) n
            (p - cowL1Page n mem root c2 m - 1) (by unfold l1Size at hhi; omega)
          exact ⟨j, h1, h2, by unfold cowL0Page; omega⟩

/-! ### The child tree `vms_fork_copy_on_write` builds in zero-filled pages -/

theorem cowChild_down_zero {e0 e : PTE} (h : Down e0 e) :
    cowChild e PTE.zero =
      { ppn := e0.ppn, valid := true, read := e0.read, write := false,
        custom := e0.custom || e0.write, rest := 0 } := by
  rw [cowChild_zero]
  rcases h with h | ⟨hw, h⟩
  · rw [h]
  · rw [h]; simp [hw]

/-- Every word of the child's tables after `vms_fork_copy_on_write`, when the
parent's tables are in use and unallocated pages are zero-filled. -/
theorem cow_child_shape (N root : Nat) (s0 : State) (hin : TablesInUse N root s0)
    (hz : FreshZero s0) (i : Nat) (hi : i < N) :
    ((s0.mem root i).valid = false →
      (vms_fork_copy_on_write N root s0).2.mem s0.next i = PTE.zero) ∧
    ((s0.mem root i).valid = true →
      (vms_fork_copy_on_write N root s0).2.mem s0.next i
        = { PTE.zero with ppn := cowL1Page N s0.mem root s0.next i, valid := true } ∧
      ∀ j, j < N →
        ((s0.mem (s0.mem root i).ppn j).valid = false →
          (vms_fork_copy_on_write N root s0).2.mem (cowL1Page N s0.mem root s0.next i) j
            = PTE.zero) ∧
        ((s0.mem (s0.mem root i).ppn j).valid = true →
          (vms_fork_copy_on_write N root s0).2.mem (cowL1Page N s0.mem root s0.next i) j
            = { PTE.zero with ppn := cowL0Page N s0.mem root s0.next i j, valid := true } ∧
          ∀ k, k < N →
            ((s0.mem (s0.mem (s0.mem root i).ppn j).ppn k).valid = false →
              (vms_fork_copy_on_write N root s0).2.mem (cowL0Page N s0.mem root s0.next i j) k
                = PTE.zero) ∧
            ((s0.mem (s0.mem (s0.mem root i).ppn j).ppn k).valid = true →
              (vms_fork_copy_on_write N root s0).2.mem (cowL0Page N s0.mem root s0.next i j) k
                = { ppn := (s0.mem (s0.mem (s0.mem root i).ppn j).ppn k).ppn, valid := true,
                    read := (s0.mem (s0.mem (s0.mem root i).ppn j).ppn k).read, write := false,
                    custom := (s0.mem (s0.mem (s0.mem root i).ppn j).ppn k).custom ||
                      (s0.mem (s0.mem (s0.mem root i).ppn j).ppn k).write,
                    rest := 0 }))) := by
  obtain ⟨-, -, -, oks, -⟩ := cow_fork_spec N root s0 hin
  obtain ⟨-, more, -⟩ := cow_fork_more N root s0 hin
  generalize (vms_fork_copy_on_write N root s0).2 = s1 at *
  obtain ⟨ok1, ok2⟩ := oks i hi
  refine ⟨fun hv => ?_, fun hv => ?_⟩
  · rw [ok2 hv]; exact hz _ (le_refl _) _
  · obtain ⟨c1, g1, g2, -, g4⟩ := ok1 hv
    obtain ⟨m1, m2⟩ := more i hi hv
    have hc1 : c1 = cowL1Page N s0.mem root s0.next i := by rw [← m1, g1]
    subst hc1
    refine ⟨by rw [g1, hz _ (le_refl _)], fun j hj => ?_⟩
    obtain ⟨f1, f2⟩ := g4 j hj
    have hzc1 : ∀ t, s0.mem (cowL1Page N s0.mem root s0.next i) t = PTE.zero :=
      fun t => hz _ (by omega) t
    refine ⟨fun hv1 => ?_, fun hv1 => ?_⟩
    · rw [f2 hv1]; exact hzc1 j
    · obtain ⟨c0, e1, e2, -, e4⟩ := f1 hv1
      have hc0 : c0 = cowL0Page N s0.mem root s0.next i j := by rw [← m2 j hj hv1, e1]
      subst hc0
      refine ⟨by rw [e1, hzc1], fun k hk => ?_⟩
      obtain ⟨d1, d2⟩ := e4 k hk
      have hzc0 : ∀ t, s0.mem (cowL0Page N s0.mem root s0.next i j) t = PTE.zero :=
        fun t => hz _ (by omega) t
      refine ⟨fun hv0 => ?_, fun hv0 => ?_⟩
      · rw [d2 hv0]; exact hzc0 k
      · obtain ⟨-, e, he, hce⟩ := d1 hv0
        rw [hce, hzc0, cowChild_down_zero he]

/-- The child's tree after `vms_fork_copy_on_write` in zero-filled pages, read
through its own entries: it has the parent's shape, its tables are the pages
allocated in loop order, and each of its leaf entries is the parent's original
entry made write-trapped. -/
theorem cow_child_tree (N root : Nat) (s0 : State) (hin : TablesInUse N root s0)
    (hz : FreshZero s0) (i j : Nat) (hi : i < N) (hj : j < N) :
    (((vms_fork_copy_on_write N root s0).2.mem s0.next i).valid = (s0.mem root i).valid) ∧
    ((s0.mem root i).valid = true →
      l1Table (vms_fork_copy_on_write N root s0).2.mem s0.next i
        = cowL1Page N s0.mem root s0.next i) ∧
    (Reached (vms_fork_copy_on_write N root s0).2.mem s0.next i j ↔ Reached s0.mem root i j) ∧
    (Reached s0.mem root i j →
      l0Table (vms_fork_copy_on_write N root s0).2.mem s0.next i j
        = cowL0Page N s0.mem root s0.next i j ∧
      ∀ k, k < N →
        ((leafEntry s0.mem root i j k).valid = false →
          leafEntry (vms_fork_copy_on_write N root s0).2.mem s0.next i j k = PTE.zero) ∧
        ((leafEntry s0.mem root i j k).valid = true →
          leafEntry (vms_fork_copy_on_write N root s0).2.mem s0.next i j k
            = { ppn := (leafEntry s0.mem root i j k).ppn, valid := true,
                read := (leafEntry s0.mem root i j k).read, write := false,
                custom := (leafEntry s0.mem root i j k).custom ||
                  (leafEntry s0.mem root i j k).write,
                rest := 0 })) := by
  obtain ⟨sh1, sh2⟩ := cow_child_shape N root s0 hin hz i hi
  generalize (vms_fork_copy_on_write N root s0).2 = s1 at *
  simp only [l1Table, l0Table, leafEntry, Reached]
  cases hv : (s0.mem root i).valid
  · have h1 := sh1 hv
    refine ⟨by rw [h1]; rfl, fun h => absurd h (by decide), ?_, fun h => absurd h.1 (by decide)⟩
    rw [h1]; simp [PTE.zero]
  · obtain ⟨h1, h2⟩ := sh2 hv
    obtain ⟨h3, h4⟩ := h2 j hj
    have q1 : (s1.mem s0.next i).ppn = cowL1Page N s0.mem root s0.next i := by rw [h1]
    have q2 : (s1.mem s0.next i).valid = true := by rw [h1]
    rw [q1, q2]
    refine ⟨rfl, fun _ => rfl, ?_, fun h => ?_⟩
    · cases hv1 : (s0.mem (s0.mem root i).ppn j).valid
      · rw [h3 hv1]; simp [PTE.zero]
      · rw [(h4 hv1).1]
    · obtain ⟨h5, h6⟩ := h4 h.2
      have q3 : (s1.mem (cowL1Page N s0.mem root s0.next i) j).ppn
          = cowL0Page N s0.mem root s0.next i j := by rw [h5]
      rw [q3]
      exact ⟨rfl, h6⟩

/-- C20: after `vms_fork_copy_on_write`, when the parent's tables are pages in use
and pages not yet allocated are zero-filled, the child tree has a valid entry at
L2 index `i`, at L1 position `(i, j)` and at L0 position `(i, j, k)` exactly when
the parent tree had one there at the call; a valid child L0 entry carries the
frame number of the parent's entry at the same position; every page allocated
during the call is a table of the child tree, so no data page is allocated; and
every page in use that is not an L0 table of the parent keeps its contents. -/
theorem vms_fork_copy_on_write_mirror (N root : Nat) (s0 : State)
    (hin : TablesInUse N root s0) (hz : FreshZero s0)
    (i j k : Nat) (hi : i < N) (hj : j < N) (hk : k < N) :
    (((vms_fork_copy_on_write N root s0).2.mem (vms_fork_copy_on_write N root s0).1 i).valid
        = true ↔ (s0.mem root i).valid = true) ∧
    (Reached (vms_fork_copy_on_write N root s0).2.mem (vms_fork_copy_on_write N root s0).1 i j
      ↔ Reached s0.mem root i j) ∧
    (Mapped (vms_fork_copy_on_write N root s0).2.mem (vms_fork_copy_on_write N root s0).1 i j k
      ↔ Mapped s0.mem root i j k) ∧
    (Mapped s0.mem root i j k →
      (leafEntry (vms_fork_copy_on_write N root s0).2.mem
          (vms_fork_copy_on_write N root s0).1 i j k).ppn = (leafEntry s0.mem root i j k).ppn ∧
      (leafEntry (vms_fork_copy_on_write N root s0).2.mem root i j k).ppn
        = (leafEntry s0.mem root i j k).ppn) ∧
    (∀ p, s0.next ≤ p → p < (vms_fork_copy_on_write N root s0).2.next →
      TablePage N (vms_fork_copy_on_write N root s0).2.mem
        (vms_fork_copy_on_write N root s0).1 p) ∧
    (∀ p, p < s0.next →
      (∀ x, x < N → ∀ y, y < N → Reached s0.mem root x y → p ≠ l0Table s0.mem root x y) →
      ∀ t, (vms_fork_copy_on_write N root s0).2.mem p t = s0.mem p t) := by
  have hc : (vms_fork_copy_on_write N root s0).1 = s0.next := rfl
  obtain ⟨t1, -, t3, t4⟩ := cow_child_tree N root s0 hin hz i j hi hj
  obtain ⟨m1, -, m3⟩ := cow_fork_more N root s0 hin
  have tree := cow_child_tree N root s0 hin hz
  have leafP := cow_fork_leaf N root s0 i j k hin hi hj hk
  rw [hc] at *
  generalize (vms_fork_copy_on_write N root s0).2 = s1 at *
  refine ⟨by rw [t1], t3, ?_, fun hm => ?_, fun p hp1 hp2 => ?_, m3⟩
  · unfold Mapped
    constructor
    · rintro ⟨hr, hv⟩
      have hr0 := t3.1 hr
      refine ⟨hr0, ?_⟩
      obtain ⟨-, h2⟩ := t4 hr0
      cases hv0 : (leafEntry s0.mem root i j k).valid
      · rw [(h2 k hk).1 hv0] at hv
        exact absurd hv (by decide)
      · rfl
    · rintro ⟨hr0, hv0⟩
      refine ⟨t3.2 hr0, ?_⟩
      rw [((t4 hr0).2 k hk).2 hv0]
  · obtain ⟨hr0, hv0⟩ := hm
    refine ⟨by rw [((t4 hr0).2 k hk).2 hv0], ?_⟩
    obtain ⟨-, -, h3, -⟩ := leafP hr0 hv0
    rw [h3]; rfl
  · by_cases hp : p = s0.next
    · exact Or.inl hp
    · right
      rw [m1] at hp2
      obtain ⟨x, hx, hv2, h⟩ := cowPage_surj N s0.mem root s0.next N p (by omega) hp2
      refine ⟨x, hx, ?_, ?_⟩
      · rw [(tree x 0 hx (by omega)).1]; exact hv2
      · rcases h with h | ⟨y, hy, hv1, h⟩
        · left
          rw [(tree x 0 hx (by omega)).2.1 hv2]; exact h
        · right
          obtain ⟨-, a2, a3, a4⟩ := tree x y hx hy
          refine ⟨y, hy, (a3.2 ⟨hv2, hv1⟩).2, ?_⟩
          rw [(a4 ⟨hv2, hv1⟩).1]; exact h

theorem vms_fork_copy_on_write_mirror_witness :
    TablesInUse 2 0 scenarioA ∧ FreshZero scenarioA ∧
    (Mapped (vms_fork_copy_on_write 2 0 scenarioA).2.mem
        (vms_fork_copy_on_write 2 0 scenarioA).1 0 0 0 ↔ Mapped scenarioA.mem 0 0 0 0) ∧
    (Mapped (vms_fork_copy_on_write 2 0 scenarioA).2.mem
        (vms_fork_copy_on_write 2 0 scenarioA).1 0 0 1 ↔ Mapped scenarioA.mem 0 0 0 1) ∧
    Mapped scenarioA.mem 0 0 0 0 ∧ ¬ Mapped scenarioA.mem 0 0 0 1 ∧
    (leafEntry (vms_fork_copy_on_write 2 0 scenarioA).2.mem
        (vms_fork_copy_on_write 2 0 scenarioA).1 0 0 0).ppn = 7 ∧
    TablePage 2 (vms_fork_copy_on_write 2 0 scenarioA).2.mem
        (vms_fork_copy_on_write 2 0 scenarioA).1 10 :=
  ⟨by decide, scenarioA_freshZero,
   (vms_fork_copy_on_write_mirror 2 0 scenarioA (by decide) scenarioA_freshZero 0 0 0
      (by decide) (by decide) (by decide)).2.2.1,
   (vms_fork_copy_on_write_mirror 2 0 scenarioA (by decide) scenarioA_freshZero 0 0 1
      (by decide) (by decide) (by decide)).2.2.1,
   by decide, by decide,
   ((vms_fork_copy_on_write_mirror 2 0 scenarioA (by decide) scenarioA_freshZero 0 0 0
      (by decide) (by decide) (by decide)).2.2.2.1 (by decide)).1,
   (vms_fork_copy_on_write_mirror 2 0 scenarioA (by decide) scenarioA_freshZero 0 0 0
      (by decide) (by decide) (by decide)).2.2.2.2.1 10 (by decide) (by decide)⟩

/-- The tables of the parent after `vms_fork_copy_on_write` are the pages they
were at the call, all in use then. -/
theorem cow_parent_tables (N root : Nat) (s0 : State) (hin : TablesInUse N root s0) (q : Nat)
    (h : TablePage N (vms_fork_copy_on_write N root s0).2.mem root q) :
    TablePage N s0.mem root q ∧ q < s0.next := by
  obtain ⟨-, hev, -, -, -⟩ := cow_fork_spec N root s0 hin
  obtain ⟨hroot, hl1, hl0⟩ := hin
  generalize (vms_fork_copy_on_write N root s0).2 = s1 at *
  have d2 := fun i => hev.old root hroot i
  rcases h with h | ⟨i, hi, hv2, h⟩
  · exact ⟨Or.inl h, by omega⟩
  · rw [(d2 i).valid] at hv2
    have hP1 := hl1 i hi hv2
    have e1 : l1Table s1.mem root i = l1Table s0.mem root i := (d2 i).ppn
    rw [e1] at h
    rcases h with h | ⟨j, hj, hv1, h⟩
    · exact ⟨Or.inr ⟨i, hi, hv2, Or.inl h⟩, by rw [h]; exact hP1⟩
    · have d1 := hev.old _ hP1 j
      have e0 : l0Table s1.mem root i j = l0Table s0.mem root i j := by
        unfold l0Table; rw [e1]; exact d1.ppn
      have hv1' : (s0.mem (l1Table s0.mem root i) j).valid = true := by
        have := d1.valid; unfold l1Table at hv1 ⊢; rw [← this]; exact hv1
      rw [e0] at h
      exact ⟨Or.inr ⟨i, hi, hv2, Or.inr ⟨j, hj, hv1', h⟩⟩, by rw [h]; exact hl0 i hi j hj hv2 hv1'⟩

/-- C17, as stated, fails without zero-filled pages: a stale valid word in
the page that becomes the child's root survives `vms_fork_copy_on_write`, so the
parent's root, a page in use before the call, is also a table of the child
tree. -/
theorem vms_fork_copy_on_write_tables_counterexample :
    TablesInUse 2 0 staleRootState ∧
    TablePage 2 (vms_fork_copy_on_write 2 0 staleRootState).2.mem
      (vms_fork_copy_on_write 2 0 staleRootState).1 0 ∧
    TablePage 2 (vms_fork_copy_on_write 2 0 staleRootState).2.mem 0 0 ∧
    0 < staleRootState.next :=
  ⟨by decide, Or.inr ⟨1, by decide, by decide, Or.inl (by decide)⟩, Or.inl rfl, by decide⟩

/-- C17 (amended): after `vms_fork_copy_on_write`, when the parent's tables are
pages in use and pages not yet allocated are zero-filled, every table of the
child tree (its root, the L1 tables and the L0 tables reached through valid
entries) is a page allocated during the call and is not a table of the parent
tree, and the child's tables are pairwise distinct: no L1 or L0 table is the
root, distinct valid root slots name distinct L1 tables, distinct reached
positions name distinct L0 tables, and no L1 table is an L0 table. -/
theorem vms_fork_copy_on_write_tables (N root : Nat) (s0 : State)
    (hin : TablesInUse N root s0) (hz : FreshZero s0) :
    (∀ q, TablePage N (vms_fork_copy_on_write N root s0).2.mem
        (vms_fork_copy_on_write N root s0).1 q →
      s0.next ≤ q ∧ q < (vms_fork_copy_on_write N root s0).2.next ∧
      ¬ TablePage N (vms_fork_copy_on_write N root s0).2.mem root q) ∧
    (∀ i, i < N →
      ((vms_fork_copy_on_write N root s0).2.mem (vms_fork_copy_on_write N root s0).1 i).valid
        = true →
      l1Table (vms_fork_copy_on_write N root s0).2.mem (vms_fork_copy_on_write N root s0).1 i
        ≠ (vms_fork_copy_on_write N root s0).1 ∧
      (∀ x, x < N →
        ((vms_fork_copy_on_write N root s0).2.mem (vms_fork_copy_on_write N root s0).1 x).valid
          = true →
        l1Table (vms_fork_copy_on_write N root s0).2.mem (vms_fork_copy_on_write N root s0).1 i
          = l1Table (vms_fork_copy_on_write N root s0).2.mem
              (vms_fork_copy_on_write N root s0).1 x → i = x) ∧
      ∀ x, x < N → ∀ y, y < N →
        Reached (vms_fork_copy_on_write N root s0).2.mem
          (vms_fork_copy_on_write N root s0).1 x y →
        l1Table (vms_fork_copy_on_write N root s0).2.mem (vms_fork_copy_on_write N root s0).1 i
          ≠ l0Table (vms_fork_copy_on_write N root s0).2.mem
              (vms_fork_copy_on_write N root s0).1 x y) ∧
    (∀ i, i < N → ∀ j, j < N →
      Reached (vms_fork_copy_on_write N root s0).2.mem (vms_fork_copy_on_write N root s0).1 i j →
      l0Table (vms_fork_copy_on_write N root s0).2.mem (vms_fork_copy_on_write N root s0).1 i j
        ≠ (vms_fork_copy_on_write N root s0).1 ∧
      ∀ x, x < N → ∀ y, y < N →
        Reached (vms_fork_copy_on_write N root s0).2.mem
          (vms_fork_copy_on_write N root s0).1 x y →
        l0Table (vms_fork_copy_on_write N root s0).2.mem (vms_fork_copy_on_write N root s0).1 i j
          = l0Table (vms_fork_copy_on_write N root s0).2.mem
              (vms_fork_copy_on_write N root s0).1 x y → i = x ∧ j = y) := by
  have hc : (vms_fork_copy_on_write N root s0).1 = s0.next := rfl
  have tree := cow_child_tree N root s0 hin hz
  obtain ⟨m1, -, -⟩ := cow_fork_more N root s0 hin
  have par := cow_parent_tables N root s0 hin
  obtain ⟨-, -, hlt, -, -⟩ := cow_fork_spec N root s0 hin
  rw [hc] at *
  generalize (vms_fork_copy_on_write N root s0).2 = s1 at *
  have hv2 : ∀ i, i < N → (s1.mem s0.next i).valid = true → (s0.mem root i).valid = true :=
    fun i hi h => by rw [← (tree i 0 hi (by omega)).1]; exact h
  have hl1 : ∀ i, i < N → (s0.mem root i).valid = true →
      l1Table s1.mem s0.next i = cowL1Page N s0.mem root s0.next i :=
    fun i hi h => (tree i 0 hi (by omega)).2.1 h
  have hr : ∀ i, i < N → ∀ j, j < N → Reached s1.mem s0.next i j → Reached s0.mem root i j :=
    fun i hi j hj h => (tree i j hi hj).2.2.1.1 h
  have hl0 : ∀ i, i < N → ∀ j, j < N → Reached s0.mem root i j →
      l0Table s1.mem s0.next i j = cowL0Page N s0.mem root s0.next i j :=
    fun i hi j hj h => ((tree i j hi hj).2.2.2 h).1
  have b1 : ∀ i, i < N → (s0.mem root i).valid = true →
      s0.next < cowL1Page N s0.mem root s0.next i ∧
      cowL1Page N s0.mem root s0.next i < cowL1Page N s0.mem root s0.next N := by
    intro i hi h
    exact ⟨cowL1Page_gt _ _ _ _ _, cowL1Page_lt N s0.mem root s0.next hi h⟩
  have b0 : ∀ i, i < N → ∀ j, j < N → Reached s0.mem root i j →
      s0.next < cowL0Page N s0.mem root s0.next i j ∧
      cowL0Page N s0.mem root s0.next i j < cowL1Page N s0.mem root s0.next N := by
    intro i hi j hj h
    obtain ⟨c1, c2⟩ := cowL0Page_bounds N s0.mem root s0.next i j hj h.1 h.2
    have c3 := cowL1Page_gt N s0.mem root s0.next i
    have c4 := cowL1Page_mono N s0.mem root s0.next (show i + 1 ≤ N by omega)
    omega
  refine ⟨fun q hq => ?_, fun i hi hvi => ⟨?_, fun x hx hvx h => ?_, fun x hx y hy hxy => ?_⟩,
    fun i hi j hj hij => ⟨?_, fun x hx y hy hxy h => ?_⟩⟩
  · have hq' : s0.next ≤ q ∧ q < s1.next := by
      rw [m1]
      rcases hq with h | ⟨i, hi, hvi, h⟩
      · rw [h]; exact ⟨le_refl _, by rw [← m1]; exact hlt⟩
      · have hvi0 := hv2 i hi hvi
        rcases h with h | ⟨j, hj, hvj, h⟩
        · rw [h, hl1 i hi hvi0]
          have := b1 i hi hvi0; omega
        · have hr0 := hr i hi j hj ⟨hvi, hvj⟩
          rw [h, hl0 i hi j hj hr0]
          have := b0 i hi j hj hr0; omega
    exact ⟨hq'.1, hq'.2, fun h => by have := (par q h).2; omega⟩
  · rw [hl1 i hi (hv2 i hi hvi)]
    have := (b1 i hi (hv2 i hi hvi)).1; omega
  · rw [hl1 i hi (hv2 i hi hvi), hl1 x hx (hv2 x hx hvx)] at h
    exact cowL1Page_inj N s0.mem root s0.next i x (hv2 i hi hvi) (hv2 x hx hvx) h
  · have hr0 := hr x hx y hy hxy
    rw [hl1 i hi (hv2 i hi hvi), hl0 x hx y hy hr0]
    exact cowL1Page_ne_cowL0Page N s0.mem root s0.next i x y hy hr0.1 hr0.2
  · have hr0 := hr i hi j hj hij
    rw [hl0 i hi j hj hr0]
    have := (b0 i hi j hj hr0).1; omega
  · have hr0 := hr i hi j hj hij
    have hr1 := hr x hx y hy hxy
    rw [hl0 i hi j hj hr0, hl0 x hx y hy hr1] at h
    exact cowL0Page_inj N s0.mem root s0.next i j x y hj hy hr0.1 hr0.2 hr1.1 hr1.2 h

theorem vms_fork_copy_on_write_tables_witness :
    TablesInUse 2 0 scenarioA ∧ FreshZero scenarioA ∧
    l1Table (vms_fork_copy_on_write 2 0 scenarioA).2.mem
        (vms_fork_copy_on_write 2 0 scenarioA).1 0
      ≠ l0Table (vms_fork_copy_on_write 2 0 scenarioA).2.mem
          (vms_fork_copy_on_write 2 0 scenarioA).1 0 0 ∧
    ¬ TablePage 2 (vms_fork_copy_on_write 2 0 scenarioA).2.mem 0 10 :=
  ⟨by decide, scenarioA_freshZero,
   ((vms_fork_copy_on_write_tables 2 0 scenarioA (by decide) scenarioA_freshZero).2.1 0
      (by decide) (by decide)).2.2 0 (by decide) 0 (by decide) (by decide),
   ((vms_fork_copy_on_write_tables 2 0 scenarioA (by decide) scenarioA_freshZero).1 10
      (Or.inr ⟨0, by decide, by decide, Or.inr ⟨0, by decide, by decide, by decide⟩⟩)).2.2⟩

/-! ## Theorems: interior entries never carry `custom` -/

section HandlerKeeps

variable (pe : (Nat → Nat → PTE) → Nat → Nat → Nat → Addr) (va level pt : Nat) (s : State)

/-- A call of `page_fault_handler` leaves every word of a page in use as it was,
if the word is not the faulting entry or does not have `custom` set. -/
theorem handler_keeps (b : Addr) (hnew : b.1 ≠ s.next)
    (h : b ≠ pe s.mem pt va level ∨ (s.rd b).custom = false) :
    (page_fault_handler pe va level pt s).state.rd b = s.rd b := by
  by_cases hsh : (s.rd (pe s.mem pt va level)).valid = true ∧
      (s.rd (pe s.mem pt va level)).custom = true ∧
      (s.rd (pe s.mem pt va level)).read = true ∧
      1 < s.ledger (s.rd (pe s.mem pt va level)).ppn
  · obtain ⟨hv, hc, hr, hn⟩ := hsh
    have hb : b ≠ pe s.mem pt va level := by
      rcases h with h | h
      · exact h
      · intro e; rw [e, hc] at h; exact absurd h (by decide)
    exact handler_shared_frame pe va level pt s b hv hc hr hn hb hnew
  · obtain ⟨-, -, h3, -⟩ := handler_not_shared pe va level pt s hsh
    by_cases hb : b = pe s.mem pt va level
    · have hcf : (s.rd (pe s.mem pt va level)).custom = false := by
        rcases h with h | h
        · exact absurd hb h
        · rw [← hb]; exact h
      have hf := (handler_fatal_eq pe va level pt s).1.2 (Or.inr (Or.inl hcf))
      rw [(handler_fatal_eq pe va level pt s).2 hf]
      rfl
    · exact h3 b hb

/-- A call of `page_fault_handler` on any entry keeps the interior entries of a
tree whose root and L1 tables are pages in use free of `custom`. -/
theorem handler_interior (N r : Nat) (hr : r < s.next)
    (hl1 : ∀ i, i < N → (s.mem r i).valid = true → (s.mem r i).ppn < s.next)
    (hcl : InteriorClean N s.mem r) :
    InteriorClean N (page_fault_handler pe va level pt s).state.mem r ∧
    (∀ i, i < N → (page_fault_handler pe va level pt s).state.mem r i = s.mem r i) ∧
    (∀ i, i < N → (s.mem r i).valid = true → ∀ j, j < N →
      (page_fault_handler pe va level pt s).state.mem (s.mem r i).ppn j
        = s.mem (s.mem r i).ppn j) := by
  have k2 : ∀ i, i < N → (page_fault_handler pe va level pt s).state.mem r i = s.mem r i :=
    fun i hi => handler_keeps pe va level pt s (r, i) (by simp only; omega) (Or.inr (hcl.1 i hi))
  have k1 : ∀ i, i < N → (s.mem r i).valid = true → ∀ j, j < N →
      (page_fault_handler pe va level pt s).state.mem (s.mem r i).ppn j
        = s.mem (s.mem r i).ppn j :=
    fun i hi hv j hj => handler_keeps pe va level pt s ((s.mem r i).ppn, j)
      (by have := hl1 i hi hv; simp only; omega) (Or.inr (hcl.2 i hi hv j hj))
  refine ⟨⟨fun i hi => ?_, fun i hi hv j hj => ?_⟩, k2, k1⟩
  · rw [k2 i hi]; exact hcl.1 i hi
  · rw [k2 i hi] at hv
    unfold l1Table
    rw [k2 i hi, k1 i hi hv j hj]
    exact hcl.2 i hi hv j hj

end HandlerKeeps

/-- The child tree `vms_fork_copy` builds in zero-filled pages has no `custom` on
its interior entries when the parent has none. -/
theorem copy_child_interior (N root : Nat) (s0 : State) (hin : AllInUse N root s0)
    (hz : FreshZero s0) (hcl : InteriorClean N s0.mem root) :
    InteriorClean N (vms_fork_copy N root s0).2.mem (vms_fork_copy N root s0).1 := by
  obtain ⟨hc2, -, oks⟩ := copy_fork_spec N root s0 hin
  rw [hc2]
  generalize (vms_fork_copy N root s0).2 = s1 at *
  have hz2 : ∀ t, s0.mem s0.next t = PTE.zero := fun t => hz _ (le_refl _) t
  refine ⟨fun i hi => ?_, fun i hi hv j hj => ?_⟩
  · obtain ⟨ok1, ok2⟩ := oks i hi
    cases hpv : (s0.mem root i).valid
    · rw [ok2 hpv, hz2]; rfl
    · obtain ⟨c1, g1, -⟩ := ok1 hpv
      rw [g1, hz2]; rfl
  · obtain ⟨ok1, ok2⟩ := oks i hi
    cases hpv : (s0.mem root i).valid
    · rw [ok2 hpv, hz2] at hv
      exact absurd hv (by decide)
    · obtain ⟨c1, g1, -, -, g4⟩ := ok1 hpv
      have q1 : l1Table s1.mem s0.next i = c1 := by unfold l1Table; rw [g1]
      rw [q1]
      obtain ⟨f1, f2⟩ := g4 j hj
      have hpc := hcl.2 i hi hpv j hj
      unfold l1Table at hpc
      cases hpv1 : (s0.mem (s0.mem root i).ppn j).valid
      · rw [f2 hpv1]; exact hpc
      · obtain ⟨c0, e1, -⟩ := f1 hpv1
        rw [e1]; exact hpc

/-- A tree whose root and L1 tables keep their words keeps its interior entries
free of `custom`. -/
theorem InteriorClean.of_same {N : Nat} {m m1 : Nat → Nat → PTE} {r : Nat}
    (hcl : InteriorClean N m r) (h2 : ∀ i, i < N → m1 r i = m r i)
    (h1 : ∀ i, i < N → (m r i).valid = true → ∀ j, j < N → m1 (m r i).ppn j = m (m r i).ppn j) :
    InteriorClean N m1 r := by
  refine ⟨fun i hi => ?_, fun i hi hv j hj => ?_⟩
  · rw [h2 i hi]; exact hcl.1 i hi
  · rw [h2 i hi] at hv
    unfold l1Table
    rw [h2 i hi, h1 i hi hv j hj]
    exact hcl.2 i hi hv j hj

theorem trappedState_freshZero : FreshZero trappedState := by
  intro p hp t
  have hp' : 8 ≤ p := hp
  unfold trappedState scenarioMem
  simp only
  rw [if_neg (by omega), if_neg (by omega), if_neg (by omega), if_neg (by omega),
    if_neg (by omega)]

/-- C16: if no L2 or L1 entry of the parent tree has `custom` set before the
call, then after `vms_fork_copy`, after `vms_fork_copy_on_write` and after
`page_fault_handler` on any entry whatever, no L2 or L1 entry of the parent tree
has it set, and neither has any of the child tree a duplicator returns.  The
pages of the parent tree are pages in use, none of its L0 tables is its root or
one of its L1 tables, and pages not yet allocated are zero-filled. -/
theorem interior_custom_preserved (N root : Nat) (s0 : State)
    (hin : AllInUse N root s0) (hap : LevelsApart N s0.mem root) (hz : FreshZero s0)
    (hcl : InteriorClean N s0.mem root) :
    (InteriorClean N (vms_fork_copy N root s0).2.mem root ∧
      InteriorClean N (vms_fork_copy N root s0).2.mem (vms_fork_copy N root s0).1) ∧
    (InteriorClean N (vms_fork_copy_on_write N root s0).2.mem root ∧
      InteriorClean N (vms_fork_copy_on_write N root s0).2.mem
        (vms_fork_copy_on_write N root s0).1) ∧
    ∀ (pe : (Nat → Nat → PTE) → Nat → Nat → Nat → Addr) (va level pt : Nat),
      InteriorClean N (page_fault_handler pe va level pt s0).state.mem root := by
  obtain ⟨hroot, hl1, hl0⟩ := hin.1
  refine ⟨⟨?_, copy_child_interior N root s0 hin hz hcl⟩, ⟨?_, ?_⟩, fun pe va level pt => ?_⟩
  · have sb := vms_fork_copy_same N root s0
    exact hcl.of_same (fun i _ => sb.mem_eq root hroot i)
      (fun i hi hv j _ => sb.mem_eq _ (hl1 i hi hv) j)
  · obtain ⟨-, -, m3⟩ := cow_fork_more N root s0 hin.1
    refine hcl.of_same (fun i _ => m3 root hroot (fun x hx y hy hr => ?_) i)
      (fun i hi hv j _ => m3 _ (hl1 i hi hv) (fun x hx y hy hr => ?_) j)
    · exact fun h => (hap x hx y hy hr).1 h.symm
    · exact fun h => (hap x hx y hy hr).2 i hi hv h.symm
  · have hc : (vms_fork_copy_on_write N root s0).1 = s0.next := rfl
    rw [hc]
    refine ⟨fun i hi => ?_, fun i hi hv j hj => ?_⟩
    · obtain ⟨sh1, sh2⟩ := cow_child_shape N root s0 hin.1 hz i hi
      cases hpv : (s0.mem root i).valid
      · rw [sh1 hpv]; rfl
      · rw [(sh2 hpv).1]; rfl
    · obtain ⟨sh1, sh2⟩ := cow_child_shape N root s0 hin.1 hz i hi
      cases hpv : (s0.mem root i).valid
      · rw [sh1 hpv] at hv
        exact absurd hv (by decide)
      · obtain ⟨g1, g2⟩ := sh2 hpv
        have q1 : l1Table (vms_fork_copy_on_write N root s0).2.mem s0.next i
            = cowL1Page N s0.mem root s0.next i := by unfold l1Table; rw [g1]
        rw [q1]
        cases hpv1 : (s0.mem (s0.mem root i).ppn j).valid
        · rw [(g2 j hj).1 hpv1]; rfl
        · rw [((g2 j hj).2 hpv1).1]; rfl
  · exact (handler_interior pe va level pt s0 N root hroot hl1 hcl).1

theorem interior_custom_preserved_witness :
    AllInUse 2 0 trappedState ∧ LevelsApart 2 trappedState.mem 0 ∧ FreshZero trappedState ∧
    InteriorClean 2 trappedState.mem 0 ∧
    InteriorClean 2 (vms_fork_copy_on_write 2 0 trappedState).2.mem
      (vms_fork_copy_on_write 2 0 trappedState).1 ∧
    (page_fault_handler (vms_page_table_pte_entry 2) 0 0 0 trappedState).isFatal = false ∧
    InteriorClean 2
      (page_fault_handler (vms_page_table_pte_entry 2) 0 0 0 trappedState).state.mem 0 :=
  ⟨by decide, by decide, trappedState_freshZero, by decide,
   (interior_custom_preserved 2 0 trappedState (by decide) (by decide) trappedState_freshZero
      (by decide)).2.1.2,
   by decide,
   (interior_custom_preserved 2 0 trappedState (by decide) (by decide) trappedState_freshZero
      (by decide)).2.2 (vms_page_table_pte_entry 2) 0 0 0⟩

/-! ## Theorems: a fork followed by the faults of both sides -/

/-- The handler depends on the accessor only through the entry it returns. -/
theorem handler_congr (pe : (Nat → Nat → PTE) → Nat → Nat → Nat → Addr)
    (va level pt : Nat) (s : State) (a : Addr) (h : pe s.mem pt va level = a) :
    page_fault_handler pe va level pt s = page_fault_handler (fun _ _ _ _ => a) 0 0 0 s := by
  unfold page_fault_handler
  simp only [h]

/-- A fault on an entry whose page has ledger count 2: the entry gets the new
page, writable and no longer custom; the new page holds the contents of the old
one; the old page's count drops to 1. -/
theorem handler_shared_two (s : State) (a : Addr)
    (hv : (s.rd a).valid = true) (hc : (s.rd a).custom = true) (hr : (s.rd a).read = true)
    (hn : s.ledger (s.rd a).ppn = 2) (hold : (s.rd a).ppn ≠ s.next) (htab : a.1 ≠ s.next)
    (hself : (s.rd a).ppn ≠ a.1) :
    (page_fault_handler (fun _ _ _ _ => a) 0 0 0 s).isFatal = false ∧
    (page_fault_handler (fun _ _ _ _ => a) 0 0 0 s).state.next = s.next + 1 ∧
    (page_fault_handler (fun _ _ _ _ => a) 0 0 0 s).state.rd a
      = { s.rd a with ppn := s.next, write := true, custom := false } ∧
    (∀ d, d ≠ a → d.1 ≠ s.next →
      (page_fault_handler (fun _ _ _ _ => a) 0 0 0 s).state.rd d = s.rd d) ∧
    (∀ t, (page_fault_handler (fun _ _ _ _ => a) 0 0 0 s).state.mem s.next t
      = s.mem (s.rd a).ppn t) ∧
    (page_fault_handler (fun _ _ _ _ => a) 0 0 0 s).state.ledger (s.rd a).ppn = 1 := by
  have h1 : 1 < s.ledger (s.rd a).ppn := by omega
  rw [handler_shared_eq (fun _ _ _ _ => a) 0 0 0 s hv hc hr h1 hold htab]
  obtain ⟨a1, a2⟩ := a
  simp only [State.rd] at *
  refine ⟨rfl, rfl, ?_, fun d hd hd2 => ?_, fun t => ?_, ?_⟩
  · simp [FaultResult.state, hn]
  · obtain ⟨d1, d2⟩ := d
    have h2 : ¬ (d1 = a1 ∧ d2 = a2) := fun h => hd (by rw [h.1, h.2])
    simp only at hd2
    simp only [FaultResult.state, h2, hd2, if_false]
  · have h2 : ¬ (s.next = a1 ∧ t = a2) := fun h => htab h.1.symm
    have h3 : ¬ ((s.mem a1 a2).ppn = a1 ∧ t = a2) := fun h => hself h.1
    simp only [FaultResult.state, h2, h3, if_false, if_true]
  · simp only [FaultResult.state, hold, if_false, if_true, hn]
    norm_num

/-- A fault on an entry whose page has ledger count at most 1: only the entry
changes, it becomes writable and no longer custom. -/
theorem handler_sole_one (s : State) (a : Addr)
    (hv : (s.rd a).valid = true) (hc : (s.rd a).custom = true) (hr : (s.rd a).read = true)
    (hn : s.ledger (s.rd a).ppn ≤ 1) :
    (page_fault_handler (fun _ _ _ _ => a) 0 0 0 s).isFatal = false ∧
    (page_fault_handler (fun _ _ _ _ => a) 0 0 0 s).state.next = s.next ∧
    (page_fault_handler (fun _ _ _ _ => a) 0 0 0 s).state.ledger = s.ledger ∧
    (page_fault_handler (fun _ _ _ _ => a) 0 0 0 s).state.rd a
      = { s.rd a with write := true, custom := false } ∧
    (∀ d, d ≠ a → (page_fault_handler (fun _ _ _ _ => a) 0 0 0 s).state.rd d = s.rd d) := by
  rw [handler_sole_eq (fun _ _ _ _ => a) 0 0 0 s hv hc hr hn]
  obtain ⟨a1, a2⟩ := a
  refine ⟨rfl, rfl, rfl, ?_, fun d hd => ?_⟩
  · simp [FaultResult.state, State.rd, State.wr]
  · obtain ⟨d1, d2⟩ := d
    have h2 : ¬ (d1 = a1 ∧ d2 = a2) := fun h => hd (by rw [h.1, h.2])
    simp [FaultResult.state, State.rd, State.wr, h2]

/-- Two trees share page `q` with ledger count 2 through their write-trapped
leaf entries at position `(i, j, k)`; the tree rooted at `ra` faults first, the
tree rooted at `rb` second.  Then the first gets a copy in the next free page,
the second keeps `q`, and both entries end up writable and not custom. -/
theorem cow_resolve (pe : (Nat → Nat → PTE) → Nat → Nat → Nat → Addr) (va level : Nat)
    (s : State) (ra rb i j k q : Nat)
    (hpe : ∀ m r, pe m r va level = (l0Table m r i j, k))
    (hab : l0Table s.mem ra i j ≠ l0Table s.mem rb i j)
    (hia : ∀ r, r = ra ∨ r = rb → ∀ d, d = (r, i) ∨ d = (l1Table s.mem r i, j) →
      d ≠ (l0Table s.mem ra i j, k) ∧ d ≠ (l0Table s.mem rb i j, k) ∧ d.1 ≠ s.next)
    (hta : l0Table s.mem ra i j ≠ s.next) (htb : l0Table s.mem rb i j ≠ s.next)
    (hva : (leafEntry s.mem ra i j k).valid = true)
    (hca : (leafEntry s.mem ra i j k).custom = true)
    (hra : (leafEntry s.mem ra i j k).read = true)
    (hqa : (leafEntry s.mem ra i j k).ppn = q)
    (hvb : (leafEntry s.mem rb i j k).valid = true)
    (hcb : (leafEntry s.mem rb i j k).custom = true)
    (hrb : (leafEntry s.mem rb i j k).read = true)
    (hqb : (leafEntry s.mem rb i j k).ppn = q)
    (hq : q ≠ s.next) (hqa1 : q ≠ l0Table s.mem ra i j) (hqb1 : q ≠ l0Table s.mem rb i j)
    (hled : s.ledger q = 2) :
    (page_fault_handler pe va level ra s).isFatal = false ∧
    (page_fault_handler pe va level rb (page_fault_handler pe va level ra s).state).isFatal
      = false ∧
    leafEntry (page_fault_handler pe va level rb
        (page_fault_handler pe va level ra s).state).state.mem ra i j k
      = { leafEntry s.mem ra i j k with ppn := s.next, write := true, custom := false } ∧
    leafEntry (page_fault_handler pe va level rb
        (page_fault_handler pe va level ra s).state).state.mem rb i j k
      = { leafEntry s.mem rb i j k with write := true, custom := false } ∧
    (∀ t, (page_fault_handler pe va level rb
        (page_fault_handler pe va level ra s).state).state.mem s.next t = s.mem q t) ∧
    (∀ t, (page_fault_handler pe va level rb
        (page_fault_handler pe va level ra s).state).state.mem q t = s.mem q t) := by
  rw [handler_congr pe va level ra s _ (hpe s.mem ra)]
  have hane : (l0Table s.mem rb i j, k) ≠ (l0Table s.mem ra i j, k) :=
    fun h => hab (congrArg Prod.fst h).symm
  obtain ⟨f1, f2, f3, f4, f5, f6⟩ := handler_shared_two s (l0Table s.mem ra i j, k) hva hca hra
    (by rw [show (s.rd (l0Table s.mem ra i j, k)).ppn = q from hqa]; exact hled)
    (by rw [show (s.rd (l0Table s.mem ra i j, k)).ppn = q from hqa]; exact hq) hta
    (by rw [show (s.rd (l0Table s.mem ra i j, k)).ppn = q from hqa]; exact hqa1)
  rw [show (s.rd (l0Table s.mem ra i j, k)).ppn = q from hqa] at f5 f6
  generalize (page_fault_handler (fun _ _ _ _ => (l0Table s.mem ra i j, k)) 0 0 0 s).state
    = s2 at *
  -- the tables of both trees are found where they were
  have w2 : ∀ r, r = ra ∨ r = rb → l0Table s2.mem r i j = l0Table s.mem r i j := by
    intro r hr
    obtain ⟨x1, -, x3⟩ := hia r hr (r, i) (Or.inl rfl)
    obtain ⟨y1, -, y3⟩ := hia r hr (l1Table s.mem r i, j) (Or.inr rfl)
    have e1 : s2.mem r i = s.mem r i := f4 (r, i) x1 x3
    have e2 : s2.mem (l1Table s.mem r i) j = s.mem (l1Table s.mem r i) j := f4 _ y1 y3
    unfold l0Table l1Table at *
    rw [e1, e2]
  have hb2 : s2.rd (l0Table s.mem rb i j, k) = s.rd (l0Table s.mem rb i j, k) :=
    f4 _ hane htb
  rw [handler_congr pe va level rb s2 _ (hpe s2.mem rb), w2 rb (Or.inr rfl)]
  obtain ⟨g1, g2, g3, g4, g5⟩ := handler_sole_one s2 (l0Table s.mem rb i j, k)
    (by rw [hb2]; exact hvb) (by rw [hb2]; exact hcb) (by rw [hb2]; exact hrb)
    (by rw [hb2, show (s.rd (l0Table s.mem rb i j, k)).ppn = q from hqb, f6])
  generalize (page_fault_handler (fun _ _ _ _ => (l0Table s.mem rb i j, k)) 0 0 0 s2).state
    = s3 at *
  have w3 : ∀ r, r = ra ∨ r = rb → l0Table s3.mem r i j = l0Table s.mem r i j := by
    intro r hr
    obtain ⟨x1, x2, x3⟩ := hia r hr (r, i) (Or.inl rfl)
    obtain ⟨y1, y2, y3⟩ := hia r hr (l1Table s.mem r i, j) (Or.inr rfl)
    have e1 : s3.mem r i = s.mem r i := (g5 (r, i) x2).trans (f4 (r, i) x1 x3)
    have e2 : s3.mem (l1Table s.mem r i) j = s.mem (l1Table s.mem r i) j :=
      (g5 _ y2).trans (f4 _ y1 y3)
    unfold l0Table l1Table at *
    rw [e1, e2]
  refine ⟨f1, g1, ?_, ?_, fun t => ?_, fun t => ?_⟩
  · unfold leafEntry
    rw [w3 ra (Or.inl rfl)]
    exact (g5 _ hane.symm).trans f3
  · unfold leafEntry
    rw [w3 rb (Or.inr rfl)]
    rw [show s3.mem (l0Table s.mem rb i j) k = s3.rd (l0Table s.mem rb i j, k) from rfl, g4, hb2]
    rfl
  · have h : (s.next, t) ≠ (l0Table s.mem rb i j, k) := fun h => htb (congrArg Prod.fst h).symm
    exact (g5 (s.next, t) h).trans (f5 t)
  · have h : (q, t) ≠ (l0Table s.mem rb i j, k) := fun h => hqb1 (congrArg Prod.fst h)
    have h2 : (q, t) ≠ (l0Table s.mem ra i j, k) := fun h => hqa1 (congrArg Prod.fst h)
    exact (g5 (q, t) h).trans (f4 (q, t) h2 hq)

/-! ## Theorems: the child's leaf entries without zero-filled pages -/

/-- One iteration of the middle loop of `vms_fork_copy_on_write` on a valid parent
L1 entry whose L0 table still holds its original words: the child's new L0 table
holds, at every valid parent slot, what the duplicator derives from the parent's
original entry. -/
theorem cow_l1_body_exact (n : Nat) (s0 s : State) (l2 i c1 j : Nat)
    (hev : Evolves s0 s) (hp : l2 < s0.next) (hP1 : (s0.mem l2 i).ppn < s0.next)
    (hv : (s0.mem (s0.mem l2 i).ppn j).valid = true)
    (hP0 : (s0.mem (s0.mem l2 i).ppn j).ppn < s0.next)
    (hc1lo : s0.next ≤ c1) (hc1 : c1 < s.next)
    (hsame : ∀ t, s.mem (s0.mem (s0.mem l2 i).ppn j).ppn t
      = s0.mem (s0.mem (s0.mem l2 i).ppn j).ppn t)
    (k : Nat) (hk : k < n) (hvk : (s0.mem (s0.mem (s0.mem l2 i).ppn j).ppn k).valid = true) :
    (cow_l1_body n (l2, i) c1 j s).mem s.next k
      = cowChild (s0.mem (s0.mem (s0.mem l2 i).ppn j).ppn k) (s0.mem s.next k) := by
  have e1 : (s.mem l2 i).ppn = (s0.mem l2 i).ppn := (hev.old l2 hp i).ppn
  have e2 : (s.mem (s0.mem l2 i).ppn j).valid = (s0.mem (s0.mem l2 i).ppn j).valid :=
    (hev.old _ hP1 j).valid
  have e3 : (s.mem (s0.mem l2 i).ppn j).ppn = (s0.mem (s0.mem l2 i).ppn j).ppn :=
    (hev.old _ hP1 j).ppn
  have hn := hev.next_le
  rw [cow_l1_body_closed n l2 i c1 j s (by rw [e1, e2]; exact hv) (by omega) (by omega)
    (by rw [e1, e3]; omega) (by rw [e1, e3]; omega) (by omega)]
  simp only [e1, e3, if_true]
  have c : k < n ∧ (s.mem (s0.mem (s0.mem l2 i).ppn j).ppn k).valid = true :=
    ⟨hk, by rw [hsame]; exact hvk⟩
  rw [if_pos c, hsame, hev.fresh s.next (le_refl _) k]

/-- The middle loop of `vms_fork_copy_on_write`, for a valid parent L1 slot `j0`
whose L0 table is not named by another valid slot and holds its original words
when the loop starts: once the slot has been processed, the child's L0 table
for it holds what the duplicator derives from the parent's original entries. -/
theorem cow_l1_loop_exact (N : Nat) (s0 s : State) (l2 i c1 j0 : Nat)
    (hev : Evolves s0 s) (hp : l2 < s0.next) (hP1 : (s0.mem l2 i).ppn < s0.next)
    (hL0 : ∀ j, j < N → (s0.mem (s0.mem l2 i).ppn j).valid = true →
      (s0.mem (s0.mem l2 i).ppn j).ppn < s0.next)
    (hc1lo : s0.next ≤ c1) (hc1 : c1 < s.next) (hc1z : ∀ t, s.mem c1 t = s0.mem c1 t)
    (hj0 : j0 < N) (hv : (s0.mem (s0.mem l2 i).ppn j0).valid = true)
    (hu : ∀ y, y < N → y ≠ j0 → (s0.mem (s0.mem l2 i).ppn y).valid = true →
      (s0.mem (s0.mem l2 i).ppn j0).ppn ≠ (s0.mem (s0.mem l2 i).ppn y).ppn)
    (hsame : ∀ t, s.mem (s0.mem (s0.mem l2 i).ppn j0).ppn t
      = s0.mem (s0.mem (s0.mem l2 i).ppn j0).ppn t)
    (n : Nat) (hn : n ≤ N) (hn0 : j0 < n)
    (k : Nat) (hk : k < N) (hvk : (s0.mem (s0.mem (s0.mem l2 i).ppn j0).ppn k).valid = true) :
    (forLoop n (cow_l1_body N (l2, i) c1) s).mem
        (s.next + countBelow j0 (fun y => (s0.mem (s0.mem l2 i).ppn y).valid)) k
      = cowChild (s0.mem (s0.mem (s0.mem l2 i).ppn j0).ppn k)
          (s0.mem (s.next + countBelow j0 (fun y => (s0.mem (s0.mem l2 i).ppn y).valid)) k) := by
  induction n with
  | zero => omega
  | succ n ih =>
    obtain ⟨a1, -, a3⟩ := cow_l1_loop_more N s0 s l2 i c1 hev hp hP1 hL0 hc1lo hc1 hc1z n
      (by omega)
    obtain ⟨fr, -, -⟩ := cow_l1_loop_spec N s0 s l2 i c1 hev hp hP1 hL0 hc1lo hc1 hc1z n
      (by omega)
    rw [forLoop_succ]
    by_cases hjn : j0 = n
    · subst hjn
      have hs : ∀ t, (forLoop j0 (cow_l1_body N (l2, i) c1) s).mem
          (s0.mem (s0.mem l2 i).ppn j0).ppn t = s0.mem (s0.mem (s0.mem l2 i).ppn j0).ppn t := by
        intro t
        rw [a3 _ (hL0 j0 hj0 hv) (fun y hy hvy => hu y (by omega) (by omega) hvy) t]
        exact hsame t
      rw [← a1]
      exact cow_l1_body_exact N s0 _ l2 i c1 j0 (hev.frame fr) hp hP1 hv (hL0 j0 hj0 hv) hc1lo
        (lt_of_lt_of_le hc1 fr.next_le) hs k hk hvk
    · have ih' := ih (by omega) (by omega)
      generalize forLoop n (cow_l1_body N (l2, i) c1) s = sn at *
      have hev' : Evolves s0 sn := hev.frame fr
      have hc1' : c1 < sn.next := lt_of_lt_of_le hc1 fr.next_le
      have hc1z' : sn.mem c1 n = s0.mem c1 n := by
        rw [fr.kept c1 hc1lo hc1 n (fun _ h => lt_irrefl n h), hc1z]
      obtain ⟨f, -, -⟩ := cow_l1_body_spec N s0 sn l2 i c1 n hev' hp hP1 (hL0 n (by omega))
        hc1lo hc1' hc1z'
      have hlt := countBelow_lt (fun y => (s0.mem (s0.mem l2 i).ppn y).valid)
        (show j0 < n by omega) hv
      have := hev.next_le
      rw [f.kept _ (by omega) (by rw [a1]; omega) k (fun h => by omega)]
      exact ih'

/-- One iteration of the outer loop of `vms_fork_copy_on_write`, for a reached
position `(i, j0)` whose L0 table is not named by another valid slot of the same
L1 table and holds its original words when the iteration starts. -/
theorem cow_l2_body_exact (N : Nat) (s0 s : State) (l2 c2 i j0 : Nat)
    (hev : Evolves s0 s) (hp : l2 < s0.next)
    (hv2 : (s0.mem l2 i).valid = true) (hP1 : (s0.mem l2 i).ppn < s0.next)
    (hL0 : ∀ j, j < N → (s0.mem (s0.mem l2 i).ppn j).valid = true →
      (s0.mem (s0.mem l2 i).ppn j).ppn < s0.next)
    (hc2lo : s0.next ≤ c2) (hc2 : c2 < s.next)
    (hj0 : j0 < N) (hv : (s0.mem (s0.mem l2 i).ppn j0).valid = true)
    (hu : ∀ y, y < N → y ≠ j0 → (s0.mem (s0.mem l2 i).ppn y).valid = true →
      (s0.mem (s0.mem l2 i).ppn j0).ppn ≠ (s0.mem (s0.mem l2 i).ppn y).ppn)
    (hsame : ∀ t, s.mem (s0.mem (s0.mem l2 i).ppn j0).ppn t
      = s0.mem (s0.mem (s0.mem l2 i).ppn j0).ppn t)
    (k : Nat) (hk : k < N) (hvk : (s0.mem (s0.mem (s0.mem l2 i).ppn j0).ppn k).valid = true) :
    (cow_l2_body N l2 c2 i s).mem
        (s.next + 1 + countBelow j0 (fun y => (s0.mem (s0.mem l2 i).ppn y).valid)) k
      = cowChild (s0.mem (s0.mem (s0.mem l2 i).ppn j0).ppn k)
          (s0.mem (s.next + 1 + countBelow j0
            (fun y => (s0.mem (s0.mem l2 i).ppn y).valid)) k) := by
  have e2 : (s.mem l2 i).valid = (s0.mem l2 i).valid := (hev.old _ hp i).valid
  have hn := hev.next_le
  rw [cow_l2_body_eq, e2, hv2]
  simp only [if_true]
  generalize hsb : State.mk (fun p t =>
      if p = c2 ∧ t = i then { s.mem c2 i with ppn := s.next, valid := true } else s.mem p t)
      (s.next + 1) s.ledger = sb
  have b1 : sb.next = s.next + 1 := by rw [← hsb]
  have b3 : ∀ p t, ¬ (p = c2 ∧ t = i) → sb.mem p t = s.mem p t := by
    intro p t h; rw [← hsb]; simp only [h, if_false]
  have hevb : Evolves s0 sb := by
    refine ⟨by omega, fun p hp1 t => ?_, fun p hp1 t => ?_⟩
    · rw [b3 p t (fun h => by omega)]
      exact hev.fresh p (by omega) t
    · rw [b3 p t (fun h => by omega)]
      exact hev.old p hp1 t
  have hc1z : ∀ t, sb.mem s.next t = s0.mem s.next t := by
    intro t
    rw [b3 s.next t (fun h => by omega)]
    exact hev.fresh s.next (le_refl _) t
  have hsb' : ∀ t, sb.mem (s0.mem (s0.mem l2 i).ppn j0).ppn t
      = s0.mem (s0.mem (s0.mem l2 i).ppn j0).ppn t := by
    intro t
    have := hL0 j0 hj0 hv
    rw [b3 _ t (fun h => by omega)]
    exact hsame t
  have := cow_l1_loop_exact N s0 sb l2 i s.next j0 hevb hp hP1 hL0 hn (by omega) hc1z hj0 hv hu
    hsb' N (le_refl _) hj0 k hk hvk
  rw [b1] at this
  exact this

/-- The outer loop of `vms_fork_copy_on_write`, for a reached position `(i0, j0)`
whose L0 table is not named by another reached position and holds its original
words when the loop starts: once the position has been processed, the child's L0
table for it holds what the duplicator derives from the parent's original
entries. -/
theorem cow_l2_loop_exact (N : Nat) (s0 s : State) (l2 c2 i0 j0 : Nat)
    (hev : Evolves s0 s) (hin : TablesInUse N l2 s0)
    (hc2lo : s0.next ≤ c2) (hc2 : c2 + 1 = s.next) (hc2z : ∀ t, s.mem c2 t = s0.mem c2 t)
    (hi0 : i0 < N) (hj0 : j0 < N) (hr : Reached s0.mem l2 i0 j0)
    (hu : ∀ x, x < N → ∀ y, y < N → Reached s0.mem l2 x y → ¬ (x = i0 ∧ y = j0) →
      l0Table s0.mem l2 i0 j0 ≠ l0Table s0.mem l2 x y)
    (hsame : ∀ t, s.mem (l0Table s0.mem l2 i0 j0) t = s0.mem (l0Table s0.mem l2 i0 j0) t)
    (n : Nat) (hn : n ≤ N) (hn0 : i0 < n)
    (k : Nat) (hk : k < N) (hvk : (leafEntry s0.mem l2 i0 j0 k).valid = true) :
    (forLoop n (cow_l2_body N l2 c2) s).mem (cowL0Page N s0.mem l2 c2 i0 j0) k
      = cowChild (leafEntry s0.mem l2 i0 j0 k) (s0.mem (cowL0Page N s0.mem l2 c2 i0 j0) k) := by
  have hin' := hin
  obtain ⟨hroot, hl1, hl0⟩ := hin
  obtain ⟨hv2, hv1⟩ := hr
  unfold leafEntry l0Table l1Table at *
  induction n with
  | zero => omega
  | succ n ih =>
    obtain ⟨a1, -, a3⟩ := cow_l2_loop_more N s0 s l2 c2 hev hin' hc2lo hc2 hc2z n (by omega)
    obtain ⟨fr, -, -⟩ := cow_l2_loop_spec N s0 s l2 c2 hev hin' hc2lo (by omega) hc2z n
      (by omega)
    rw [forLoop_succ]
    by_cases hin0 : i0 = n
    · subst hin0
      have hs : ∀ t, (forLoop i0 (cow_l2_body N l2 c2) s).mem
          (s0.mem (s0.mem l2 i0).ppn j0).ppn t = s0.mem (s0.mem (s0.mem l2 i0).ppn j0).ppn t := by
        intro t
        rw [a3 _ (hl0 i0 hi0 j0 hj0 hv2 hv1) (fun x hx y hy h2 h1 =>
          hu x (by omega) y hy ⟨h2, h1⟩ (fun h => by omega)) t]
        exact hsame t
      have := cow_l2_body_exact N s0 _ l2 c2 i0 j0 (hev.frame fr) hroot hv2 (hl1 i0 hi0 hv2)
        (fun j hj => hl0 i0 hi0 j hj hv2) hc2lo (lt_of_lt_of_le (by omega) fr.next_le) hj0 hv1
        (fun y hy hne hvy => hu i0 hi0 y hy ⟨hv2, hvy⟩ (fun h => hne h.2)) hs k hk hvk
      rw [a1] at this
      exact this
    · have ih' := ih (by omega) (by omega)
      generalize forLoop n (cow_l2_body N l2 c2) s = sn at *
      have hev' : Evolves s0 sn := hev.frame fr
      have hc2' : c2 < sn.next := lt_of_lt_of_le (by omega) fr.next_le
      have hc2z' : sn.mem c2 n = s0.mem c2 n := by
        rw [fr.kept c2 hc2lo (by omega) n (fun _ h => lt_irrefl n h), hc2z]
      obtain ⟨f, -, -⟩ := cow_l2_body_spec N s0 sn l2 c2 n hev' hroot (hl1 n (by omega))
        (fun j hj => hl0 n (by omega) j hj) hc2lo hc2' hc2z'
      obtain ⟨c1, c3⟩ := cowL0Page_bounds N s0.mem l2 c2 i0 j0 hj0 hv2 hv1
      have c4 := cowL1Page_mono N s0.mem l2 c2 (show i0 + 1 ≤ n by omega)
      have c5 := cowL1Page_gt N s0.mem l2 c2 i0
      rw [f.kept _ (by omega) (by rw [a1]; omega) k (fun h => by omega)]
      exact ih'

/-- The child's leaf entry after `vms_fork_copy_on_write` at a mapped position whose
L0 table is not named by another reached position of the parent: it is what the
duplicator derives from the parent's original entry and the word the child's
page held, whatever that word was. -/
theorem cow_fork_leaf_exact (N root : Nat) (s0 : State) (i j k : Nat)
    (hin : TablesInUse N root s0) (hi : i < N) (hj : j < N) (hk : k < N)
    (hr : Reached s0.mem root i j) (hv0 : (leafEntry s0.mem root i j k).valid = true)
    (hu : ∀ x, x < N → ∀ y, y < N → Reached s0.mem root x y → ¬ (x = i ∧ y = j) →
      l0Table s0.mem root i j ≠ l0Table s0.mem root x y) :
    l1Table (vms_fork_copy_on_write N root s0).2.mem s0.next i
      = cowL1Page N s0.mem root s0.next i ∧
    l0Table (vms_fork_copy_on_write N root s0).2.mem s0.next i j
      = cowL0Page N s0.mem root s0.next i j ∧
    leafEntry (vms_fork_copy_on_write N root s0).2.mem s0.next i j k
      = cowChild (leafEntry s0.mem root i j k)
          (s0.mem (cowL0Page N s0.mem root s0.next i j) k) := by
  have hsa : Evolves s0 { s0 with next := s0.next + 1 } :=
    ⟨Nat.le_succ _, fun _ _ _ => rfl, fun _ _ _ => Down.down_refl _⟩
  have ex := cow_l2_loop_exact N s0 { s0 with next := s0.next + 1 } root s0.next i j
    hsa hin (le_refl _) rfl (fun _ => rfl) hi hj hr hu (fun _ => rfl) N (le_refl _) hi k hk hv0
  obtain ⟨-, more, -⟩ := cow_fork_more N root s0 hin
  obtain ⟨m1, m2⟩ := more i hi hr.1
  have m2 := m2 j hj hr.2
  have e1 : l1Table (vms_fork_copy_on_write N root s0).2.mem s0.next i
      = cowL1Page N s0.mem root s0.next i := m1
  have e0 : l0Table (vms_fork_copy_on_write N root s0).2.mem s0.next i j
      = cowL0Page N s0.mem root s0.next i j := by
    unfold l0Table; rw [e1]; exact m2
  refine ⟨e1, e0, ?_⟩
  unfold leafEntry
  rw [e0]
  exact ex

/-- C19: a parent tree has a valid, readable, writable, non-custom leaf entry at
position `(i, j, k)`, the only mapping of page `p`, whose ledger count is 0.
After `vms_fork_copy_on_write`, a `page_fault_handler` call on the child's entry
and one on the parent's entry, in either order, neither call is fatal, the two
entries are valid and name two distinct pages, both have `write` set and
`custom` clear, and both pages hold the contents `p` had before the fork.  The
accessor resolves the faulting address to position `(i, j, k)` of the tree it is
given; the parent's tables and `p` are pages in use, no L0 table of the parent is
its root, one of its L1 tables or `p`, and the L0 table of the position is not
named by another position of the parent.  Nothing is assumed about the
contents of the pages the allocator hands out. -/
theorem cow_end_to_end (pe : (Nat → Nat → PTE) → Nat → Nat → Nat → Addr) (va level : Nat)
    (N root : Nat) (s0 : State) (i j k : Nat) (childFirst : Bool)
    (hpe : ∀ m r, pe m r va level = (l0Table m r i j, k))
    (hin : TablesInUse N root s0) (hap : LevelsApart N s0.mem root)
    (hi : i < N) (hj : j < N) (hk : k < N) (hr : Reached s0.mem root i j)
    (hv : (leafEntry s0.mem root i j k).valid = true)
    (hrd : (leafEntry s0.mem root i j k).read = true)
    (hw : (leafEntry s0.mem root i j k).write = true)
    (hc : (leafEntry s0.mem root i j k).custom = false)
    (hp : (leafEntry s0.mem root i j k).ppn < s0.next)
    (hnt : ∀ x, x < N → ∀ y, y < N → Reached s0.mem root x y →
      (leafEntry s0.mem root i j k).ppn ≠ l0Table s0.mem root x y)
    (hu : ∀ x, x < N → ∀ y, y < N → Reached s0.mem root x y → ¬ (x = i ∧ y = j) →
      l0Table s0.mem root i j ≠ l0Table s0.mem root x y)
    (hled : s0.ledger (leafEntry s0.mem root i j k).ppn = 0)
    (hone : leafCount N s0.mem root (leafEntry s0.mem root i j k).ppn = 1) :
    (cow_scenario pe va level N root childFirst s0).2.1.isFatal = false ∧
    (cow_scenario pe va level N root childFirst s0).2.2.isFatal = false ∧
    (leafEntry (cow_scenario pe va level N root childFirst s0).2.2.state.mem root i j k).ppn
      ≠ (leafEntry (cow_scenario pe va level N root childFirst s0).2.2.state.mem
          (cow_scenario pe va level N root childFirst s0).1 i j k).ppn ∧
    (leafEntry (cow_scenario pe va level N root childFirst s0).2.2.state.mem root i j k).valid
      = true ∧
    (leafEntry (cow_scenario pe va level N root childFirst s0).2.2.state.mem root i j k).write
      = true ∧
    (leafEntry (cow_scenario pe va level N root childFirst s0).2.2.state.mem root i j k).custom
      = false ∧
    (leafEntry (cow_scenario pe va level N root childFirst s0).2.2.state.mem
        (cow_scenario pe va level N root childFirst s0).1 i j k).valid = true ∧
    (leafEntry (cow_scenario pe va level N root childFirst s0).2.2.state.mem
        (cow_scenario pe va level N root childFirst s0).1 i j k).write = true ∧
    (leafEntry (cow_scenario pe va level N root childFirst s0).2.2.state.mem
        (cow_scenario pe va level N root childFirst s0).1 i j k).custom = false ∧
    (∀ t, (cow_scenario pe va level N root childFirst s0).2.2.state.mem
        (leafEntry (cow_scenario pe va level N root childFirst s0).2.2.state.mem root i j k).ppn t
      = s0.mem (leafEntry s0.mem root i j k).ppn t) ∧
    (∀ t, (cow_scenario pe va level N root childFirst s0).2.2.state.mem
        (leafEntry (cow_scenario pe va level N root childFirst s0).2.2.state.mem
          (cow_scenario pe va level N root childFirst s0).1 i j k).ppn t
      = s0.mem (leafEntry s0.mem root i j k).ppn t) := by
  -- the state after the fork
  obtain ⟨-, hev, -, -, led⟩ := cow_fork_spec N root s0 hin
  obtain ⟨m1, -, m3⟩ := cow_fork_more N root s0 hin
  obtain ⟨p1, -, p3, -⟩ := cow_fork_leaf N root s0 i j k hin hi hj hk hr hv
  obtain ⟨t2, t5, t7⟩ := cow_fork_leaf_exact N root s0 i j k hin hi hj hk hr hv hu
  have hl := led (leafEntry s0.mem root i j k).ppn
  rw [hled, hone] at hl
  have hcont := m3 _ hp hnt
  have hnt1 := hnt i hi j hj hr
  obtain ⟨hroot, hl1, hl0⟩ := hin
  obtain ⟨a1, a2⟩ := hap i hi j hj hr
  have a2 := a2 i hi hr.1
  have hP1 : l1Table s0.mem root i < s0.next := hl1 i hi hr.1
  have hP0 : l0Table s0.mem root i j < s0.next := hl0 i hi j hj hr.1 hr.2
  have e1 : l1Table (vms_fork_copy_on_write N root s0).2.mem root i = l1Table s0.mem root i :=
    (hev.old root hroot i).ppn
  obtain ⟨b1, b2⟩ := cowL0Page_bounds N s0.mem root s0.next i j hj hr.1 hr.2
  have b3 := cowL1Page_gt N s0.mem root s0.next i
  have b4 := cowL1Page_mono N s0.mem root s0.next (show i + 1 ≤ N by omega)
  unfold cow_scenario
  simp only
  have hc0 : (vms_fork_copy_on_write N root s0).1 = s0.next := rfl
  rw [hc0]
  generalize (vms_fork_copy_on_write N root s0).2 = s1 at *
  have hP : leafEntry s1.mem root i j k
      = ⟨(leafEntry s0.mem root i j k).ppn, (leafEntry s0.mem root i j k).valid,
          (leafEntry s0.mem root i j k).read, false, true, (leafEntry s0.mem root i j k).rest⟩ := by
    rw [p3]; unfold cowParent; rw [hc, hw]; rfl
  have hC : leafEntry s1.mem s0.next i j k
      = ⟨(leafEntry s0.mem root i j k).ppn, true, true, false, true,
          (s0.mem (cowL0Page N s0.mem root s0.next i j) k).rest⟩ := by
    rw [t7]; unfold cowChild; rw [hrd, hw]; simp
  generalize hpd : (leafEntry s0.mem root i j k).ppn = p at *
  have hl2 : s1.ledger p = 2 := by rw [hl]; norm_num
  have hI : ∀ r, r = s0.next ∨ r = root → ∀ d : Addr, d = (r, i) ∨ d = (l1Table s1.mem r i, j) →
      d ≠ (l0Table s1.mem s0.next i j, k) ∧ d ≠ (l0Table s1.mem root i j, k) ∧
      d.1 ≠ s1.next := by
    intro r hr1 d hd
    rw [t5, p1]
    rcases hr1 with rfl | rfl <;> rcases hd with rfl | rfl
    · refine ⟨fun h => ?_, fun h => ?_, ?_⟩
      · have := congrArg Prod.fst h; simp only at this; omega
      · have := congrArg Prod.fst h; simp only at this; omega
      · simp only; omega
    · rw [t2]
      refine ⟨fun h => ?_, fun h => ?_, ?_⟩
      · have := congrArg Prod.fst h; simp only at this; omega
      · have := congrArg Prod.fst h; simp only at this; omega
      · simp only; omega
    · refine ⟨fun h => ?_, fun h => ?_, ?_⟩
      · have := congrArg Prod.fst h; simp only at this; omega
      · have := congrArg Prod.fst h; simp only at this; omega
      · simp only; omega
    · rw [e1]
      refine ⟨fun h => ?_, fun h => ?_, ?_⟩
      · have := congrArg Prod.fst h; simp only at this; omega
      · have := congrArg Prod.fst h; simp only at this; omega
      · simp only; omega
  cases childFirst
  · simp only [Bool.false_eq_true, if_false]
    obtain ⟨r1, r2, r3, r4, r5, r6⟩ := cow_resolve pe va level s1 root s0.next i j k p hpe
      (by rw [t5, p1]; omega)
      (fun r hr1 d hd => by
        obtain ⟨x1, x2, x3⟩ := hI r hr1.symm d hd
        exact ⟨x2, x1, x3⟩)
      (by rw [p1]; omega) (by rw [t5]; omega)
      (by rw [hP]; exact hv) (by rw [hP]) (by rw [hP]; exact hrd) (by rw [hP])
      (by rw [hC]) (by rw [hC]) (by rw [hC]) (by rw [hC])
      (by omega) (by rw [p1]; omega) (by rw [t5]; omega) hl2
    rw [r3, r4, hP, hC]
    refine ⟨r1, r2, ?_, hv, rfl, rfl, rfl, rfl, rfl, fun t => ?_, fun t => ?_⟩
    · simp only; omega
    · rw [← hcont t]; exact r5 t
    · rw [← hcont t]; exact r6 t
  · simp only [if_true]
    obtain ⟨r1, r2, r3, r4, r5, r6⟩ := cow_resolve pe va level s1 s0.next root i j k p hpe
      (by rw [t5, p1]; omega) hI
      (by rw [t5]; omega) (by rw [p1]; omega)
      (by rw [hC]) (by rw [hC]) (by rw [hC]) (by rw [hC])
      (by rw [hP]; exact hv) (by rw [hP]) (by rw [hP]; exact hrd) (by rw [hP])
      (by omega) (by rw [t5]; omega) (by rw [p1]; omega) hl2
    rw [r3, r4, hP, hC]
    refine ⟨r1, r2, ?_, hv, rfl, rfl, rfl, rfl, rfl, fun t => ?_, fun t => ?_⟩
    · simp only; omega
    · rw [← hcont t]; exact r6 t
    · rw [← hcont t]; exact r5 t

theorem cow_end_to_end_witness :
    TablesInUse 2 0 scenarioA ∧ LevelsApart 2 scenarioA.mem 0 ∧
    leafCount 2 scenarioA.mem 0 (leafEntry scenarioA.mem 0 0 0 0).ppn = 1 ∧
    ((cow_scenario (vms_page_table_pte_entry 2) 0 0 2 0 true scenarioA).2.1.isFatal = false ∧
      (cow_scenario (vms_page_table_pte_entry 2) 0 0 2 0 true scenarioA).2.2.isFatal = false ∧
      (leafEntry (cow_scenario (vms_page_table_pte_entry 2) 0 0 2 0 true
        scenarioA).2.2.state.mem 0 0 0 0).write = true) ∧
    ((cow_scenario (vms_page_table_pte_entry 2) 0 0 2 0 false scenarioA).2.1.isFatal = false ∧
      (cow_scenario (vms_page_table_pte_entry 2) 0 0 2 0 false scenarioA).2.2.isFatal = false ∧
      (leafEntry (cow_scenario (vms_page_table_pte_entry 2) 0 0 2 0 false
        scenarioA).2.2.state.mem 0 0 0 0).write = true) ∧
    (leafEntry (cow_scenario (vms_page_table_pte_entry 2) 0 0 2 0 true
      scenarioA).2.2.state.mem 0 0 0 0).ppn = 7 ∧
    (leafEntry (cow_scenario (vms_page_table_pte_entry 2) 0 0 2 0 false
      scenarioA).2.2.state.mem 0 0 0 0).ppn = 11 :=
  ⟨by decide, by decide, by decide,
   have h := cow_end_to_end (vms_page_table_pte_entry 2) 0 0 2 0 scenarioA 0 0 0 true
      (fun _ _ => rfl) (by decide) (by decide) (by decide) (by decide) (by decide)
      (by decide) (by decide) (by decide) (by decide) (by decide) (by decide) (by decide)
      (by decide) (by decide) (by decide)
   ⟨h.1, h.2.1, h.2.2.2.2.1⟩,
   have h := cow_end_to_end (vms_page_table_pte_entry 2) 0 0 2 0 scenarioA 0 0 0 false
      (fun _ _ => rfl) (by decide) (by decide) (by decide) (by decide) (by decide)
      (by decide) (by decide) (by decide) (by decide) (by decide) (by decide) (by decide)
      (by decide) (by decide) (by decide)
   ⟨h.1, h.2.1, h.2.2.2.2.1⟩,
   by decide, by decide⟩

/-! ## Theorems: counting the mappings of a page -/

theorem countBelow_congr (n : Nat) (f g : Nat → Bool) (h : ∀ k, k < n → f k = g k) :
    countBelow n f = countBelow n g := by
  unfold countBelow
  exact Finset.sum_congr rfl (fun k hk => by rw [h k (Finset.mem_range.1 hk)])

/-- Changing one term of a sum over a range. -/
theorem sum_range_update (n : Nat) (f g : Nat → Nat) (k0 : Nat) (hk0 : k0 < n)
    (h : ∀ k, k < n → k ≠ k0 → g k = f k) :
    ∑ k ∈ Finset.range n, g k + f k0 = ∑ k ∈ Finset.range n, f k + g k0 := by
  induction n with
  | zero => omega
  | succ n ih =>
    rw [Finset.sum_range_succ, Finset.sum_range_succ]
    by_cases hk : k0 = n
    · subst hk
      have : ∑ k ∈ Finset.range k0, g k = ∑ k ∈ Finset.range k0, f k :=
        Finset.sum_congr rfl (fun k hk => h k (by have := Finset.mem_range.1 hk; omega)
          (by have := Finset.mem_range.1 hk; omega))
      omega
    · have h1 := ih (by omega) (fun k hk1 hk2 => h k (by omega) hk2)
      have h2 := h n (Nat.lt_succ_self n) (fun e => hk e.symm)
      omega

theorem leafCountL0_eq (n : Nat) (mem : Nat → Nat → PTE) (l0 q : Nat) :
    leafCountL0 n mem l0 q = ∑ k ∈ Finset.range n, mapsTo (mem l0 k) q := rfl

/-- Two trees with the same valid entries at every level and the same frame
numbers in their valid leaf entries map every page equally often. -/
theorem leafCount_congr (N : Nat) (m1 m2 : Nat → Nat → PTE) (r1 r2 q : Nat)
    (h2 : ∀ i, i < N → (m1 r1 i).valid = (m2 r2 i).valid)
    (h1 : ∀ i, i < N → (m2 r2 i).valid = true → ∀ j, j < N →
      (m1 (l1Table m1 r1 i) j).valid = (m2 (l1Table m2 r2 i) j).valid)
    (h0 : ∀ i, i < N → ∀ j, j < N → Reached m2 r2 i j → ∀ k, k < N →
      mapsTo (leafEntry m1 r1 i j k) q = mapsTo (leafEntry m2 r2 i j k) q) :
    leafCount N m1 r1 q = leafCount N m2 r2 q := by
  unfold leafCount
  refine Finset.sum_congr rfl (fun i hi => ?_)
  have hi := Finset.mem_range.1 hi
  rw [h2 i hi]
  cases hv2 : (m2 r2 i).valid
  · rfl
  · simp only [if_true]
    unfold leafCountL1
    refine Finset.sum_congr rfl (fun j hj => ?_)
    have hj := Finset.mem_range.1 hj
    have e1 := h1 i hi hv2 j hj
    unfold l1Table at e1
    rw [e1]
    cases hv1 : (m2 (m2 r2 i).ppn j).valid
    · rfl
    · simp only [if_true]
      rw [leafCountL0_eq, leafCountL0_eq]
      refine Finset.sum_congr rfl (fun k hk => ?_)
      exact h0 i hi j hj ⟨hv2, hv1⟩ k (Finset.mem_range.1 hk)

/-- A mapped position contributes to the count of the page it maps. -/
theorem leafCount_pos (N : Nat) (m : Nat → Nat → PTE) (r i j k : Nat)
    (hi : i < N) (hj : j < N) (hk : k < N) (h : Mapped m r i j k) :
    1 ≤ leafCount N m r (leafEntry m r i j k).ppn := by
  obtain ⟨⟨hv2, hv1⟩, hv0⟩ := h
  unfold leafEntry l0Table l1Table at *
  have a0 : 1 ≤ leafCountL0 N m (m (m r i).ppn j).ppn (m (m (m r i).ppn j).ppn k).ppn := by
    rw [leafCountL0_eq]
    refine le_trans ?_ (Finset.single_le_sum (fun _ _ => Nat.zero_le _)
      (Finset.mem_range.2 hk))
    simp [mapsTo, hv0]
  have a1 : 1 ≤ leafCountL1 N m (m r i).ppn (m (m (m r i).ppn j).ppn k).ppn := by
    unfold leafCountL1
    refine le_trans ?_ (Finset.single_le_sum (fun _ _ => Nat.zero_le _)
      (Finset.mem_range.2 hj))
    simp only [hv1, if_true]
    exact a0
  unfold leafCount
  refine le_trans ?_ (Finset.single_le_sum (fun _ _ => Nat.zero_le _) (Finset.mem_range.2 hi))
  simp only [hv2, if_true]
  exact a1

/-- The count of a page in a tree after one leaf word of the tree has changed,
the tables of the tree being otherwise as they were. -/
theorem leafCount_update (N : Nat) (m m1 : Nat → Nat → PTE) (r i0 j0 k0 q : Nat)
    (hi0 : i0 < N) (hj0 : j0 < N) (hk0 : k0 < N) (hr : Reached m r i0 j0)
    (h2 : ∀ i, i < N → m1 r i = m r i)
    (h1 : ∀ i, i < N → (m r i).valid = true → ∀ j, j < N →
      m1 (l1Table m r i) j = m (l1Table m r i) j)
    (h0 : ∀ i, i < N → ∀ j, j < N → Reached m r i j → ∀ k, k < N →
      ¬ (i = i0 ∧ j = j0 ∧ k = k0) → leafEntry m1 r i j k = leafEntry m r i j k) :
    leafCount N m1 r q + mapsTo (leafEntry m r i0 j0 k0) q
      = leafCount N m r q + mapsTo (leafEntry m1 r i0 j0 k0) q := by
  obtain ⟨hv2, hv1⟩ := hr
  have tab : ∀ i, i < N → (m r i).valid = true → ∀ j, j < N →
      l0Table m1 r i j = l0Table m r i j := by
    intro i hi hv j hj
    unfold l0Table l1Table
    rw [h2 i hi]
    have := h1 i hi hv j hj
    unfold l1Table at this
    rw [this]
  -- the leaf table at the changed position
  have c0 : leafCountL0 N m1 (l0Table m r i0 j0) q + mapsTo (leafEntry m r i0 j0 k0) q
      = leafCountL0 N m (l0Table m r i0 j0) q + mapsTo (leafEntry m1 r i0 j0 k0) q := by
    rw [leafCountL0_eq, leafCountL0_eq]
    have e := sum_range_update N (fun k => mapsTo (m (l0Table m r i0 j0) k) q)
      (fun k => mapsTo (m1 (l0Table m r i0 j0) k) q) k0 hk0 (fun k hk hne => by
        have := h0 i0 hi0 j0 hj0 ⟨hv2, hv1⟩ k hk (fun h => hne h.2.2)
        unfold leafEntry at this
        rw [tab i0 hi0 hv2 j0 hj0] at this
        simp only [this])
    unfold leafEntry
    rw [tab i0 hi0 hv2 j0 hj0]
    exact e
  -- the L1 table above it
  have c1 : leafCountL1 N m1 (l1Table m r i0) q + mapsTo (leafEntry m r i0 j0 k0) q
      = leafCountL1 N m (l1Table m r i0) q + mapsTo (leafEntry m1 r i0 j0 k0) q := by
    unfold leafCountL1
    have e := sum_range_update N
      (fun j => if (m (l1Table m r i0) j).valid then
        leafCountL0 N m (m (l1Table m r i0) j).ppn q else 0)
      (fun j => if (m1 (l1Table m r i0) j).valid then
        leafCountL0 N m1 (m1 (l1Table m r i0) j).ppn q else 0) j0 hj0 (fun j hj hne => by
        simp only
        rw [h1 i0 hi0 hv2 j hj]
        cases hv : (m (l1Table m r i0) j).valid
        · rfl
        · simp only [if_true]
          rw [leafCountL0_eq, leafCountL0_eq]
          refine Finset.sum_congr rfl (fun k hk => ?_)
          have := h0 i0 hi0 j hj ⟨hv2, hv⟩ k (Finset.mem_range.1 hk) (fun h => hne h.2.1)
          unfold leafEntry at this
          rw [tab i0 hi0 hv2 j hj] at this
          unfold l0Table at this
          rw [this])
    simp only at e
    rw [h1 i0 hi0 hv2 j0 hj0] at e
    have hv1' : (m (l1Table m r i0) j0).valid = true := hv1
    rw [hv1'] at e
    simp only [if_true] at e
    have c0' := c0
    unfold l0Table at c0'
    unfold l1Table at e c0' ⊢
    omega
  unfold leafCount
  have e := sum_range_update N
    (fun i => if (m r i).valid then leafCountL1 N m (m r i).ppn q else 0)
    (fun i => if (m1 r i).valid then leafCountL1 N m1 (m1 r i).ppn q else 0) i0 hi0
    (fun i hi hne => by
      simp only
      rw [h2 i hi]
      cases hv : (m r i).valid
      · rfl
      · simp only [if_true]
        unfold leafCountL1
        refine Finset.sum_congr rfl (fun j hj => ?_)
        have hj := Finset.mem_range.1 hj
        have e1 := h1 i hi hv j hj
        unfold l1Table at e1
        rw [e1]
        cases hvj : (m (m r i).ppn j).valid
        · rfl
        · simp only [if_true]
          rw [leafCountL0_eq, leafCountL0_eq]
          refine Finset.sum_congr rfl (fun k hk => ?_)
          have := h0 i hi j hj ⟨hv, hvj⟩ k (Finset.mem_range.1 hk) (fun h => hne h.1)
          unfold leafEntry at this
          rw [tab i hi hv j hj] at this
          unfold l0Table l1Table at this
          rw [this])
  simp only at e
  rw [h2 i0 hi0, hv2] at e
  simp only [if_true] at e
  unfold l1Table at c1
  omega

/-! ### Sums over the live trees -/

theorem mappings_cons (n : Nat) (mem : Nat → Nat → PTE) (r : Nat) (live : List Nat) (q : Nat) :
    mappings n mem (r :: live) q = leafCount n mem r q + mappings n mem live q := by
  simp [mappings]

theorem mappings_congr (n : Nat) (m m1 : Nat → Nat → PTE) (live : List Nat) (q : Nat)
    (h : ∀ r, r ∈ live → leafCount n m1 r q = leafCount n m r q) :
    mappings n m1 live q = mappings n m live q := by
  induction live with
  | nil => rfl
  | cons r l ih =>
    rw [mappings_cons, mappings_cons, h r (List.mem_cons_self r l),
      ih (fun x hx => h x (List.mem_cons_of_mem r hx))]

theorem leafCount_le_mappings (n : Nat) (m : Nat → Nat → PTE) (live : List Nat) (q r : Nat)
    (hr : r ∈ live) : leafCount n m r q ≤ mappings n m live q := by
  induction live with
  | nil => exact absurd hr (List.not_mem_nil r)
  | cons x l ih =>
    rw [mappings_cons]
    rcases List.mem_cons.1 hr with h | h
    · rw [h]; omega
    · have := ih h; omega

/-- Two different live trees both count towards the mappings of a page. -/
theorem leafCount_add_le_mappings (n : Nat) (m : Nat → Nat → PTE) (live : List Nat)
    (q r x : Nat) (hr : r ∈ live) (hx : x ∈ live) (hne : r ≠ x) :
    leafCount n m r q + leafCount n m x q ≤ mappings n m live q := by
  induction live with
  | nil => exact absurd hr (List.not_mem_nil r)
  | cons y l ih =>
    rw [mappings_cons]
    rcases List.mem_cons.1 hr with h | h <;> rcases List.mem_cons.1 hx with h' | h'
    · exact absurd (h.trans h'.symm) hne
    · have := leafCount_le_mappings n m l q x h'; rw [h]; omega
    · have := leafCount_le_mappings n m l q r h; rw [h']; omega
    · have := ih h h'; omega

/-- The mappings of a page after the count of one live tree has changed. -/
theorem mappings_update (n : Nat) (m m1 : Nat → Nat → PTE) (live : List Nat) (q r a b : Nat)
    (hr : r ∈ live) (hnd : live.Nodup)
    (hother : ∀ x, x ∈ live → x ≠ r → leafCount n m1 x q = leafCount n m x q)
    (hthis : leafCount n m1 r q + a = leafCount n m r q + b) :
    mappings n m1 live q + a = mappings n m live q + b := by
  induction live with
  | nil => exact absurd hr (List.not_mem_nil r)
  | cons y l ih =>
    rw [mappings_cons, mappings_cons]
    obtain ⟨hy, hl⟩ := List.nodup_cons.1 hnd
    rcases List.mem_cons.1 hr with h | h
    · subst h
      have := mappings_congr n m m1 l q (fun x hx =>
        hother x (List.mem_cons_of_mem r hx) (fun e => hy (e ▸ hx)))
      omega
    · have h1 := ih h hl (fun x hx => hother x (List.mem_cons_of_mem y hx))
      have h2 := hother y (List.mem_cons_self y l) (fun e => hy (e ▸ h))
      omega

/-! ## Theorems: the forest of live trees -/

/-- A tree whose interior entries keep validity and frame numbers has the same
tables at the same positions. -/
theorem InteriorSame.tables {N : Nat} {m m1 : Nat → Nat → PTE} {x : Nat}
    (h : InteriorSame N m m1 x) (i j : Nat) (hi : i < N) (hj : j < N) :
    (m1 x i).valid = (m x i).valid ∧ l1Table m1 x i = l1Table m x i ∧
    (Reached m1 x i j ↔ Reached m x i j) ∧
    ((m x i).valid = true → l0Table m1 x i j = l0Table m x i j) := by
  obtain ⟨h2, h1⟩ := h
  obtain ⟨a1, a2⟩ := h2 i hi
  refine ⟨a1, a2, ?_, fun hv => ?_⟩
  · unfold Reached l1Table
    rw [a1, a2]
    cases hv : (m x i).valid
    · simp
    · have := (h1 i hi hv j hj).1
      unfold l1Table at this
      rw [this]
  · have := (h1 i hi hv j hj).2
    unfold l0Table l1Table at *
    rw [a2, this]

/-- A forest stays a forest when the allocation pointer grows, unallocated pages
stay zero-filled, interior entries keep validity and frame numbers, and valid
leaf entries name pages in use. -/
theorem Forest.transfer {N : Nat} {s s1 : State} {live : List Nat} (hf : Forest N s live)
    (hn : s.next ≤ s1.next) (hz : FreshZero s1)
    (hint : ∀ x, x ∈ live → InteriorSame N s.mem s1.mem x)
    (hleaf : ∀ x, x ∈ live → ∀ i, i < N → ∀ j, j < N → ∀ k, k < N → Reached s.mem x i j →
      (s1.mem (l0Table s.mem x i j) k).valid = true →
      (s1.mem (l0Table s.mem x i j) k).ppn < s1.next) :
    Forest N s1 live := by
  refine ⟨hf.nodup, fun r hr => ?_, ?_, ?_, hz⟩
  · obtain ⟨⟨hroot, hl1, hl0⟩, -⟩ := hf.inuse r hr
    have T := (hint r hr).tables
    refine ⟨⟨by omega, fun i hi hv => ?_, fun i hi j hj hv2 hv1 => ?_⟩,
      fun i hi j hj k hk hv2 hv1 hv0 => ?_⟩
    · obtain ⟨a1, a2, -, -⟩ := T i 0 hi (by omega)
      rw [a1] at hv
      have := hl1 i hi hv
      unfold l1Table at a2; rw [a2]; omega
    · obtain ⟨a1, a2, a3, a4⟩ := T i j hi hj
      have hr1 : Reached s.mem r i j := a3.1 ⟨hv2, hv1⟩
      have := hl0 i hi j hj hr1.1 hr1.2
      have e := a4 hr1.1
      unfold l0Table l1Table at e; rw [e]; omega
    · obtain ⟨a1, a2, a3, a4⟩ := T i j hi hj
      have hr1 : Reached s.mem r i j := a3.1 ⟨hv2, hv1⟩
      have e := a4 hr1.1
      unfold l0Table l1Table at e
      rw [e] at hv0 ⊢
      exact hleaf r hr i hi j hj k hk hr1 hv0
  · intro r hr x hx i hi j hj u hu v hv h1 h2 h3
    obtain ⟨-, -, a3, a4⟩ := (hint r hr).tables i j hi hj
    obtain ⟨-, -, b3, b4⟩ := (hint x hx).tables u v hu hv
    have h1' := a3.1 h1
    have h2' := b3.1 h2
    rw [a4 h1'.1, b4 h2'.1] at h3
    exact hf.inj r hr x hx i hi j hj u hu v hv h1' h2' h3
  · intro r hr x hx i hi j hj h1
    obtain ⟨-, -, a3, a4⟩ := (hint r hr).tables i j hi hj
    have h1' := a3.1 h1
    rw [a4 h1'.1]
    obtain ⟨c1, c2⟩ := hf.apart r hr x hx i hi j hj h1'
    refine ⟨c1, fun u hu hvu => ?_⟩
    obtain ⟨b1, b2, -, -⟩ := (hint x hx).tables u 0 hu (by omega)
    rw [b2]
    rw [b1] at hvu
    exact c2 u hu hvu

/-! ## Theorems: one fault in a forest -/

/-- Every call of `page_fault_handler` on an entry of a page in use has the effect
described by `FaultEffect`. -/
theorem handler_effect (pe : (Nat → Nat → PTE) → Nat → Nat → Nat → Addr)
    (va level pt : Nat) (s : State) (htab : (pe s.mem pt va level).1 ≠ s.next) :
    FaultEffect s (page_fault_handler pe va level pt s).state (pe s.mem pt va level) := by
  by_cases hsh : (s.rd (pe s.mem pt va level)).valid = true ∧
      (s.rd (pe s.mem pt va level)).custom = true ∧
      (s.rd (pe s.mem pt va level)).read = true ∧
      1 < s.ledger (s.rd (pe s.mem pt va level)).ppn
  · right
    obtain ⟨hv, hc, hr, hn⟩ := hsh
    obtain ⟨-, l2, l3⟩ := handler_shared_ledger pe va level pt s hv hc hr hn
    obtain ⟨e1, -, e3, e4, -⟩ := handler_shared_entry pe va level pt s hv hc hr hn htab
    exact ⟨hv, hn, l2, l3,
      fun b hb hb2 => handler_shared_frame pe va level pt s b hv hc hr hn hb hb2, e1, e4, e3⟩
  · left
    obtain ⟨n1, n2, n3, n4, -, n6, -⟩ := handler_not_shared pe va level pt s hsh
    refine ⟨n1, n2, n3, n4, n6, ?_⟩
    by_cases hf : (page_fault_handler pe va level pt s).isFatal = true
    · left
      rw [(handler_fatal_eq pe va level pt s).2 hf]
      rfl
    · right
      have hnf := (not_congr (handler_fatal_eq pe va level pt s).1).1 hf
      simp only [not_or, Bool.not_eq_false] at hnf
      obtain ⟨hv, hc, hr⟩ := hnf
      have hle : s.ledger (s.rd (pe s.mem pt va level)).ppn ≤ 1 := by
        by_contra h
        exact hsh ⟨hv, hc, hr, by omega⟩
      refine ⟨hle, ?_⟩
      rw [handler_sole_eq pe va level pt s hv hc hr hle]
      simp [FaultResult.state, State.rd, State.wr]

/-- A tree none of whose leaf entries maps page `q` does not count for `q`. -/
theorem leafCount_eq_zero (N : Nat) (m : Nat → Nat → PTE) (r q : Nat)
    (h : ∀ i, i < N → ∀ j, j < N → ∀ k, k < N → Mapped m r i j k →
      (leafEntry m r i j k).ppn ≠ q) :
    leafCount N m r q = 0 := by
  unfold leafCount
  refine Finset.sum_eq_zero (fun i hi => ?_)
  have hi := Finset.mem_range.1 hi
  cases hv2 : (m r i).valid
  · rfl
  · simp only [if_true]
    unfold leafCountL1
    refine Finset.sum_eq_zero (fun j hj => ?_)
    have hj := Finset.mem_range.1 hj
    cases hv1 : (m (m r i).ppn j).valid
    · rfl
    · simp only [if_true]
      rw [leafCountL0_eq]
      refine Finset.sum_eq_zero (fun k hk => ?_)
      have hk := Finset.mem_range.1 hk
      unfold mapsTo
      cases hv0 : (m (m (m r i).ppn j).ppn k).valid
      · rfl
      · have := h i hi j hj k hk ⟨⟨hv2, hv1⟩, hv0⟩
        unfold leafEntry l0Table l1Table at this
        simp [this]

section FaultInForest

variable {N : Nat} {s s1 : State} {live : List Nat} {r i0 j0 k0 : Nat}

/-- The words of the pages in use other than the faulting entry are kept. -/
theorem FaultEffect.fault_frame {a : Addr} (he : FaultEffect s s1 a) (b : Addr) (hb : b ≠ a)
    (hb2 : b.1 < s.next) : s1.rd b = s.rd b := by
  rcases he with ⟨-, -, h, -⟩ | ⟨-, -, -, -, h, -⟩
  · exact h b hb
  · exact h b hb (by omega)

theorem FaultEffect.next_le {a : Addr} (he : FaultEffect s s1 a) : s.next ≤ s1.next := by
  rcases he with ⟨h, -⟩ | ⟨-, -, h, -⟩ <;> omega

theorem FaultEffect.valid_eq {a : Addr} (he : FaultEffect s s1 a) :
    (s1.rd a).valid = (s.rd a).valid := by
  rcases he with ⟨-, -, -, h, -⟩ | ⟨h1, -, -, -, -, h2, -⟩
  · exact h
  · rw [h1, h2]

theorem FaultEffect.ppn_lt {a : Addr} (he : FaultEffect s s1 a)
    (h : (s.rd a).ppn < s.next) : (s1.rd a).ppn < s1.next := by
  rcases he with ⟨h1, -, -, -, h2, -⟩ | ⟨-, -, h1, -, -, -, h2, -⟩
  · rw [h1, h2]; exact h
  · rw [h1, h2]; omega

theorem FaultEffect.zero {a : Addr} (he : FaultEffect s s1 a) (ha : a.1 < s.next)
    (hz : FreshZero s) : FreshZero s1 := by
  intro p hp t
  have hb : (p, t) ≠ a := fun h => by
    have := he.next_le; rw [← h] at ha; simp only at ha; omega
  rcases he with ⟨h1, -, h, -⟩ | ⟨-, -, h1, -, h, -⟩
  · have := h (p, t) hb
    simp only [State.rd] at this
    rw [this]; exact hz p (by omega) t
  · have := h (p, t) hb (by simp only; omega)
    simp only [State.rd] at this
    rw [this]; exact hz p (by omega) t

/-- The faulting entry is a leaf slot, so the trees keep their interior words and
all their other leaf words. -/
theorem fault_tree (hf : Forest N s live) (hr : r ∈ live) (hi0 : i0 < N) (hj0 : j0 < N)
    (hre : Reached s.mem r i0 j0) (he : FaultEffect s s1 (l0Table s.mem r i0 j0, k0))
    (x : Nat) (hx : x ∈ live) :
    (∀ i, i < N → s1.mem x i = s.mem x i) ∧
    (∀ i, i < N → (s.mem x i).valid = true → ∀ j, j < N →
      s1.mem (l1Table s.mem x i) j = s.mem (l1Table s.mem x i) j) ∧
    (∀ i, i < N → ∀ j, j < N → Reached s.mem x i j → ∀ k,
      ¬ (x = r ∧ i = i0 ∧ j = j0 ∧ k = k0) →
      s1.mem (l0Table s.mem x i j) k = s.mem (l0Table s.mem x i j) k) := by
  obtain ⟨⟨hroot, hl1, hl0⟩, -⟩ := hf.inuse x hx
  obtain ⟨a1, a2⟩ := hf.apart r hr x hx i0 hi0 j0 hj0 hre
  refine ⟨fun i _ => ?_, fun i hi hv j _ => ?_, fun i hi j hj hxr k hne => ?_⟩
  · exact he.fault_frame (x, i) (fun h => a1 (congrArg Prod.fst h).symm) hroot
  · exact he.fault_frame (l1Table s.mem x i, j)
      (fun h => a2 i hi hv (congrArg Prod.fst h).symm) (hl1 i hi hv)
  · refine he.fault_frame (l0Table s.mem x i j, k) (fun h => hne ?_) (hl0 i hi j hj hxr.1 hxr.2)
    obtain ⟨b1, b2, b3⟩ := hf.inj x hx r hr i hi j hj i0 hi0 j0 hj0 hxr hre
      (congrArg Prod.fst h)
    exact ⟨b1, b2, b3, congrArg Prod.snd h⟩

theorem fault_interior (hf : Forest N s live) (hr : r ∈ live) (hi0 : i0 < N) (hj0 : j0 < N)
    (hre : Reached s.mem r i0 j0) (he : FaultEffect s s1 (l0Table s.mem r i0 j0, k0))
    (x : Nat) (hx : x ∈ live) : InteriorSame N s.mem s1.mem x := by
  obtain ⟨t1, t2, -⟩ := fault_tree hf hr hi0 hj0 hre he x hx
  exact ⟨fun i hi => by rw [t1 i hi]; exact ⟨rfl, rfl⟩,
    fun i hi hv j hj => by rw [t2 i hi hv j hj]; exact ⟨rfl, rfl⟩⟩

/-- A fault on a leaf slot of a live tree keeps the forest well formed. -/
theorem fault_forest (hf : Forest N s live) (hr : r ∈ live) (hi0 : i0 < N) (hj0 : j0 < N)
    (hk0 : k0 < N) (hre : Reached s.mem r i0 j0)
    (he : FaultEffect s s1 (l0Table s.mem r i0 j0, k0)) : Forest N s1 live := by
  obtain ⟨⟨-, -, hl0⟩, hdat⟩ := hf.inuse r hr
  have ha : l0Table s.mem r i0 j0 < s.next := hl0 i0 hi0 j0 hj0 hre.1 hre.2
  refine hf.transfer he.next_le (he.zero ha hf.zero)
    (fun x hx => fault_interior hf hr hi0 hj0 hre he x hx)
    (fun x hx i hi j hj k hk hxr hv => ?_)
  by_cases hpos : x = r ∧ i = i0 ∧ j = j0 ∧ k = k0
  · obtain ⟨rfl, rfl, rfl, rfl⟩ := hpos
    have hv' : (s.rd (l0Table s.mem x i j, k)).valid = true := by
      rw [← he.valid_eq]; exact hv
    exact he.ppn_lt (hdat i hi j hj k hk hre.1 hre.2 hv')
  · obtain ⟨-, -, t3⟩ := fault_tree hf hr hi0 hj0 hre he x hx
    rw [t3 i hi j hj hxr k hpos] at hv ⊢
    have := (hf.inuse x hx).2 i hi j hj k hk hxr.1 hxr.2 hv
    have := he.next_le
    unfold l0Table l1Table
    omega

/-- The positions of the live trees after a fault: the same are mapped, and away
from the faulting slot the leaf entries are as they were. -/
theorem fault_pos (hf : Forest N s live) (hr : r ∈ live) (hi0 : i0 < N) (hj0 : j0 < N)
    (hre : Reached s.mem r i0 j0) (he : FaultEffect s s1 (l0Table s.mem r i0 j0, k0))
    (x : Nat) (hx : x ∈ live) (i j k : Nat) (hi : i < N) (hj : j < N) :
    (Reached s1.mem x i j ↔ Reached s.mem x i j) ∧
    (Reached s.mem x i j → leafEntry s1.mem x i j k = s1.mem (l0Table s.mem x i j) k) ∧
    (Reached s.mem x i j → ¬ (x = r ∧ i = i0 ∧ j = j0 ∧ k = k0) →
      leafEntry s1.mem x i j k = leafEntry s.mem x i j k) ∧
    (Mapped s1.mem x i j k ↔ Mapped s.mem x i j k) := by
  obtain ⟨-, -, a3, a4⟩ := (fault_interior hf hr hi0 hj0 hre he x hx).tables i j hi hj
  obtain ⟨-, -, t3⟩ := fault_tree hf hr hi0 hj0 hre he x hx
  have e1 : Reached s.mem x i j → leafEntry s1.mem x i j k = s1.mem (l0Table s.mem x i j) k :=
    fun h => by unfold leafEntry; rw [a4 h.1]
  have e2 : Reached s.mem x i j →
      (leafEntry s1.mem x i j k).valid = (leafEntry s.mem x i j k).valid := by
    intro h
    rw [e1 h]
    by_cases hpos : x = r ∧ i = i0 ∧ j = j0 ∧ k = k0
    · obtain ⟨rfl, rfl, rfl, rfl⟩ := hpos
      exact he.valid_eq
    · rw [t3 i hi j hj h k hpos]; rfl
  refine ⟨a3, e1, fun h hpos => ?_, ?_⟩
  · rw [e1 h, t3 i hi j hj h k hpos]; rfl
  · unfold Mapped
    constructor
    · rintro ⟨h1, h2⟩
      exact ⟨a3.1 h1, by rw [← e2 (a3.1 h1)]; exact h2⟩
    · rintro ⟨h1, h2⟩
      exact ⟨a3.2 h1, by rw [e2 h1]; exact h2⟩

/-- While the ledger is all zero a fault leaves it so. -/
theorem fault_ledger_zero {a : Addr} (he : FaultEffect s s1 a) (h0 : ∀ q, s.ledger q = 0) :
    ∀ q, s1.ledger q = 0 := by
  rcases he with ⟨-, h, -⟩ | ⟨-, h, -⟩
  · rw [h]; exact h0
  · rw [h0] at h; omega

/-- A fault on a leaf slot of a live tree keeps every valid leaf entry writable
or custom. -/
theorem fault_noPlain (hf : Forest N s live) (hr : r ∈ live) (hi0 : i0 < N) (hj0 : j0 < N)
    (hre : Reached s.mem r i0 j0) (he : FaultEffect s s1 (l0Table s.mem r i0 j0, k0))
    (hwc : NoPlainReadOnly N s live) : NoPlainReadOnly N s1 live := by
  intro x hx i hi j hj k hk hm
  obtain ⟨p1, p2, p3, p4⟩ := fault_pos hf hr hi0 hj0 hre he x hx i j k hi hj
  have hm0 := p4.1 hm
  by_cases hpos : x = r ∧ i = i0 ∧ j = j0 ∧ k = k0
  · obtain ⟨rfl, rfl, rfl, rfl⟩ := hpos
    rw [p2 hre]
    rcases he with ⟨-, -, -, -, -, h | h⟩ | ⟨-, -, -, -, -, -, -, h⟩
    · have : s1.mem (l0Table s.mem x i j) k = leafEntry s.mem x i j k := h
      rw [this]
      exact hwc x hx i hi j hj k hk hm0
    · exact Or.inl h.2
    · exact Or.inl h
  · rw [p3 hm0.1 hpos]
    exact hwc x hx i hi j hj k hk hm0

end FaultInForest

theorem mappings_eq_zero (n : Nat) (m : Nat → Nat → PTE) (live : List Nat) (q : Nat)
    (h : ∀ r, r ∈ live → leafCount n m r q = 0) : mappings n m live q = 0 := by
  induction live with
  | nil => rfl
  | cons r l ih =>
    rw [mappings_cons, h r (List.mem_cons_self r l),
      ih (fun x hx => h x (List.mem_cons_of_mem r hx))]

/-- In a forest no leaf entry maps a page that is not yet allocated. -/
theorem Forest.unmapped {N : Nat} {s : State} {live : List Nat} (hf : Forest N s live)
    (q : Nat) (hq : s.next ≤ q) : mappings N s.mem live q = 0 := by
  refine mappings_eq_zero N s.mem live q (fun r hr => ?_)
  refine leafCount_eq_zero N s.mem r q (fun i hi j hj k hk hm => ?_)
  have := (hf.inuse r hr).2 i hi j hj k hk hm.1.1 hm.1.2 hm.2
  unfold leafEntry l0Table l1Table
  omega

theorem mapsTo_valid {e : PTE} (h : e.valid = true) (q : Nat) :
    mapsTo e q = if e.ppn = q then 1 else 0 := by
  unfold mapsTo; rw [h]; simp

section FaultCounted

variable {N : Nat} {s s1 : State} {live : List Nat} {r i0 j0 k0 : Nat}

/-- A fault on a mapped or unmapped leaf slot of a live tree keeps the ledger in
step with the mappings. -/
theorem fault_counted (hf : Forest N s live) (hr : r ∈ live) (hi0 : i0 < N) (hj0 : j0 < N)
    (hk0 : k0 < N) (hre : Reached s.mem r i0 j0)
    (he : FaultEffect s s1 (l0Table s.mem r i0 j0, k0)) (hc : Counted N s live) :
    Counted N s1 live := by
  have pos := fault_pos hf hr hi0 hj0 hre he
  have tree := fault_tree hf hr hi0 hj0 hre he
  have hint := fault_interior hf hr hi0 hj0 hre he
  -- the trees that do not hold the faulting slot count as before
  have hsame : ∀ x, x ∈ live → ∀ q,
      (x ≠ r ∨ ((s1.rd (l0Table s.mem r i0 j0, k0)).valid
          = (s.rd (l0Table s.mem r i0 j0, k0)).valid ∧
        (s1.rd (l0Table s.mem r i0 j0, k0)).ppn = (s.rd (l0Table s.mem r i0 j0, k0)).ppn)) →
      leafCount N s1.mem x q = leafCount N s.mem x q := by
    intro x hx q hcase
    refine leafCount_congr N s1.mem s.mem x x q (fun i hi => ((hint x hx).tables i 0 hi
      (by omega)).1) (fun i hi hv j hj => ?_) (fun i hi j hj hxr k hk => ?_)
    · obtain ⟨-, a2, -⟩ := (hint x hx).tables i j hi hj
      rw [a2]
      exact ((hint x hx).2 i hi hv j hj).1
    · obtain ⟨-, p2, p3, -⟩ := pos x hx i j k hi hj
      by_cases hpos : x = r ∧ i = i0 ∧ j = j0 ∧ k = k0
      · obtain ⟨rfl, rfl, rfl, rfl⟩ := hpos
        rcases hcase with h | ⟨h1, h2⟩
        · exact absurd rfl h
        · rw [p2 hxr]
          have h1' : (s1.mem (l0Table s.mem x i j) k).valid
              = (leafEntry s.mem x i j k).valid := h1
          have h2' : (s1.mem (l0Table s.mem x i j) k).ppn
              = (leafEntry s.mem x i j k).ppn := h2
          unfold mapsTo
          rw [h1', h2']
      · rw [p3 hxr hpos]
  obtain ⟨⟨-, -, hl0⟩, hdat⟩ := hf.inuse r hr
  rcases he with ⟨e1, e2, e3, e4, e5, e6⟩ | ⟨e1, e2, e3, e4, e5, e6, e7, e8⟩
  · -- not the shared case: the same mappings and the same ledger
    have hm : ∀ q, mappings N s1.mem live q = mappings N s.mem live q := fun q =>
      mappings_congr N s.mem s1.mem live q (fun x hx => hsame x hx q (Or.inr ⟨e4, e5⟩))
    refine ⟨fun q => by rw [hm, e2]; exact hc.enough q,
      fun x hx i hi j hj k hk hmap hw => ?_, fun h2 q => by rw [hm, e2]; exact hc.exact h2 q⟩
    obtain ⟨-, p2, p3, p4⟩ := pos x hx i j k hi hj
    have hm0 := p4.1 hmap
    rw [e2]
    by_cases hpos : x = r ∧ i = i0 ∧ j = j0 ∧ k = k0
    · obtain ⟨rfl, rfl, rfl, rfl⟩ := hpos
      rw [p2 hm0.1] at hw ⊢
      rcases e6 with h | h
      · have h' : s1.mem (l0Table s.mem x i j) k = leafEntry s.mem x i j k := h
        rw [h'] at hw ⊢
        exact hc.excl x hx i hi j hj k hk hm0 hw
      · have e5' : (s1.mem (l0Table s.mem x i j) k).ppn
            = (s.rd (l0Table s.mem x i j, k)).ppn := e5
        rw [e5']
        exact h.1
    · rw [p3 hm0.1 hpos] at hw ⊢
      exact hc.excl x hx i hi j hj k hk hm0 hw
  · -- the shared case: one mapping moves from the old page to the new one
    have hva : (leafEntry s.mem r i0 j0 k0).valid = true := e1
    have hpl : (leafEntry s.mem r i0 j0 k0).ppn < s.next := by
      have := hdat i0 hi0 j0 hj0 k0 hk0 hre.1 hre.2 hva
      unfold leafEntry l0Table l1Table; omega
    have hnew : leafEntry s1.mem r i0 j0 k0 = s1.rd (l0Table s.mem r i0 j0, k0) :=
      (pos r hr i0 j0 k0 hi0 hj0).2.1 hre
    have hupd : ∀ q, mappings N s1.mem live q
          + (if (leafEntry s.mem r i0 j0 k0).ppn = q then 1 else 0)
        = mappings N s.mem live q + (if s.next = q then 1 else 0) := by
      intro q
      refine mappings_update N s.mem s1.mem live q r _ _ hr hf.nodup
        (fun x hx hne => hsame x hx q (Or.inl hne)) ?_
      have := leafCount_update N s.mem s1.mem r i0 j0 k0 q hi0 hj0 hk0 hre
        (tree r hr).1 (tree r hr).2.1 (fun i hi j hj hxr k _ hne =>
          (pos r hr i j k hi hj).2.2.1 hxr (fun h => hne ⟨h.2.1, h.2.2.1, h.2.2.2⟩))
      rw [mapsTo_valid hva, hnew, mapsTo_valid e6, e7] at this
      exact this
    have hzero := hf.unmapped s.next (le_refl _)
    have hled : ∀ q, s1.ledger q = if q = s.next then 1
        else if q = (leafEntry s.mem r i0 j0 k0).ppn then s.ledger q - 1 else s.ledger q := by
      intro q; rw [e4]; rfl
    refine ⟨fun q => ?_, fun x hx i hi j hj k hk hmap hw => ?_, fun h2 q => ?_⟩
    · have h1 := hupd q
      have h2 := hc.enough q
      rw [hled q]
      by_cases hq : q = s.next
      · subst hq
        rw [hzero] at h1
        split_ifs at h1 ⊢ <;> omega
      · split_ifs at h1 ⊢ <;> omega
    · obtain ⟨-, p2, p3, p4⟩ := pos x hx i j k hi hj
      have hm0 := p4.1 hmap
      by_cases hpos : x = r ∧ i = i0 ∧ j = j0 ∧ k = k0
      · obtain ⟨rfl, rfl, rfl, rfl⟩ := hpos
        rw [hnew, e7, hled, if_pos rfl]
      · rw [p3 hm0.1 hpos] at hw ⊢
        have h1 := hc.excl x hx i hi j hj k hk hm0 hw
        have h2 := (hf.inuse x hx).2 i hi j hj k hk hm0.1.1 hm0.1.2 hm0.2
        have h3 : (leafEntry s.mem x i j k).ppn ≠ s.next := by
          unfold leafEntry l0Table l1Table; omega
        rw [hled, if_neg h3]
        split_ifs <;> omega
    · have h1 := hupd q
      have h3 := hc.exact h2 q
      rw [hled q]
      by_cases hq : q = s.next
      · subst hq
        rw [hzero] at h1
        split_ifs at h1 ⊢ <;> omega
      · split_ifs at h1 ⊢ <;> omega

end FaultCounted

/-! ## Theorems: one fork in a forest -/

section ForkInForest

variable {N : Nat} {s : State} {live : List Nat} {r : Nat}

/-- The trees that were live before `vms_fork_copy_on_write` keep the validity and
frame numbers of their interior entries, and their leaf entries are at most
downgraded. -/
theorem fork_old (hf : Forest N s live) (hr : r ∈ live) (x : Nat) (hx : x ∈ live) :
    InteriorSame N s.mem (vms_fork_copy_on_write N r s).2.mem x ∧
    ∀ i, i < N → ∀ j, j < N → Reached s.mem x i j → ∀ k,
      (Reached (vms_fork_copy_on_write N r s).2.mem x i j) ∧
      leafEntry (vms_fork_copy_on_write N r s).2.mem x i j k
        = (vms_fork_copy_on_write N r s).2.mem (l0Table s.mem x i j) k ∧
      Down (leafEntry s.mem x i j k) (leafEntry (vms_fork_copy_on_write N r s).2.mem x i j k) := by
  obtain ⟨-, hev, -, -, -⟩ := cow_fork_spec N r s (hf.inuse r hr).1
  obtain ⟨⟨hroot, hl1, hl0⟩, -⟩ := hf.inuse x hx
  generalize (vms_fork_copy_on_write N r s).2 = s1 at *
  have hint : InteriorSame N s.mem s1.mem x :=
    ⟨fun i _ => ⟨(hev.old x hroot i).valid, (hev.old x hroot i).ppn⟩,
     fun i hi hv j _ => ⟨(hev.old _ (hl1 i hi hv) j).valid, (hev.old _ (hl1 i hi hv) j).ppn⟩⟩
  refine ⟨hint, fun i hi j hj hxr k => ?_⟩
  obtain ⟨-, -, a3, a4⟩ := hint.tables i j hi hj
  have e : leafEntry s1.mem x i j k = s1.mem (l0Table s.mem x i j) k := by
    unfold leafEntry; rw [a4 hxr.1]
  refine ⟨a3.2 hxr, e, ?_⟩
  rw [e]
  exact hev.old _ (hl0 i hi j hj hxr.1 hxr.2) k

/-- The same positions of an old tree are mapped before and after the fork. -/
theorem fork_old_mapped (hf : Forest N s live) (hr : r ∈ live) (x : Nat) (hx : x ∈ live)
    (i j k : Nat) (hi : i < N) (hj : j < N) :
    Mapped (vms_fork_copy_on_write N r s).2.mem x i j k ↔ Mapped s.mem x i j k := by
  obtain ⟨hint, hleaf⟩ := fork_old hf hr x hx
  obtain ⟨-, -, a3, -⟩ := hint.tables i j hi hj
  unfold Mapped
  constructor
  · rintro ⟨h1, h2⟩
    have h1' := a3.1 h1
    exact ⟨h1', by rw [← (hleaf i hi j hj h1' k).2.2.valid]; exact h2⟩
  · rintro ⟨h1, h2⟩
    exact ⟨a3.2 h1, by rw [(hleaf i hi j hj h1 k).2.2.valid]; exact h2⟩

/-- After `vms_fork_copy_on_write` the live trees and the child form a forest. -/
theorem fork_forest (hf : Forest N s live) (hr : r ∈ live) :
    Forest N (vms_fork_copy_on_write N r s).2 ((vms_fork_copy_on_write N r s).1 :: live) := by
  have hin := (hf.inuse r hr).1
  have hdat := (hf.inuse r hr).2
  have hc : (vms_fork_copy_on_write N r s).1 = s.next := rfl
  obtain ⟨-, hev, hlt, -, -⟩ := cow_fork_spec N r s hin
  obtain ⟨m1, -, -⟩ := cow_fork_more N r s hin
  have tree := cow_child_tree N r s hin hf.zero
  have old := fork_old hf hr
  rw [hc]
  generalize (vms_fork_copy_on_write N r s).2 = s1 at *
  have hz1 : FreshZero s1 := fun p hp t => by
    rw [hev.fresh p hp t]; exact hf.zero p (by omega) t
  -- the old trees
  have hfo : Forest N s1 live := by
    refine hf.transfer hev.next_le hz1 (fun x hx => (old x hx).1)
      (fun x hx i hi j hj k hk hxr hv => ?_)
    obtain ⟨-, e, d⟩ := (old x hx).2 i hi j hj hxr k
    rw [← e] at hv ⊢
    rw [d.valid] at hv
    rw [d.ppn]
    have := (hf.inuse x hx).2 i hi j hj k hk hxr.1 hxr.2 hv
    unfold leafEntry l0Table l1Table
    omega
  -- the tables of the child
  have cv : ∀ i, i < N → (s1.mem s.next i).valid = (s.mem r i).valid :=
    fun i hi => (tree i 0 hi (by omega)).1
  have cl1 : ∀ i, i < N → (s.mem r i).valid = true →
      l1Table s1.mem s.next i = cowL1Page N s.mem r s.next i :=
    fun i hi h => (tree i 0 hi (by omega)).2.1 h
  have cr : ∀ i, i < N → ∀ j, j < N → (Reached s1.mem s.next i j ↔ Reached s.mem r i j) :=
    fun i hi j hj => (tree i j hi hj).2.2.1
  have cl0 : ∀ i, i < N → ∀ j, j < N → Reached s.mem r i j →
      l0Table s1.mem s.next i j = cowL0Page N s.mem r s.next i j :=
    fun i hi j hj h => ((tree i j hi hj).2.2.2 h).1
  have b1 : ∀ i, i < N → (s.mem r i).valid = true →
      s.next < cowL1Page N s.mem r s.next i ∧ cowL1Page N s.mem r s.next i < s1.next := by
    intro i hi h
    rw [m1]
    exact ⟨cowL1Page_gt _ _ _ _ _, cowL1Page_lt N s.mem r s.next hi h⟩
  have b0 : ∀ i, i < N → ∀ j, j < N → Reached s.mem r i j →
      s.next < cowL0Page N s.mem r s.next i j ∧ cowL0Page N s.mem r s.next i j < s1.next := by
    intro i hi j hj h
    rw [m1]
    obtain ⟨c1, c2⟩ := cowL0Page_bounds N s.mem r s.next i j hj h.1 h.2
    have c3 := cowL1Page_gt N s.mem r s.next i
    have c4 := cowL1Page_mono N s.mem r s.next (show i + 1 ≤ N by omega)
    omega
  have oldroot : ∀ x, x ∈ live → x < s.next := fun x hx => (hf.inuse x hx).1.1
  have oldl1 : ∀ x, x ∈ live → ∀ u, u < N → (s1.mem x u).valid = true →
      l1Table s1.mem x u < s.next := by
    intro x hx u hu hv
    obtain ⟨a1, a2, -, -⟩ := (old x hx).1.tables u 0 hu (by omega)
    rw [a2]
    rw [a1] at hv
    exact (hf.inuse x hx).1.2.1 u hu hv
  have oldl0 : ∀ x, x ∈ live → ∀ u, u < N → ∀ v, v < N → Reached s1.mem x u v →
      l0Table s1.mem x u v < s.next := by
    intro x hx u hu v hv h
    obtain ⟨-, -, a3, a4⟩ := (old x hx).1.tables u v hu hv
    have h' := a3.1 h
    rw [a4 h'.1]
    exact (hf.inuse x hx).1.2.2 u hu v hv h'.1 h'.2
  refine ⟨List.nodup_cons.2 ⟨fun h => by have := oldroot _ h; omega, hf.nodup⟩,
    fun x hx => ?_, ?_, ?_, hz1⟩
  · rcases List.mem_cons.1 hx with rfl | hx
    · refine ⟨⟨hlt, fun i hi hv => ?_, fun i hi j hj hv2 hv1 => ?_⟩,
        fun i hi j hj k hk hv2 hv1 hv0 => ?_⟩
      · rw [cv i hi] at hv
        have := (b1 i hi hv).2
        have e := cl1 i hi hv
        unfold l1Table at e; rw [e]; exact this
      · have h := (cr i hi j hj).1 ⟨hv2, hv1⟩
        have := (b0 i hi j hj h).2
        have e := cl0 i hi j hj h
        unfold l0Table l1Table at e; rw [e]; exact this
      · have h := (cr i hi j hj).1 ⟨hv2, hv1⟩
        obtain ⟨-, t6⟩ := (tree i j hi hj).2.2.2 h
        have hv0' : (leafEntry s1.mem s.next i j k).valid = true := hv0
        show (leafEntry s1.mem s.next i j k).ppn < s1.next
        cases hpv : (leafEntry s.mem r i j k).valid
        · rw [(t6 k hk).1 hpv] at hv0'
          exact absurd hv0' (by decide)
        · rw [(t6 k hk).2 hpv]
          have := hdat i hi j hj k hk h.1 h.2 hpv
          show (leafEntry s.mem r i j k).ppn < s1.next
          unfold leafEntry l0Table l1Table
          omega
    · exact hfo.inuse x hx
  · intro x hx y hy i hi j hj u hu v hv h1 h2 h3
    rcases List.mem_cons.1 hx with rfl | hx <;> rcases List.mem_cons.1 hy with rfl | hy
    · have h1' := (cr i hi j hj).1 h1
      have h2' := (cr u hu v hv).1 h2
      rw [cl0 i hi j hj h1', cl0 u hu v hv h2'] at h3
      exact ⟨rfl, cowL0Page_inj N s.mem r s.next i j u v hj hv h1'.1 h1'.2 h2'.1 h2'.2 h3⟩
    · have h1' := (cr i hi j hj).1 h1
      rw [cl0 i hi j hj h1'] at h3
      have := (b0 i hi j hj h1').1
      have := oldl0 y hy u hu v hv h2
      omega
    · have h2' := (cr u hu v hv).1 h2
      rw [cl0 u hu v hv h2'] at h3
      have := (b0 u hu v hv h2').1
      have := oldl0 x hx i hi j hj h1
      omega
    · exact hfo.inj x hx y hy i hi j hj u hu v hv h1 h2 h3
  · intro x hx y hy i hi j hj h1
    rcases List.mem_cons.1 hx with rfl | hx <;> rcases List.mem_cons.1 hy with rfl | hy
    · have h1' := (cr i hi j hj).1 h1
      rw [cl0 i hi j hj h1']
      refine ⟨by have := (b0 i hi j hj h1').1; omega, fun u hu hvu => ?_⟩
      rw [cv u hu] at hvu
      rw [cl1 u hu hvu]
      exact (cowL1Page_ne_cowL0Page N s.mem r s.next u i j hj h1'.1 h1'.2).symm
    · have h1' := (cr i hi j hj).1 h1
      rw [cl0 i hi j hj h1']
      have := (b0 i hi j hj h1').1
      refine ⟨by have := oldroot y hy; omega, fun u hu hvu => ?_⟩
      have := oldl1 y hy u hu hvu
      omega
    · have := oldl0 x hx i hi j hj h1
      refine ⟨by omega, fun u hu hvu => ?_⟩
      rw [cv u hu] at hvu
      rw [cl1 u hu hvu]
      have := (b1 u hu hvu).1
      omega
    · exact hfo.apart x hx y hy i hi j hj h1

end ForkInForest

section ForkCounted

variable {N : Nat} {s : State} {live : List Nat} {r : Nat}

theorem mapsTo_down {a b : PTE} (h : Down a b) (q : Nat) : mapsTo b q = mapsTo a q := by
  unfold mapsTo; rw [h.valid, h.ppn]

/-- After `vms_fork_copy_on_write` every old tree maps each page as often as
before, and the child maps it as often as the forked tree did. -/
theorem fork_counts (hf : Forest N s live) (hr : r ∈ live) (q : Nat) :
    (∀ x, x ∈ live →
      leafCount N (vms_fork_copy_on_write N r s).2.mem x q = leafCount N s.mem x q) ∧
    leafCount N (vms_fork_copy_on_write N r s).2.mem (vms_fork_copy_on_write N r s).1 q
      = leafCount N s.mem r q := by
  have hin := (hf.inuse r hr).1
  have hc : (vms_fork_copy_on_write N r s).1 = s.next := rfl
  have tree := cow_child_tree N r s hin hf.zero
  have old := fork_old hf hr
  rw [hc]
  generalize (vms_fork_copy_on_write N r s).2 = s1 at *
  refine ⟨fun x hx => ?_, ?_⟩
  · obtain ⟨hint, hleaf⟩ := old x hx
    refine leafCount_congr N s1.mem s.mem x x q (fun i hi => (hint.1 i hi).1)
      (fun i hi hv j hj => ?_) (fun i hi j hj hxr k _ => ?_)
    · rw [(hint.tables i j hi hj).2.1]
      exact (hint.2 i hi hv j hj).1
    · exact mapsTo_down (hleaf i hi j hj hxr k).2.2 q
  · refine leafCount_congr N s1.mem s.mem s.next r q (fun i hi => (tree i 0 hi (by omega)).1)
      (fun i hi hv j hj => ?_) (fun i hi j hj hxr k hk => ?_)
    · obtain ⟨t1, -, t3, -⟩ := tree i j hi hj
      unfold Reached at t3
      rw [t1, hv] at t3
      simp only [true_and] at t3
      exact Bool.eq_iff_iff.2 t3
    · obtain ⟨-, t6⟩ := (tree i j hi hj).2.2.2 hxr
      cases hpv : (leafEntry s.mem r i j k).valid
      · rw [(t6 k hk).1 hpv]
        unfold mapsTo
        rw [hpv]
        rfl
      · rw [(t6 k hk).2 hpv, mapsTo_valid hpv, mapsTo_valid rfl]

/-- After `vms_fork_copy_on_write` no valid leaf entry of the forked tree or of the
child is writable, and a child entry is custom if the forked tree's entry was
writable or custom. -/
theorem fork_leaves (hf : Forest N s live) (hr : r ∈ live) (i j k : Nat)
    (hi : i < N) (hj : j < N) (hk : k < N) :
    (Mapped (vms_fork_copy_on_write N r s).2.mem r i j k →
      (leafEntry (vms_fork_copy_on_write N r s).2.mem r i j k).write = false) ∧
    (Mapped (vms_fork_copy_on_write N r s).2.mem (vms_fork_copy_on_write N r s).1 i j k →
      Mapped s.mem r i j k ∧
      (leafEntry (vms_fork_copy_on_write N r s).2.mem
        (vms_fork_copy_on_write N r s).1 i j k).write = false ∧
      (leafEntry (vms_fork_copy_on_write N r s).2.mem
        (vms_fork_copy_on_write N r s).1 i j k).custom
        = ((leafEntry s.mem r i j k).custom || (leafEntry s.mem r i j k).write) ∧
      (leafEntry (vms_fork_copy_on_write N r s).2.mem
        (vms_fork_copy_on_write N r s).1 i j k).ppn = (leafEntry s.mem r i j k).ppn) := by
  have hin := (hf.inuse r hr).1
  have hc : (vms_fork_copy_on_write N r s).1 = s.next := rfl
  obtain ⟨-, -, t3, t4⟩ := cow_child_tree N r s hin hf.zero i j hi hj
  have leafP := cow_fork_leaf N r s i j k hin hi hj hk
  have om := fork_old_mapped hf hr r hr i j k hi hj
  rw [hc]
  generalize (vms_fork_copy_on_write N r s).2 = s1 at *
  refine ⟨fun hm => ?_, fun hm => ?_⟩
  · have hm0 := om.1 hm
    obtain ⟨-, -, p3, -⟩ := leafP hm0.1 hm0.2
    rw [p3]; rfl
  · have hr0 := t3.1 hm.1
    obtain ⟨-, t6⟩ := t4 hr0
    cases hpv : (leafEntry s.mem r i j k).valid
    · have := hm.2
      rw [(t6 k hk).1 hpv] at this
      exact absurd this (by decide)
    · rw [(t6 k hk).2 hpv]
      exact ⟨⟨hr0, hpv⟩, rfl, rfl, rfl⟩

/-- The first fork, from an all-zero ledger, brings the ledger in step with the
mappings of the two trees. -/
theorem fork_counted_first (hf : Forest N s [r]) (h0 : ∀ q, s.ledger q = 0) :
    Counted N (vms_fork_copy_on_write N r s).2 [(vms_fork_copy_on_write N r s).1, r] := by
  have hr : r ∈ [r] := List.mem_singleton.2 rfl
  obtain ⟨-, -, -, -, led⟩ := cow_fork_spec N r s (hf.inuse r hr).1
  have cnt := fork_counts hf hr
  have lv := fork_leaves hf hr
  generalize (vms_fork_copy_on_write N r s).2 = s1 at *
  generalize (vms_fork_copy_on_write N r s).1 = c at *
  have hm : ∀ q, s1.ledger q = (mappings N s1.mem [c, r] q : Int) := by
    intro q
    rw [led q, h0 q, mappings_cons, mappings_cons, (cnt q).2, (cnt q).1 r hr]
    simp only [mappings, List.map_nil, List.sum_nil]
    push_cast
    ring
  refine ⟨fun q => le_of_eq (hm q).symm, fun x hx i hi j hj k hk hmap hw => ?_, fun _ => hm⟩
  rcases List.mem_cons.1 hx with rfl | hx
  · rw [((lv i j k hi hj hk).2 hmap).2.1] at hw
    exact absurd hw (by decide)
  · rw [List.mem_singleton.1 hx] at hmap hw
    rw [(lv i j k hi hj hk).1 hmap] at hw
    exact absurd hw (by decide)

/-- A later fork keeps the ledger in step with the mappings. -/
theorem fork_counted (hf : Forest N s live) (hr : r ∈ live) (h2 : 2 ≤ live.length)
    (hc : Counted N s live) :
    Counted N (vms_fork_copy_on_write N r s).2 ((vms_fork_copy_on_write N r s).1 :: live) := by
  obtain ⟨-, -, -, -, led⟩ := cow_fork_spec N r s (hf.inuse r hr).1
  have cnt := fork_counts hf hr
  have lv := fork_leaves hf hr
  have old := fork_old hf hr
  have om := fork_old_mapped hf hr
  generalize (vms_fork_copy_on_write N r s).2 = s1 at *
  generalize (vms_fork_copy_on_write N r s).1 = c at *
  have hm : ∀ q, mappings N s1.mem (c :: live) q
      = leafCount N s.mem r q + mappings N s.mem live q := by
    intro q
    rw [mappings_cons, (cnt q).2, mappings_congr N s.mem s1.mem live q (cnt q).1]
  refine ⟨fun q => ?_, fun x hx i hi j hj k hk hmap hw => ?_, fun h => ?_⟩
  · have := hc.enough q
    rw [hm q, led q]
    push_cast
    omega
  · rcases List.mem_cons.1 hx with rfl | hx
    · rw [((lv i j k hi hj hk).2 hmap).2.1] at hw
      exact absurd hw (by decide)
    · by_cases hxr : x = r
      · subst hxr
        rw [(lv i j k hi hj hk).1 hmap] at hw
        exact absurd hw (by decide)
      · have hm0 := (om x hx i j k hi hj).1 hmap
        have d := ((old x hx).2 i hi j hj hm0.1 k).2.2
        have hw0 : (leafEntry s.mem x i j k).write = true := by
          rcases d with d | ⟨d1, d2⟩
          · rw [← d]; exact hw
          · exact d1
        have e1 := hc.excl x hx i hi j hj k hk hm0 hw0
        have e2 := hc.enough (leafEntry s.mem x i j k).ppn
        have e3 := leafCount_pos N s.mem x i j k hi hj hk hm0
        have e4 := leafCount_add_le_mappings N s.mem live (leafEntry s.mem x i j k).ppn r x
          hr hx (fun h => hxr h.symm)
        rw [d.ppn, led]
        omega
  · simp only [List.length_cons] at h
    omega

/-- A fork keeps every valid leaf entry writable or custom. -/
theorem fork_noPlain (hf : Forest N s live) (hr : r ∈ live)
    (hwc : NoPlainReadOnly N s live) :
    NoPlainReadOnly N (vms_fork_copy_on_write N r s).2
      ((vms_fork_copy_on_write N r s).1 :: live) := by
  have lv := fork_leaves hf hr
  have old := fork_old hf hr
  have om := fork_old_mapped hf hr
  generalize (vms_fork_copy_on_write N r s).2 = s1 at *
  generalize (vms_fork_copy_on_write N r s).1 = c at *
  intro x hx i hi j hj k hk hmap
  rcases List.mem_cons.1 hx with rfl | hx
  · obtain ⟨h1, -, h3, -⟩ := (lv i j k hi hj hk).2 hmap
    right
    rw [h3]
    rcases hwc r hr i hi j hj k hk h1 with h | h
    · rw [h]; simp
    · rw [h]; rfl
  · have hm0 := (om x hx i j k hi hj).1 hmap
    rcases ((old x hx).2 i hi j hj hm0.1 k).2.2 with d | ⟨-, d2⟩
    · rw [d]; exact hwc x hx i hi j hj k hk hm0
    · right; rw [d2]

end ForkCounted

/-! ## Theorems: the states reached by forks and faults -/

/-- A fault on a leaf slot of a live tree has the effect described by
`FaultEffect` on that slot. -/
theorem fault_effect {N : Nat} {s : State} {live : List Nat} (hf : Forest N s live)
    (pe : (Nat → Nat → PTE) → Nat → Nat → Nat → Addr) (va level r i j k : Nat)
    (hr : r ∈ live) (hi : i < N) (hj : j < N) (hre : Reached s.mem r i j)
    (hpe : pe s.mem r va level = (l0Table s.mem r i j, k)) :
    FaultEffect s (page_fault_handler pe va level r s).state (l0Table s.mem r i j, k) := by
  have h := handler_effect pe va level r s (by
    rw [hpe]
    have := (hf.inuse r hr).1.2.2 i hi j hj hre.1 hre.2
    show l0Table s.mem r i j ≠ s.next
    unfold l0Table l1Table
    omega)
  rw [hpe] at h
  exact h

/-- What holds in every state reached from a well-formed single tree with an
all-zero ledger: the live trees form a forest; until the first fork the ledger
stays all zero, and from the first fork on it is in step with the mappings; and
if no mapping of the initial tree is read-only without being custom, none
ever is. -/
theorem reach_inv (N r0 : Nat) (s0 : State) (hf0 : Forest N s0 [r0])
    (h0 : ∀ q, s0.ledger q = 0) {s : State} {live : List Nat} (h : Reach N r0 s0 s live) :
    Forest N s live ∧
    ((live = [r0] ∧ ∀ q, s.ledger q = 0) ∨ (2 ≤ live.length ∧ Counted N s live)) ∧
    (NoPlainReadOnly N s0 [r0] → NoPlainReadOnly N s live) := by
  induction h with
  | init => exact ⟨hf0, Or.inl ⟨rfl, h0⟩, fun h => h⟩
  | fork r _ hr ih =>
    obtain ⟨hf, hl, hwc⟩ := ih
    refine ⟨fork_forest hf hr, Or.inr ?_, fun h => fork_noPlain hf hr (hwc h)⟩
    rcases hl with ⟨hl, hz⟩ | ⟨hl, hc⟩
    · subst hl
      have : r = r0 := List.mem_singleton.1 hr
      subst this
      exact ⟨by simp, fork_counted_first hf hz⟩
    · exact ⟨by simp only [List.length_cons]; omega, fork_counted hf hr hl hc⟩
  | fault pe va level r i j k _ hr hi hj hk hre hpe ih =>
    obtain ⟨hf, hl, hwc⟩ := ih
    have he := fault_effect hf pe va level r i j k hr hi hj hre hpe
    refine ⟨fault_forest hf hr hi hj hk hre he, ?_,
      fun h => fault_noPlain hf hr hi hj hre he (hwc h)⟩
    rcases hl with ⟨hl, hz⟩ | ⟨hl, hc⟩
    · exact Or.inl ⟨hl, fault_ledger_zero he hz⟩
    · exact Or.inr ⟨hl, fault_counted hf hr hi hj hk hre he hc⟩

/-! ## Theorems: the invariants of the ledger -/

section BackedSteps

variable {N : Nat} {s : State} {live : List Nat} {r : Nat}

/-- After `vms_fork_copy_on_write` from a ledger without negative counts, every
page mapped by the forked tree or by the child has count at least 1. -/
theorem fork_backed_new (hf : Forest N s live) (hr : r ∈ live) (hnn : ∀ q, 0 ≤ s.ledger q)
    (x : Nat) (hx : x = (vms_fork_copy_on_write N r s).1 ∨ x = r) (i j k : Nat)
    (hi : i < N) (hj : j < N) (hk : k < N)
    (hm : Mapped (vms_fork_copy_on_write N r s).2.mem x i j k) :
    1 ≤ (vms_fork_copy_on_write N r s).2.ledger
      (leafEntry (vms_fork_copy_on_write N r s).2.mem x i j k).ppn := by
  obtain ⟨-, -, -, -, led⟩ := cow_fork_spec N r s (hf.inuse r hr).1
  have lv := fork_leaves hf hr i j k hi hj hk
  have old := fork_old hf hr r hr
  have om := fork_old_mapped hf hr r hr i j k hi hj
  have key : ∀ hm0 : Mapped s.mem r i j k,
      1 ≤ (vms_fork_copy_on_write N r s).2.ledger (leafEntry s.mem r i j k).ppn := by
    intro hm0
    have := leafCount_pos N s.mem r i j k hi hj hk hm0
    have := hnn (leafEntry s.mem r i j k).ppn
    rw [led]
    omega
  rcases hx with rfl | rfl
  · obtain ⟨h1, -, -, h4⟩ := lv.2 hm
    rw [h4]
    exact key h1
  · have hm0 := om.1 hm
    rw [(old.2 i hi j hj hm0.1 k).2.2.ppn]
    exact key hm0

/-- `vms_fork_copy_on_write` keeps every mapped page at count at least 1. -/
theorem fork_backed (hf : Forest N s live) (hr : r ∈ live) (hb : Backed N s live) :
    Backed N (vms_fork_copy_on_write N r s).2 ((vms_fork_copy_on_write N r s).1 :: live) := by
  obtain ⟨-, -, -, -, led⟩ := cow_fork_spec N r s (hf.inuse r hr).1
  have lv := fork_leaves hf hr
  have old := fork_old hf hr
  have om := fork_old_mapped hf hr
  intro x hx i hi j hj k hk hm
  have key : ∀ y, y ∈ live → Mapped s.mem y i j k →
      1 ≤ (vms_fork_copy_on_write N r s).2.ledger (leafEntry s.mem y i j k).ppn := by
    intro y hy hm0
    have := hb y hy i hi j hj k hk hm0
    rw [led]
    omega
  rcases List.mem_cons.1 hx with h | hx
  · rw [h] at hm ⊢
    obtain ⟨h1, -, -, h4⟩ := (lv i j k hi hj hk).2 hm
    rw [h4]
    exact key r hr h1
  · have hm0 := (om x hx i j k hi hj).1 hm
    rw [((old x hx).2 i hi j hj hm0.1 k).2.2.ppn]
    exact key x hx hm0

/-- A fault on a leaf slot of a live tree keeps every mapped page at count at
least 1. -/
theorem fault_backed {s1 : State} {i0 j0 k0 : Nat} (hf : Forest N s live) (hr : r ∈ live)
    (hi0 : i0 < N) (hj0 : j0 < N) (hre : Reached s.mem r i0 j0)
    (he : FaultEffect s s1 (l0Table s.mem r i0 j0, k0)) (hb : Backed N s live) :
    Backed N s1 live := by
  intro x hx i hi j hj k hk hm
  obtain ⟨-, p2, p3, p4⟩ := fault_pos hf hr hi0 hj0 hre he x hx i j k hi hj
  have hm0 := p4.1 hm
  have hb0 := hb x hx i hi j hj k hk hm0
  by_cases hpos : x = r ∧ i = i0 ∧ j = j0 ∧ k = k0
  · obtain ⟨rfl, rfl, rfl, rfl⟩ := hpos
    rw [p2 hm0.1]
    rcases he with ⟨-, e2, -, -, e5, -⟩ | ⟨-, -, -, e4, -, -, e7, -⟩
    · have e5' : (s1.mem (l0Table s.mem x i j) k).ppn = (leafEntry s.mem x i j k).ppn := e5
      rw [e5', e2]
      exact hb0
    · have e7' : (s1.mem (l0Table s.mem x i j) k).ppn = s.next := e7
      rw [e7', e4]
      simp
  · rw [p3 hm0.1 hpos]
    rcases he with ⟨-, e2, -⟩ | ⟨-, e2, -, e4, -⟩
    · rw [e2]; exact hb0
    · rw [e4]
      simp only
      split_ifs with h1 h2
      · exact le_refl _
      · rw [h2] at hb0 ⊢
        have : (s.rd (l0Table s.mem r i0 j0, k0)).ppn
            = (s.rd (l0Table s.mem r i0 j0, k0)).ppn := rfl
        omega
      · exact hb0

end BackedSteps

set_option synthInstance.maxHeartbeats 400000 in
set_option synthInstance.maxSize 4096 in
theorem scenarioA_forest : Forest 2 scenarioA [0] :=
  ⟨by decide, by decide, by decide, by decide, scenarioA_freshZero⟩

set_option synthInstance.maxHeartbeats 400000 in
set_option synthInstance.maxSize 4096 in
theorem readOnlyState_forest : Forest 2 readOnlyState [0] :=
  ⟨by decide, by decide, by decide, by decide, readOnlyState_freshZero⟩

/-- The state after the fork of Scenario A and the fault of the child is
reached from Scenario A. -/
theorem scenarioB_reach :
    Reach 2 0 scenarioA scenarioB.state [scenarioFork.1, 0] :=
  Reach.fault (vms_page_table_pte_entry 2) 0 0 scenarioFork.1 0 0 0
    (Reach.fork 0 Reach.init (by decide)) (List.mem_cons_self _ _)
    (by decide) (by decide) (by decide) (by decide) rfl

theorem int_wrap_of_range {x : Int} (h1 : INT_MIN ≤ x) (h2 : x ≤ INT_MAX) : int_wrap x = x := by
  unfold int_wrap INT_MIN INT_MAX at *
  omega

theorem int_wrap_incr (x : Int) : int_wrap (int_wrap x + 1) = int_wrap (x + 1) := by
  unfold int_wrap INT_MIN
  omega

theorem wrapLedger_of_int {s : State} (h : LedgerInt s) : wrapLedger s = s := by
  apply State.ext
  · rfl
  · rfl
  · funext q
    exact int_wrap_of_range (h q).1 (h q).2

theorem ledger_incr_int_wrap (s : State) (idx : Nat) :
    ledger_incr_int (wrapLedger s) idx = wrapLedger (ledger_incr s idx) := by
  apply State.ext
  · rfl
  · rfl
  · funext q
    simp only [ledger_incr_int, ledger_incr, wrapLedger]
    split_ifs
    · exact int_wrap_incr _
    · rfl

section WrapPrimitives

variable (s : State) (e : Addr)

theorem get_ppn_wrap : vms_pte_get_ppn (wrapLedger s) e = vms_pte_get_ppn s e := by
  unfold wrapLedger; rfl

theorem valid_wrap : vms_pte_valid (wrapLedger s) e = vms_pte_valid s e := by
  unfold wrapLedger; rfl

theorem read_wrap : vms_pte_read (wrapLedger s) e = vms_pte_read s e := by
  unfold wrapLedger; rfl

theorem write_wrap : vms_pte_write (wrapLedger s) e = vms_pte_write s e := by
  unfold wrapLedger; rfl

theorem custom_wrap : vms_pte_custom (wrapLedger s) e = vms_pte_custom s e := by
  unfold wrapLedger; rfl

theorem set_ppn_wrap (v : Nat) :
    vms_pte_set_ppn (wrapLedger s) e v = wrapLedger (vms_pte_set_ppn s e v) := by
  unfold wrapLedger; rfl

theorem valid_set_wrap : vms_pte_valid_set (wrapLedger s) e = wrapLedger (vms_pte_valid_set s e) := by
  unfold wrapLedger; rfl

theorem read_set_wrap : vms_pte_read_set (wrapLedger s) e = wrapLedger (vms_pte_read_set s e) := by
  unfold wrapLedger; rfl

theorem write_set_wrap : vms_pte_write_set (wrapLedger s) e = wrapLedger (vms_pte_write_set s e) := by
  unfold wrapLedger; rfl

theorem write_clear_wrap :
    vms_pte_write_clear (wrapLedger s) e = wrapLedger (vms_pte_write_clear s e) := by
  unfold wrapLedger; rfl

theorem custom_set_wrap :
    vms_pte_custom_set (wrapLedger s) e = wrapLedger (vms_pte_custom_set s e) := by
  unfold wrapLedger; rfl

theorem new_page_wrap : vms_new_page (wrapLedger s) = ((vms_new_page s).1, wrapLedger (vms_new_page s).2) := by
  unfold wrapLedger; rfl

end WrapPrimitives

theorem ite_wrap (c : Prop) [Decidable c] (a b : State) :
    (if c then wrapLedger a else wrapLedger b) = wrapLedger (if c then a else b) := by
  split_ifs <;> rfl

/-- The loops commute with storing the counts in an `int` when their bodies do. -/
theorem forLoop_wrap (b1 b2 : Nat → State → State)
    (h : ∀ i s, b1 i (wrapLedger s) = wrapLedger (b2 i s)) (n : Nat) (s : State) :
    forLoop n b1 (wrapLedger s) = wrapLedger (forLoop n b2 s) := by
  induction n with
  | zero => rfl
  | succ n ih => rw [forLoop_succ, forLoop_succ, ih, h]


theorem cow_l0_body_int_wrap (pl1e : Addr) (c0 k : Nat) (s : State) :
    cow_l0_body_int pl1e c0 k (wrapLedger s) = wrapLedger (cow_l0_body pl1e c0 k s) := by
  simp only [cow_l0_body_int, cow_l0_body, get_ppn_wrap, valid_wrap, read_wrap, write_wrap,
    custom_wrap, set_ppn_wrap, valid_set_wrap, read_set_wrap, write_set_wrap, write_clear_wrap,
    custom_set_wrap, ite_wrap, ledger_incr_int_wrap]

theorem cow_l1_body_int_wrap (n : Nat) (pl2e : Addr) (c1 j : Nat) (s : State) :
    cow_l1_body_int n pl2e c1 j (wrapLedger s) = wrapLedger (cow_l1_body n pl2e c1 j s) := by
  simp only [cow_l1_body_int, cow_l1_body, get_ppn_wrap, valid_wrap, new_page_wrap,
    set_ppn_wrap, valid_set_wrap]
  rw [forLoop_wrap _ _ (fun i s => cow_l0_body_int_wrap _ _ i s), ite_wrap]

theorem cow_l2_body_int_wrap (n : Nat) (l2 c2 i : Nat) (s : State) :
    cow_l2_body_int n l2 c2 i (wrapLedger s) = wrapLedger (cow_l2_body n l2 c2 i s) := by
  simp only [cow_l2_body_int, cow_l2_body, get_ppn_wrap, valid_wrap, new_page_wrap,
    set_ppn_wrap, valid_set_wrap]
  rw [forLoop_wrap _ _ (fun j s => cow_l1_body_int_wrap n _ _ j s), ite_wrap]

/-- The call in machine arithmetic does to memory and to the allocation pointer
what the call with unbounded counts does, and every count it leaves is the
unbounded count stored in an `int`. -/
theorem cow_fork_int_wrap (N root : Nat) (s : State) :
    vms_fork_copy_on_write_int N root (wrapLedger s)
      = ((vms_fork_copy_on_write N root s).1, wrapLedger (vms_fork_copy_on_write N root s).2) := by
  simp only [vms_fork_copy_on_write_int, vms_fork_copy_on_write, new_page_wrap]
  rw [forLoop_wrap _ _ (fun i s => cow_l2_body_int_wrap N root _ i s)]

/-- From a ledger of `int` counts, the call in machine arithmetic returns the
child and the memory of the call with unbounded counts, each count stored in an
`int`. -/
theorem cow_fork_int_of_int (N root : Nat) (s : State) (hint : LedgerInt s) :
    vms_fork_copy_on_write_int N root s
      = ((vms_fork_copy_on_write N root s).1, wrapLedger (vms_fork_copy_on_write N root s).2) := by
  have h := cow_fork_int_wrap N root s
  rwa [wrapLedger_of_int hint] at h

/-- The count `vms_fork_copy_on_write` leaves for a page, in machine arithmetic:
the count before the call plus twice the number of valid parent leaf entries
naming the page, stored in an `int`. -/
theorem cow_fork_int_ledger (N root : Nat) (s0 : State) (hin : TablesInUse N root s0)
    (hint : LedgerInt s0) (q : Nat) :
    (vms_fork_copy_on_write_int N root s0).2.ledger q
      = int_wrap (s0.ledger q + 2 * (leafCount N s0.mem root q : Int)) := by
  obtain ⟨-, -, -, -, led⟩ := cow_fork_spec N root s0 hin
  rw [cow_fork_int_of_int N root s0 hint, ← led q]
  rfl

/-- When no count overflows, the call in machine arithmetic is the call with
unbounded counts. -/
theorem cow_fork_int_eq (N root : Nat) (s0 : State) (hin : TablesInUse N root s0)
    (hint : LedgerInt s0) (hfit : CountsFit N s0 root) :
    vms_fork_copy_on_write_int N root s0 = vms_fork_copy_on_write N root s0 := by
  obtain ⟨-, -, -, -, led⟩ := cow_fork_spec N root s0 hin
  rw [cow_fork_int_of_int N root s0 hint, wrapLedger_of_int]
  intro q
  have h1 := hint q
  have h2 := hfit q
  rw [led q]
  constructor
  · have : (0 : Int) ≤ (leafCount N s0.mem root q : Int) := Int.natCast_nonneg _
    omega
  · exact h2

theorem leafCountL0_le (n : Nat) (mem : Nat → Nat → PTE) (l0 q : Nat) :
    leafCountL0 n mem l0 q ≤ n := by
  unfold leafCountL0 countBelow
  calc (∑ t ∈ Finset.range n,
          if ((mem l0 t).valid && decide ((mem l0 t).ppn = q)) = true then 1 else 0)
      ≤ ∑ _t ∈ Finset.range n, 1 := Finset.sum_le_sum (fun t _ => by split_ifs <;> omega)
    _ = n := by simp

theorem leafCountL1_le (n : Nat) (mem : Nat → Nat → PTE) (l1 q : Nat) :
    leafCountL1 n mem l1 q ≤ n * n := by
  unfold leafCountL1
  calc (∑ j ∈ Finset.range n,
          if (mem l1 j).valid = true then leafCountL0 n mem (mem l1 j).ppn q else 0)
      ≤ ∑ _j ∈ Finset.range n, n := Finset.sum_le_sum (fun j _ => by
          split_ifs
          · exact leafCountL0_le n mem _ q
          · exact Nat.zero_le _)
    _ = n * n := by simp

/-- A tree with `n` slots per table has at most `n * n * n` leaf entries. -/
theorem leafCount_le (n : Nat) (mem : Nat → Nat → PTE) (root q : Nat) :
    leafCount n mem root q ≤ n * (n * n) := by
  unfold leafCount
  calc (∑ i ∈ Finset.range n,
          if (mem root i).valid = true then leafCountL1 n mem (mem root i).ppn q else 0)
      ≤ ∑ _i ∈ Finset.range n, n * n := Finset.sum_le_sum (fun i _ => by
          split_ifs
          · exact leafCountL1_le n mem _ q
          · exact Nat.zero_le _)
    _ = n * (n * n) := by simp

theorem scenarioA_ledgerInt : LedgerInt scenarioA :=
  fun _ => ⟨show INT_MIN ≤ 0 by decide, show (0 : Int) ≤ INT_MAX by decide⟩

theorem scenarioA_countsFit : CountsFit 2 scenarioA 0 := by
  intro q
  have h := leafCount_le 2 scenarioA.mem 0 q
  have h0 : scenarioA.ledger q = 0 := rfl
  rw [h0]
  unfold INT_MAX
  omega

set_option synthInstance.maxHeartbeats 400000 in
set_option synthInstance.maxSize 4096 in
theorem maxedState_forest : Forest 2 maxedState [0] :=
  ⟨by decide, by decide, by decide, by decide, fun p hp t => scenarioA_freshZero p hp t⟩

/-- C8, as stated, fails: in Scenario A with the count of the mapped page 7 at
`INT_MAX`, the tables of the tree are pages in use and exactly one valid leaf
entry names page 7, yet after `vms_fork_copy_on_write` the count of page 7 is
`-2147483647`, not its count before the call plus 2. -/
theorem vms_fork_copy_on_write_ledger_counterexample :
    TablesInUse 2 0 maxedState ∧ LedgerInt maxedState ∧
    maxedState.ledger 7 = 2147483647 ∧ leafCount 2 maxedState.mem 0 7 = 1 ∧
    (vms_fork_copy_on_write_int 2 0 maxedState).2.ledger 7 = -2147483647 ∧
    (vms_fork_copy_on_write_int 2 0 maxedState).2.ledger 7
      ≠ maxedState.ledger 7 + 2 * (leafCount 2 maxedState.mem 0 7 : Int) :=
  ⟨by decide, fun q => by
      show INT_MIN ≤ (if q = 7 then (2147483647 : Int) else 0) ∧
        (if q = 7 then (2147483647 : Int) else 0) ≤ INT_MAX
      split_ifs <;> exact ⟨by decide, by decide⟩,
   by decide, by decide, by decide, by decide⟩

/-- C8 (amended): after `vms_fork_copy_on_write` on a tree whose tables are pages
in use, from a ledger of `int` counts, the count of every page `q` whose count
before the call plus twice the number of valid parent leaf entries (reached
through valid L2 and L1 entries) with frame number `q` does not exceed `INT_MAX`
is that sum; so a page with count 0 and a single mapping ends with count 2. -/
theorem vms_fork_copy_on_write_ledger (N root : Nat) (s0 : State)
    (hin : TablesInUse N root s0) (hint : LedgerInt s0) (q : Nat)
    (hfit : s0.ledger q + 2 * (leafCount N s0.mem root q : Int) ≤ INT_MAX) :
    (vms_fork_copy_on_write_int N root s0).2.ledger q
      = s0.ledger q + 2 * (leafCount N s0.mem root q : Int) ∧
    (s0.ledger q = 0 → leafCount N s0.mem root q = 1 →
      (vms_fork_copy_on_write_int N root s0).2.ledger q = 2) := by
  have led := cow_fork_int_ledger N root s0 hin hint q
  have key : (vms_fork_copy_on_write_int N root s0).2.ledger q
      = s0.ledger q + 2 * (leafCount N s0.mem root q : Int) := by
    rw [led]
    apply int_wrap_of_range _ hfit
    have h1 := (hint q).1
    have : (0 : Int) ≤ (leafCount N s0.mem root q : Int) := Int.natCast_nonneg _
    omega
  refine ⟨key, fun h0 h1 => ?_⟩
  rw [key, h0, h1]
  rfl

theorem vms_fork_copy_on_write_ledger_witness :
    TablesInUse 2 0 scenarioA ∧ LedgerInt scenarioA ∧
    scenarioA.ledger 7 + 2 * (leafCount 2 scenarioA.mem 0 7 : Int) ≤ INT_MAX ∧
    scenarioA.ledger 7 = 0 ∧ leafCount 2 scenarioA.mem 0 7 = 1 ∧
    (vms_fork_copy_on_write_int 2 0 scenarioA).2.ledger 7
      = scenarioA.ledger 7 + 2 * (leafCount 2 scenarioA.mem 0 7 : Int) ∧
    (vms_fork_copy_on_write_int 2 0 scenarioA).2.ledger 7 = 2 :=
  have h := vms_fork_copy_on_write_ledger 2 0 scenarioA (by decide) scenarioA_ledgerInt 7
    (by decide)
  ⟨by decide, scenarioA_ledgerInt, by decide, by decide, by decide, h.1, h.2 (by decide) (by decide)⟩

/-- C14, as stated, fails: with count 1 for the only mapped page, so that
every mapped page has count at least 1 before the call, `vms_fork_copy` returns
a child whose valid leaf entry maps a page with count 0; when the page that
becomes the child's L0 table holds a stale valid entry naming page 5,
`vms_fork_copy_on_write` returns a child with a valid leaf entry that maps page 5,
whose count is 0; and with the count of the only mapped page 7 at `INT_MAX`, in a
well-formed forest where every mapped page has count at least 1,
`vms_fork_copy_on_write` leaves page 7, mapped by the parent and by the child,
with count `-2147483647`. -/
theorem mapped_pages_backed_counterexample :
    Backed 2 ownedState [0] ∧
    Mapped (vms_fork_copy 2 0 ownedState).2.mem (vms_fork_copy 2 0 ownedState).1 0 0 0 ∧
    (vms_fork_copy 2 0 ownedState).2.ledger
      (leafEntry (vms_fork_copy 2 0 ownedState).2.mem
        (vms_fork_copy 2 0 ownedState).1 0 0 0).ppn = 0 ∧
    (AllInUse 2 0 (staleLeafState 5) ∧
      Mapped (vms_fork_copy_on_write_int 2 0 (staleLeafState 5)).2.mem
        (vms_fork_copy_on_write_int 2 0 (staleLeafState 5)).1 0 0 1 ∧
      (leafEntry (vms_fork_copy_on_write_int 2 0 (staleLeafState 5)).2.mem
        (vms_fork_copy_on_write_int 2 0 (staleLeafState 5)).1 0 0 1).ppn = 5 ∧
      (vms_fork_copy_on_write_int 2 0 (staleLeafState 5)).2.ledger 5 = 0) ∧
    (Forest 2 maxedState [0] ∧ Backed 2 maxedState [0] ∧
      Mapped (vms_fork_copy_on_write_int 2 0 maxedState).2.mem 0 0 0 0 ∧
      (leafEntry (vms_fork_copy_on_write_int 2 0 maxedState).2.mem 0 0 0 0).ppn = 7 ∧
      Mapped (vms_fork_copy_on_write_int 2 0 maxedState).2.mem
        (vms_fork_copy_on_write_int 2 0 maxedState).1 0 0 0 ∧
      (leafEntry (vms_fork_copy_on_write_int 2 0 maxedState).2.mem
        (vms_fork_copy_on_write_int 2 0 maxedState).1 0 0 0).ppn = 7 ∧
      (vms_fork_copy_on_write_int 2 0 maxedState).2.ledger 7 = -2147483647) :=
  ⟨by decide, by decide, by decide, ⟨by decide, by decide, by decide, by decide⟩,
   ⟨maxedState_forest, by decide, by decide, by decide, by decide, by decide, by decide⟩⟩

/-- C14 (amended): in a well-formed forest of live trees, when no increment of
the call overflows (the count of each page plus twice the number of valid leaf
entries of the forked tree naming it does not exceed `INT_MAX`), after
`vms_fork_copy_on_write` on a live tree from a ledger without negative counts
every page mapped by a valid leaf entry of the forked tree or of the child has
count at least 1; and if, the counts being `int` values, every page mapped by a
valid leaf entry of a live tree has count at least 1 before the call, the same
holds for all live trees, the child included, after `vms_fork_copy_on_write`; and
it holds for all live trees after `page_fault_handler` on a leaf slot of a live
tree. -/
theorem mapped_pages_backed (N : Nat) (s : State) (live : List Nat) (r : Nat)
    (hf : Forest N s live) (hr : r ∈ live) :
    (CountsFit N s r → (∀ q, 0 ≤ s.ledger q) →
      ∀ x, x = (vms_fork_copy_on_write_int N r s).1 ∨ x = r →
      ∀ i, i < N → ∀ j, j < N → ∀ k, k < N →
      Mapped (vms_fork_copy_on_write_int N r s).2.mem x i j k →
      1 ≤ (vms_fork_copy_on_write_int N r s).2.ledger
        (leafEntry (vms_fork_copy_on_write_int N r s).2.mem x i j k).ppn) ∧
    (LedgerInt s → CountsFit N s r → Backed N s live →
      Backed N (vms_fork_copy_on_write_int N r s).2
        ((vms_fork_copy_on_write_int N r s).1 :: live)) ∧
    (∀ (pe : (Nat → Nat → PTE) → Nat → Nat → Nat → Addr) (va level i j k : Nat),
      i < N → j < N → k < N → Reached s.mem r i j →
      pe s.mem r va level = (l0Table s.mem r i j, k) →
      Backed N s live → Backed N (page_fault_handler pe va level r s).state live) := by
  refine ⟨fun hfit hnn => ?_, fun hint hfit => ?_, fun pe va level i j k hi hj _ hre hpe hb =>
    fault_backed hf hr hi hj hre (fault_effect hf pe va level r i j k hr hi hj hre hpe) hb⟩
  · have hint : LedgerInt s := fun q => by
      have h1 := hnn q
      have h2 := hfit q
      have : (0 : Int) ≤ (leafCount N s.mem r q : Int) := Int.natCast_nonneg _
      unfold INT_MIN
      omega
    rw [cow_fork_int_eq N r s (hf.inuse r hr).1 hint hfit]
    exact fun x hx i hi j hj k hk hm => fork_backed_new hf hr hnn x hx i j k hi hj hk hm
  · rw [cow_fork_int_eq N r s (hf.inuse r hr).1 hint hfit]
    exact fork_backed hf hr

theorem mapped_pages_backed_witness :
    Forest 2 scenarioA [0] ∧ LedgerInt scenarioA ∧ CountsFit 2 scenarioA 0 ∧
    1 ≤ (vms_fork_copy_on_write_int 2 0 scenarioA).2.ledger
      (leafEntry (vms_fork_copy_on_write_int 2 0 scenarioA).2.mem
        (vms_fork_copy_on_write_int 2 0 scenarioA).1 0 0 0).ppn ∧
    Forest 2 scenarioFork.2 [scenarioFork.1, 0] ∧ Backed 2 scenarioFork.2 [scenarioFork.1, 0] ∧
    Backed 2 scenarioB.state [scenarioFork.1, 0] :=
  ⟨scenarioA_forest, scenarioA_ledgerInt, scenarioA_countsFit,
   (mapped_pages_backed 2 scenarioA [0] 0 scenarioA_forest (by decide)).1
     scenarioA_countsFit (fun _ => le_refl _) (vms_fork_copy_on_write_int 2 0 scenarioA).1
     (Or.inl rfl) 0 (by decide) 0 (by decide) 0 (by decide) (by decide),
   fork_forest scenarioA_forest (List.mem_singleton.2 rfl),
   by decide,
   (mapped_pages_backed 2 scenarioFork.2 [scenarioFork.1, 0] scenarioFork.1
      (fork_forest scenarioA_forest (List.mem_singleton.2 rfl)) (List.mem_cons_self _ _)).2.2
     (vms_page_table_pte_entry 2) 0 0 0 0 0 (by decide) (by decide) (by decide) (by decide) rfl
     (by decide)⟩

end Vms
